import Mathlib

/-!
Boost.Geometry `simplify`: a shallow embedding.

The definitions below embed `boost/geometry/algorithms/simplify.hpp` and, at the end of the
definitions, `setup_hammer` of `boost/geometry/srs/projections/proj/hammer.hpp` (which
computes in `double`; see the sections `Double` and `Hammer`).

* A range (linestring, ring, the working vectors) is a `List P` of points.
* The numeric type `Distance` / `distance_type` is a linearly ordered field `D`
  (exact arithmetic; the witnesses use `ℚ`).
* The collaborators that are not part of this file of the library (distance
  strategies, `result_from_distance`, `area`, `perimeter`) are parameters.
* Point equality (`equals_point_point`) is decidable equality on `P`.
* Output containers are passed in and returned (`out` is an in/out argument in
  the source).
-/

namespace BoostGeometry

/-- The `Impl` argument of the policies (`douglas_peucker<Point, PointDistanceStrategy>`),
reduced to the three collaborators the code obtains from it:
`distance_strategy` is `Impl::distance_strategy_type().apply(p, a, b)` (distance of `p`
to the segment `a b`), `comparable_distance` is the `comparable_type` of that strategy,
and `result_from_distance` converts a tolerance to the unit of the comparable strategy. -/
structure Impl (P D : Type) where
  distance_strategy : P → P → P → D
  comparable_distance : P → P → P → D
  result_from_distance : D → D

section Core

variable {P : Type} [Inhabited P] {D : Type} [LinearOrderedField D]

/-- The deviation `ps_distance_strategy.apply(it->p, begin->p, last->p)` that `consider`
computes for position `it` against the chord from position `b` to position `l`. -/
def douglas_peucker_.deviation (dist : P → P → P → D) (pts : List P) (b l it : Nat) : D :=
  dist (pts.getD it default) (pts.getD b default) (pts.getD l default)

/-- Body of the `for` loop of `douglas_peucker_::consider` (lines 183-199): the state is
`(md, candidate)`, `b` and `l` are the positions of `begin` and `last`. -/
def douglas_peucker_.scanStep (dist : P → P → P → D) (pts : List P) (b l : Nat)
    (st : D × Option Nat) (it : Nat) : D × Option Nat :=
  let d := douglas_peucker_.deviation dist pts b l it
  if st.1 < d then (d, some it) else st

/-- The loop `for (it = begin + 1; it != last; ++it)` of `consider`, started with
`md(-1.0)` and an unset `candidate`. -/
def douglas_peucker_.scan (dist : P → P → P → D) (pts : List P) (b l : Nat) : D × Option Nat :=
  (List.range' (b + 1) (l - (b + 1))).foldl (douglas_peucker_.scanStep dist pts b l) (-1, none)

/-- The recursive procedure `douglas_peucker_::consider(begin, end, max_dist, n, strategy)`.
`pts` are the points of `ref_candidates`, `inc` their `included` flags, `b` and `e` the
positions of `begin` and `end`. The recursion is structural on `fuel`; the caller passes
the size of the range, which is never exhausted (`consider_fuel`). The counter `n` of the
source is only incremented and never read, it is left out. When no interior point has a
deviation above `-1` the source leaves `candidate` unset; reading it (possible only for
`max_dist < -1`) has no defined behaviour and the embedding marks nothing there. -/
def douglas_peucker_.consider (dist : P → P → P → D) (pts : List P) (max_dist : D) :
    Nat → Nat → Nat → List Bool → List Bool
  | 0, _, _, inc => inc
  | fuel + 1, b, e, inc =>
    if e - b ≤ 2 then inc
    else
      let r := douglas_peucker_.scan dist pts b (e - 1)
      if max_dist < r.1 then
        match r.2 with
        | some c =>
          douglas_peucker_.consider dist pts max_dist fuel c e
            (douglas_peucker_.consider dist pts max_dist fuel b (c + 1) (inc.set c true))
        | none => inc
      else inc

/-- The `included` flags of `ref_candidates` at the end of `douglas_peucker_::apply`
(lines 235-246): all false, then first and last set, then `consider` on the whole vector. -/
def douglas_peucker_.included (dist : P → P → P → D) (range : List P) (max_distance : D) :
    List Bool :=
  douglas_peucker_.consider dist range max_distance range.length 0 range.length
    (((List.replicate range.length false).set 0 true).set (range.length - 1) true)

/-- The copy loop of `douglas_peucker_::apply` (lines 249-262): the points whose flag is set,
in order. -/
def douglas_peucker_.copy_included (pts : List P) (inc : List Bool) : List P :=
  ((pts.zip inc).filter (fun x => x.2)).map Prod.fst

/-- The points `douglas_peucker_::apply(range, out, max_distance)` writes to `out`. -/
def douglas_peucker_.apply (dist : P → P → P → D) (range : List P) (max_distance : D) :
    List P :=
  douglas_peucker_.copy_included range (douglas_peucker_.included dist range max_distance)

/-- The points `douglas_peucker::apply` writes: `douglas_peucker_` over the comparable
strategy, with the tolerance converted by `result_from_distance`. -/
def douglas_peucker.apply (impl : Impl P D) (range : List P) (max_distance : D) : List P :=
  douglas_peucker_.apply impl.comparable_distance range (impl.result_from_distance max_distance)

end Core

section Range

variable {P : Type} [DecidableEq P] [Inhabited P] {D : Type} [LinearOrderedField D]

/-- The function `is_degenerate`: exactly two points, and they are equal. -/
def is_degenerate (range : List P) : Bool :=
  range.length == 2 && decide (range.head? = range.getLast?)

/-- The points `simplify_range_insert::apply` writes to its output iterator. -/
def simplify_range_insert.apply (impl : Impl P D) (range : List P) (max_distance : D) :
    List P :=
  if is_degenerate range then range.take 1
  else if range.length ≤ 2 ∨ max_distance < 0 then range
  else douglas_peucker.apply impl range max_distance

/-- The policy `simplify_copy::apply`: the range is appended to `out`. -/
def simplify_copy.apply (range out : List P) : List P :=
  out ++ range

/-- The container `out` of `simplify_range::apply` before the final degeneracy check
(lines 402-410). -/
def simplify_range.fill (MinimumToUseStrategy : Nat) (impl : Impl P D) (range out : List P)
    (max_distance : D) : List P :=
  if range.length ≤ MinimumToUseStrategy ∨ max_distance < 0 then
    simplify_copy.apply range out
  else
    out ++ simplify_range_insert.apply impl range max_distance

/-- The policy `simplify_range<MinimumToUseStrategy>::apply(range, out, max_distance, ...)`;
the result is the new value of `out`. -/
def simplify_range.apply (MinimumToUseStrategy : Nat) (impl : Impl P D) (range out : List P)
    (max_distance : D) : List P :=
  let out1 := simplify_range.fill MinimumToUseStrategy impl range out max_distance
  if is_degenerate out1 then out1.take 1 else out1

end Range

section Ring

variable {P : Type} [DecidableEq P] [Inhabited P] {D : Type} [LinearOrderedField D]

/-- The function `simplify_ring::area_sign`. -/
def simplify_ring.area_sign (area : D) : Int :=
  if area > 0 then 1 else if area < 0 then -1 else 0

/-- The `for` loop of `simplify_ring::get_opposite` over the remaining vertices: `i` is the
position of `it`, the state is `(max_distance, index)`. -/
def simplify_ring.get_opposite_loop (dist : P → P → P → D) (point : P) :
    List P → Nat → D → Nat → Nat
  | [], _, _, index => index
  | it :: rest, i, max_distance, index =>
    if dist it point point > max_distance then
      simplify_ring.get_opposite_loop dist point rest (i + 1) (dist it point point) i
    else
      simplify_ring.get_opposite_loop dist point rest (i + 1) max_distance index

/-- The function `simplify_ring::get_opposite(index, ring, impl, strategies)`. -/
def simplify_ring.get_opposite (impl : Impl P D) (index : Nat) (ring : List P) : Nat :=
  simplify_ring.get_opposite_loop impl.distance_strategy (ring.getD index default) ring 0 (-1)
    index

/-- The `switch (iteration)` of `simplify_ring::apply` (lines 501-506). -/
def simplify_ring.advance (size iteration index : Nat) : Nat :=
  if iteration = 1 then (index + size / 4) % size
  else if iteration = 2 then (index + size / 8) % size
  else if iteration = 3 then (index + size / 4) % size
  else index

/-- The statements `std::rotate_copy(begin(ring), pos(ring, index), end(ring), rotated.begin())`
and `rotated.push_back(at(ring, index))` (lines 515-519): the first `size` places of
`rotated` are overwritten with the ring rotated to start at `index`. -/
def simplify_ring.rotate_close (ring rotated : List P) (index : Nat) : List P :=
  (ring.drop index ++ ring.take index) ++ rotated.drop ring.length ++ [ring.getD index default]

/-- The `for (iteration = 0; iteration < 4u; iteration++)` loop of `simplify_ring::apply`,
with `remaining = 4 - iteration` iterations left; the state is `index`, `visited_indexes`,
`rotated` and `out`. A `return` of the source ends the recursion with the value of `out`. -/
def simplify_ring.iterations (impl : Impl P D) (area perimeter : List P → D) (ring : List P)
    (max_distance : D) (input_sign : Int) :
    Nat → Nat → Nat → List Nat → List P → List P → List P
  | 0, _, _, _, _, out => out
  | remaining + 1, iteration, index, visited_indexes, rotated, out =>
    let index1 := simplify_ring.get_opposite impl
      (simplify_ring.advance ring.length iteration index) ring
    if index1 ∈ visited_indexes then
      simplify_ring.iterations impl area perimeter ring max_distance input_sign
        remaining (iteration + 1) index1 visited_indexes rotated out
    else
      let rotated1 := simplify_ring.rotate_close ring rotated index1
      let out1 := simplify_range.apply 0 impl rotated1 out max_distance
      if simplify_ring.area_sign (area out1) = input_sign then out1
      else if iteration = 0 ∧ perimeter ring < 3 * max_distance then []
      else
        simplify_ring.iterations impl area perimeter ring max_distance input_sign
          remaining (iteration + 1) index1 (index1 :: visited_indexes)
          (rotated1.take ring.length) []

/-- The policy `simplify_ring::apply(ring, out, max_distance, impl, strategies)`; the result
is the new value of `out`. `area` and `perimeter` are `geometry::area` and
`geometry::perimeter`. -/
def simplify_ring.apply (impl : Impl P D) (area perimeter : List P → D) (ring out : List P)
    (max_distance : D) : List P :=
  if ring.length = 0 then out
  else
    simplify_ring.iterations impl area perimeter ring max_distance
      (simplify_ring.area_sign (area ring)) 4 0 0 [] (List.replicate ring.length default) out

end Ring

section Polygon

variable {P : Type} [DecidableEq P] [Inhabited P] {D : Type} [LinearOrderedField D]

/-- A polygon: its exterior ring and its interior rings. -/
structure polygon (P : Type) where
  outer : List P
  inners : List (List P)

/-- The loop `simplify_polygon::iterate`: every input ring is simplified into a fresh ring,
which is pushed back to `interior_rings_out` unless it is empty. -/
def simplify_polygon.iterate (impl : Impl P D) (area perimeter : List P → D) :
    List (List P) → List (List P) → D → List (List P)
  | [], interior_rings_out, _ => interior_rings_out
  | it :: rest, interior_rings_out, max_distance =>
    let out := simplify_ring.apply impl area perimeter it [] max_distance
    if ¬ out.isEmpty then
      simplify_polygon.iterate impl area perimeter rest (interior_rings_out ++ [out]) max_distance
    else
      simplify_polygon.iterate impl area perimeter rest interior_rings_out max_distance

/-- The function `simplify_polygon::apply_interior_rings`: the output collection is cleared
(its prior value is not used) and then filled by `iterate`. -/
def simplify_polygon.apply_interior_rings (impl : Impl P D) (area perimeter : List P → D)
    (interior_rings_in _interior_rings_out : List (List P)) (max_distance : D) :
    List (List P) :=
  simplify_polygon.iterate impl area perimeter interior_rings_in [] max_distance

/-- The policy `simplify_polygon::apply(poly_in, poly_out, max_distance, impl, strategies)`;
the result is the new value of `poly_out`. -/
def simplify_polygon.apply (impl : Impl P D) (area perimeter : List P → D)
    (poly_in poly_out : polygon P) (max_distance : D) : polygon P :=
  { outer := simplify_ring.apply impl area perimeter poly_in.outer poly_out.outer max_distance
    inners := simplify_polygon.apply_interior_rings impl area perimeter poly_in.inners
      poly_out.inners max_distance }

end Polygon

section RingHistory

variable {P : Type} [DecidableEq P] [Inhabited P] {D : Type} [LinearOrderedField D]

/-- The values of one executed iteration of the loop of `simplify_ring::apply`: the loop
counter `iteration`, the value `trial` of `index` after the `switch`, the value `index` after
`get_opposite`, and the ring `candidate` that `simplify_range<0>` wrote to `out` (`none` when
the iteration was left by `continue` because the index was already visited). -/
structure simplify_ring.attempt (P : Type) where
  iteration : Nat
  trial : Nat
  index : Nat
  candidate : Option (List P)
deriving DecidableEq

/-- The history of the loop of `simplify_ring::apply`: it follows the control flow of
`simplify_ring.iterations` statement by statement and records one `attempt` per executed
iteration instead of returning `out`. -/
def simplify_ring.history (impl : Impl P D) (area perimeter : List P → D) (ring : List P)
    (max_distance : D) (input_sign : Int) :
    Nat → Nat → Nat → List Nat → List P → List P → List (simplify_ring.attempt P)
  | 0, _, _, _, _, _ => []
  | remaining + 1, iteration, index, visited_indexes, rotated, out =>
    let trial := simplify_ring.advance ring.length iteration index
    let index1 := simplify_ring.get_opposite impl trial ring
    if index1 ∈ visited_indexes then
      ⟨iteration, trial, index1, none⟩ ::
        simplify_ring.history impl area perimeter ring max_distance input_sign
          remaining (iteration + 1) index1 visited_indexes rotated out
    else
      let rotated1 := simplify_ring.rotate_close ring rotated index1
      let out1 := simplify_range.apply 0 impl rotated1 out max_distance
      if simplify_ring.area_sign (area out1) = input_sign then
        [⟨iteration, trial, index1, some out1⟩]
      else if iteration = 0 ∧ perimeter ring < 3 * max_distance then
        [⟨iteration, trial, index1, some out1⟩]
      else
        ⟨iteration, trial, index1, some out1⟩ ::
          simplify_ring.history impl area perimeter ring max_distance input_sign
            remaining (iteration + 1) index1 (index1 :: visited_indexes)
            (rotated1.take ring.length) []

/-- The history of one call of `simplify_ring::apply`: no iteration for the empty ring (the
function returns before the loop), otherwise the history of the loop from its start state. -/
def simplify_ring.attempts (impl : Impl P D) (area perimeter : List P → D) (ring out : List P)
    (max_distance : D) : List (simplify_ring.attempt P) :=
  if ring.length = 0 then []
  else
    simplify_ring.history impl area perimeter ring max_distance
      (simplify_ring.area_sign (area ring)) 4 0 0 [] (List.replicate ring.length default) out

end RingHistory

section Multi

variable {G : Type} {D : Type}

/-- The loop of `simplify_multi<Policy>::apply`: `policy it single_out max_distance` is
`Policy::apply(*it, single_out, max_distance, impl, strategies)` with result `single_out`,
`fresh` is the default-constructed `single_out` and `is_empty` is `geometry::is_empty`. -/
def simplify_multi.loop (policy : G → G → D → G) (is_empty : G → Bool) (fresh : G) :
    List G → List G → D → List G
  | [], out, _ => out
  | it :: rest, out, max_distance =>
    let single_out := policy it fresh max_distance
    if ¬ is_empty single_out then
      simplify_multi.loop policy is_empty fresh rest (out ++ [single_out]) max_distance
    else
      simplify_multi.loop policy is_empty fresh rest out max_distance

/-- The policy `simplify_multi<Policy>::apply(multi, out, max_distance, impl, strategies)`:
`out` is cleared (its prior value is not used) and filled by the loop. -/
def simplify_multi.apply (policy : G → G → D → G) (is_empty : G → Bool) (fresh : G)
    (multi _out : List G) (max_distance : D) : List G :=
  simplify_multi.loop policy is_empty fresh multi [] max_distance

end Multi

section Dispatch

variable {P : Type} [DecidableEq P] [Inhabited P] {D : Type} [LinearOrderedField D]

/-- The geometry tags `dispatch::simplify` is specialised for. -/
inductive geometry_tag where
  | point_tag
  | linestring_tag
  | ring_tag
  | polygon_tag
  | multi_point_tag
  | multi_linestring_tag
  | multi_polygon_tag
deriving DecidableEq

/-- The geometry type of a tag: input and output of `simplify` have the same type. -/
def geometry_type (P : Type) : geometry_tag → Type
  | .point_tag => P
  | .linestring_tag => List P
  | .ring_tag => List P
  | .polygon_tag => polygon P
  | .multi_point_tag => List P
  | .multi_linestring_tag => List (List P)
  | .multi_polygon_tag => List (polygon P)

/-- Modelled from the spec: `geometry::is_empty` for a polygon (the emptiness check of the
geometry accessors, not in the given sources): no point in the exterior ring and none in the
interior rings. -/
def polygon_is_empty (poly : polygon P) : Bool :=
  poly.outer.isEmpty && poly.inners.all List.isEmpty

/-- Modelled from the spec: `geometry::clear` (the clear operation of the geometry accessors,
not in the given sources): a point is left as it is, every other geometry loses all its
points, rings and elements. -/
def clear : (tag : geometry_tag) → geometry_type P tag → geometry_type P tag
  | .point_tag, out => out
  | .linestring_tag, _ => ([] : List P)
  | .ring_tag, _ => ([] : List P)
  | .polygon_tag, _ => (⟨[], []⟩ : polygon P)
  | .multi_point_tag, _ => ([] : List P)
  | .multi_linestring_tag, _ => ([] : List (List P))
  | .multi_polygon_tag, _ => ([] : List (polygon P))

/-- The specialisations of `dispatch::simplify<Geometry, Tag>::apply` (lines 669-731); the
result is the new value of `out`. -/
def dispatch.simplify (impl : Impl P D) (area perimeter : List P → D) :
    (tag : geometry_tag) → geometry_type P tag → geometry_type P tag → D → geometry_type P tag
  | .point_tag, point, _, _ => point
  | .linestring_tag, geometry, out, max_distance =>
    simplify_range.apply 2 impl (geometry : List P) (out : List P) max_distance
  | .ring_tag, geometry, out, max_distance =>
    simplify_ring.apply impl area perimeter (geometry : List P) (out : List P) max_distance
  | .polygon_tag, geometry, out, max_distance =>
    simplify_polygon.apply impl area perimeter (geometry : polygon P) (out : polygon P)
      max_distance
  | .multi_point_tag, geometry, out, _ =>
    simplify_copy.apply (geometry : List P) (out : List P)
  | .multi_linestring_tag, geometry, out, max_distance =>
    simplify_multi.apply (fun it single_out d => simplify_range.apply 2 impl it single_out d)
      List.isEmpty ([] : List P) (geometry : List (List P)) (out : List (List P)) max_distance
  | .multi_polygon_tag, geometry, out, max_distance =>
    simplify_multi.apply
      (fun it single_out d => simplify_polygon.apply impl area perimeter it single_out d)
      polygon_is_empty (⟨[], []⟩ : polygon P) (geometry : List (polygon P))
      (out : List (polygon P)) max_distance

/-- The entry point `simplify(geometry, out, max_distance, strategy)` (lines 955-964):
`geometry::clear(out)`, then the dispatch on the geometry tag. The strategy is resolved to
`impl`, `area` and `perimeter`. -/
def simplify (impl : Impl P D) (area perimeter : List P → D) (tag : geometry_tag)
    (geometry out : geometry_type P tag) (max_distance : D) : geometry_type P tag :=
  dispatch.simplify impl area perimeter tag geometry (clear tag out) max_distance

end Dispatch

section Cartesian

/-- A point with two rational coordinates. -/
structure point_xy where
  x : ℚ
  y : ℚ
deriving DecidableEq

instance : Inhabited point_xy := ⟨⟨0, 0⟩⟩

/-- Modelled from the spec: the comparable point-point distance of the Cartesian
collaborator (`comparable::pythagoras`, whose code is not in the given sources): the squared
Euclidean distance. -/
def comparable_pythagoras (p q : point_xy) : ℚ :=
  (p.x - q.x) * (p.x - q.x) + (p.y - q.y) * (p.y - q.y)

/-- Modelled from the spec: the Distance Oracle of the Cartesian collaborator
(`projected_point` over `comparable::pythagoras`, whose code is not in the given sources):
the squared distance of `p` to the segment `p1 p2`. -/
def projected_point (p p1 p2 : point_xy) : ℚ :=
  let vx := p2.x - p1.x
  let vy := p2.y - p1.y
  let c1 := (p.x - p1.x) * vx + (p.y - p1.y) * vy
  if c1 ≤ 0 then comparable_pythagoras p p1
  else
    let c2 := vx * vx + vy * vy
    if c2 ≤ c1 then comparable_pythagoras p p2
    else comparable_pythagoras p ⟨p1.x + c1 / c2 * vx, p1.y + c1 / c2 * vy⟩

/-- Modelled from the spec: a Cartesian instance of the collaborators in exact rational
arithmetic. The comparable distance is the squared distance and a tolerance is converted by
squaring. The true distance needs a square root, which is not rational; `get_opposite` only
compares distances with `>` from the start value `-1`, so the squared distance, which
selects the same vertex, stands in for it. -/
def cartesian : Impl point_xy ℚ where
  distance_strategy := projected_point
  comparable_distance := projected_point
  result_from_distance := fun t => t * t

/-- Modelled from the spec: the Area collaborator for Cartesian rings (surveyor formula over
the consecutive point pairs, clockwise positive), whose code is not in the given sources. -/
def cartesian_area : List point_xy → ℚ
  | p :: q :: rest => (p.x + q.x) * (p.y - q.y) / 2 + cartesian_area (q :: rest)
  | _ => 0

end Cartesian

section Double

/-- The values of the C++ type `double` (IEEE 754 binary64): a finite value other than the
negative zero (`num q`, with `num 0` the positive zero), the negative zero, an infinity with
its sign, or a NaN. The arithmetic below returns `num q` only for values `q` of the format. -/
inductive double where
  | num (q : ℚ)
  | negzero
  | inf (negative : Bool)
  | nan
deriving DecidableEq

/-- The power `2 ^ e` as a rational, for an integer exponent. -/
def double.pow2 (e : Int) : ℚ :=
  if 0 ≤ e then ((2 ^ e.toNat : Nat) : ℚ) else 1 / ((2 ^ (-e).toNat : Nat) : ℚ)

/-- The number of halvings of `n` that leave a positive number (the position of the leading
binary digit); the recursion is structural on `fuel`, the caller passes `n`. -/
def double.log2 : Nat → Nat → Nat
  | 0, _ => 0
  | fuel + 1, n => if 2 ≤ n then double.log2 fuel (n / 2) + 1 else 0

/-- The integer `e` with `2 ^ e ≤ |q| < 2 ^ (e + 1)`, for `q ≠ 0`. -/
def double.ilog2 (q : ℚ) : Int :=
  let e : Int := (double.log2 q.num.natAbs q.num.natAbs : Int) - (double.log2 q.den q.den : Int)
  if double.pow2 e ≤ |q| then e else e - 1

/-- Rounding of a non-negative rational to the nearest integer, ties to even. -/
def double.nearest_even (x : ℚ) : Nat :=
  let f : Nat := x.num.toNat / x.den
  let d : ℚ := x - f
  if d < 1 / 2 then f
  else if 1 / 2 < d then f + 1
  else if f % 2 = 0 then f else f + 1

/-- The rounding of an exact result to `double` in the default mode (to nearest, ties to
even): 53 significant binary digits, least exponent -1022 (below it the spacing stays
`2 ^ (-1074)`), and a rounded magnitude of `2 ^ 1024` or more overflows to an infinity. -/
def double.round (q : ℚ) : double :=
  if q = 0 then double.num 0
  else
    let e := max (double.ilog2 q) (-1022)
    let quantum := double.pow2 (e - 52)
    let r : ℚ := (double.nearest_even (|q| / quantum) : ℚ) * quantum
    if double.pow2 1024 ≤ r then double.inf (decide (q < 0))
    else if r = 0 then (if q < 0 then double.negzero else double.num 0)
    else double.num (if q < 0 then -r else r)

/-- The sign bit of a `double` (`std::signbit`). -/
def double.signbit : double → Bool
  | .num q => decide (q < 0)
  | .negzero => true
  | .inf negative => negative
  | .nan => false

/-- Whether a `double` is one of the two zeros. -/
def double.is_zero : double → Bool
  | .num q => decide (q = 0)
  | .negzero => true
  | _ => false

/-- The rational value of a finite `double`. -/
def double.value : double → ℚ
  | .num q => q
  | _ => 0

/-- The zero with the given sign bit. -/
def double.zero (negative : Bool) : double :=
  if negative then double.negzero else double.num 0

/-- The function `fabs` on `double`. -/
def double.fabs : double → double
  | .num q => .num |q|
  | .negzero => .num 0
  | .inf _ => .inf false
  | .nan => .nan

/-- The operator `/` on `double`. -/
def double.div : double → double → double
  | .nan, _ => .nan
  | _, .nan => .nan
  | .inf _, .inf _ => .nan
  | .inf s, y => .inf (xor s y.signbit)
  | x, .inf s => double.zero (xor x.signbit s)
  | x, y =>
    if y.is_zero then
      if x.is_zero then .nan else .inf (xor x.signbit y.signbit)
    else if x.is_zero then double.zero (xor x.signbit y.signbit)
    else double.round (x.value / y.value)

/-- The operator `*` on `double`. -/
def double.mul : double → double → double
  | .nan, _ => .nan
  | _, .nan => .nan
  | .inf s, y => if y.is_zero then .nan else .inf (xor s y.signbit)
  | x, .inf s => if x.is_zero then .nan else .inf (xor x.signbit s)
  | x, y =>
    if x.is_zero ∨ y.is_zero then double.zero (xor x.signbit y.signbit)
    else double.round (x.value * y.value)

/-- The operator `<=` on `double`: false when an operand is a NaN, the two zeros are equal. -/
def double.le : double → double → Bool
  | .nan, _ => false
  | _, .nan => false
  | .inf s, .inf s2 => s || !s2
  | .inf s, _ => s
  | _, .inf s => !s
  | x, y => decide (x.value ≤ y.value)

/-- The operator `<` on `double`: false when an operand is a NaN, the two zeros are equal. -/
def double.lt : double → double → Bool
  | .nan, _ => false
  | _, .nan => false
  | .inf s, .inf s2 => s && !s2
  | .inf s, _ => s
  | _, .inf s => !s
  | x, y => decide (x.value < y.value)

end Double

section Hammer

/-- The structure `par_hammer<T>` of `srs/projections/proj/hammer.hpp`. -/
structure par_hammer (T : Type) where
  w : T
  m : T
  rm : T
deriving DecidableEq

/-- The part of `Parameters` that `setup_hammer` uses. `params` is the parameter list as the
lookup `pj_param_f(par.params, name, tmp)` sees it: `some v` when the call returns true and
stores `v` in `tmp`, `none` when it returns false. `es` is the squared eccentricity. -/
structure parameters (T : Type) where
  params : String → Option T
  es : T

/-- The function `setup_hammer(par, proj_parm)` (hammer.hpp, lines 122-142) for the
calculation type `double`: the literals `0.`, `.5` and `1.` are doubles, `fabs`, `<=` and `/`
are the operations of `double`. `BOOST_THROW_EXCEPTION(projection_exception(-27))` is
`Except.error (-27)`; on success the result holds the new values of `par` and `proj_parm`. -/
def setup_hammer (par : parameters double) (proj_parm : par_hammer double) :
    Except Int (parameters double × par_hammer double) := do
  let proj_parm1 ← match par.params "W" with
    | some tmp =>
      if double.le (double.fabs tmp) (double.num 0) then
        (Except.error (-27) : Except Int (par_hammer double))
      else Except.ok { proj_parm with w := double.fabs tmp }
    | none => Except.ok { proj_parm with w := double.num (1 / 2) }
  let proj_parm2 ← match par.params "M" with
    | some tmp =>
      if double.le (double.fabs tmp) (double.num 0) then
        (Except.error (-27) : Except Int (par_hammer double))
      else Except.ok { proj_parm1 with m := double.fabs tmp }
    | none => Except.ok { proj_parm1 with m := double.num 1 }
  let proj_parm3 := { proj_parm2 with rm := double.div (double.num 1) proj_parm2.m }
  let proj_parm4 := { proj_parm3 with m := double.div proj_parm3.m proj_parm3.w }
  Except.ok ({ par with es := double.num 0 }, proj_parm4)

end Hammer

/-! ## Lemmas on the scan of `consider` -/

section CoreLemmas

variable {P : Type} [Inhabited P] {D : Type} [LinearOrderedField D]

theorem scan_fold_ge (dist : P → P → P → D) (pts : List P) (b l : Nat) (idx : List Nat) :
    ∀ st : D × Option Nat,
      st.1 ≤ (idx.foldl (douglas_peucker_.scanStep dist pts b l) st).1 := by
  induction idx with
  | nil => intro st; simp
  | cons i rest ih =>
    intro st
    simp only [List.foldl_cons]
    refine le_trans ?_ (ih _)
    unfold douglas_peucker_.scanStep
    simp only
    split
    · exact le_of_lt (by assumption)
    · exact le_refl _

theorem scan_fold_bound (dist : P → P → P → D) (pts : List P) (b l : Nat) (idx : List Nat) :
    ∀ st : D × Option Nat, ∀ i ∈ idx,
      douglas_peucker_.deviation dist pts b l i
        ≤ (idx.foldl (douglas_peucker_.scanStep dist pts b l) st).1 := by
  induction idx with
  | nil => intro st i hi; simp at hi
  | cons j rest ih =>
    intro st i hi
    simp only [List.foldl_cons]
    rcases List.mem_cons.mp hi with h | h
    · subst h
      refine le_trans ?_ (scan_fold_ge dist pts b l rest _)
      unfold douglas_peucker_.scanStep douglas_peucker_.deviation
      simp only
      split
      · exact le_refl _
      · exact not_lt.mp (by assumption)
    · exact ih _ i h

theorem scan_fold_cases (dist : P → P → P → D) (pts : List P) (b l : Nat) (idx : List Nat) :
    ∀ st : D × Option Nat,
      (idx.foldl (douglas_peucker_.scanStep dist pts b l) st) = st ∨
      ∃ c ∈ idx, (idx.foldl (douglas_peucker_.scanStep dist pts b l) st)
        = (douglas_peucker_.deviation dist pts b l c, some c) := by
  induction idx with
  | nil => intro st; left; simp
  | cons j rest ih =>
    intro st
    simp only [List.foldl_cons]
    rcases ih (douglas_peucker_.scanStep dist pts b l st j) with h | ⟨c, hc, h⟩
    · rw [h]
      unfold douglas_peucker_.scanStep
      simp only
      split
      · right
        exact ⟨j, List.mem_cons_self _ _, rfl⟩
      · left; rfl
    · right
      exact ⟨c, List.mem_cons_of_mem _ hc, h⟩

/-- The result of the scan: either nothing was selected and `md` is still `-1`, or the
candidate is a position strictly between `b` and `l` and `md` is its deviation. -/
theorem scan_cases (dist : P → P → P → D) (pts : List P) (b l : Nat) :
    douglas_peucker_.scan dist pts b l = (-1, none) ∨
    ∃ c, b < c ∧ c < l ∧
      douglas_peucker_.scan dist pts b l = (douglas_peucker_.deviation dist pts b l c, some c) := by
  unfold douglas_peucker_.scan
  rcases scan_fold_cases dist pts b l (List.range' (b + 1) (l - (b + 1))) (-1, none) with h | ⟨c, hc, h⟩
  · left; exact h
  · right
    rw [List.mem_range'_1] at hc
    exact ⟨c, by omega, by omega, h⟩

/-- Every interior deviation is at most the `md` found by the scan. -/
theorem scan_bound (dist : P → P → P → D) (pts : List P) (b l k : Nat) (hb : b < k)
    (hl : k < l) :
    douglas_peucker_.deviation dist pts b l k ≤ (douglas_peucker_.scan dist pts b l).1 := by
  unfold douglas_peucker_.scan
  apply scan_fold_bound
  rw [List.mem_range'_1]
  omega

theorem consider_zero (dist : P → P → P → D) (pts : List P) (t : D) (b e : Nat)
    (inc : List Bool) : douglas_peucker_.consider dist pts t 0 b e inc = inc := rfl

theorem consider_succ (dist : P → P → P → D) (pts : List P) (t : D) (fuel b e : Nat)
    (inc : List Bool) :
    douglas_peucker_.consider dist pts t (fuel + 1) b e inc =
      if e - b ≤ 2 then inc
      else if t < (douglas_peucker_.scan dist pts b (e - 1)).1 then
        match (douglas_peucker_.scan dist pts b (e - 1)).2 with
        | some c =>
          douglas_peucker_.consider dist pts t fuel c e
            (douglas_peucker_.consider dist pts t fuel b (c + 1) (inc.set c true))
        | none => inc
      else inc := rfl

/-- A run of `consider` is one of: no change, or a split at some `c` strictly inside the
sub-range whose deviation exceeds the tolerance and is the maximum of the scan. -/
theorem consider_cases (dist : P → P → P → D) (pts : List P) (t : D) (fuel b e : Nat)
    (inc : List Bool) :
    (douglas_peucker_.consider dist pts t (fuel + 1) b e inc = inc ∧
      (e - b ≤ 2 ∨ ¬ t < (douglas_peucker_.scan dist pts b (e - 1)).1 ∨
        (t < -1 ∧ douglas_peucker_.scan dist pts b (e - 1) = (-1, none)))) ∨
    ∃ c, 2 < e - b ∧ b < c ∧ c < e - 1 ∧
      douglas_peucker_.scan dist pts b (e - 1)
        = (douglas_peucker_.deviation dist pts b (e - 1) c, some c) ∧
      t < douglas_peucker_.deviation dist pts b (e - 1) c ∧
      douglas_peucker_.consider dist pts t (fuel + 1) b e inc =
        douglas_peucker_.consider dist pts t fuel c e
          (douglas_peucker_.consider dist pts t fuel b (c + 1) (inc.set c true)) := by
  rw [consider_succ]
  by_cases h2 : e - b ≤ 2
  · left; simp [h2]
  · by_cases ht : t < (douglas_peucker_.scan dist pts b (e - 1)).1
    · rcases scan_cases dist pts b (e - 1) with h | ⟨c, hbc, hcl, h⟩
      · left
        rw [h] at ht
        simp only [h2, if_false, h]
        simp only at ht
        simp [ht]
      · right
        rw [h] at ht
        refine ⟨c, by omega, hbc, hcl, h, ht, ?_⟩
        simp only [h2, if_false, h]
        simp only at ht
        simp [ht]
    · left
      simp [h2, ht]

theorem consider_length (dist : P → P → P → D) (pts : List P) (t : D) :
    ∀ (fuel b e : Nat) (inc : List Bool),
      (douglas_peucker_.consider dist pts t fuel b e inc).length = inc.length := by
  intro fuel
  induction fuel with
  | zero => intro b e inc; rfl
  | succ fuel ih =>
    intro b e inc
    rcases consider_cases dist pts t fuel b e inc with ⟨h, _⟩ | ⟨c, _, _, _, _, _, h⟩
    · rw [h]
    · rw [h, ih, ih, List.length_set]

/-- Frame of `consider`: flags at positions outside the open interval `(b, e - 1)` are
not touched. -/
theorem consider_frame (dist : P → P → P → D) (pts : List P) (t : D) :
    ∀ (fuel b e : Nat) (inc : List Bool) (i : Nat), (i ≤ b ∨ e ≤ i + 1) →
      (douglas_peucker_.consider dist pts t fuel b e inc)[i]? = inc[i]? := by
  intro fuel
  induction fuel with
  | zero => intro b e inc i _; rfl
  | succ fuel ih =>
    intro b e inc i hi
    rcases consider_cases dist pts t fuel b e inc with ⟨h, _⟩ | ⟨c, _, hbc, hce, _, _, h⟩
    · rw [h]
    · rw [h, ih c e _ i (by omega), ih b (c + 1) _ i (by omega),
        List.getElem?_set_ne (by omega)]

/-- Flags are only ever set by `consider`, never cleared. -/
theorem consider_keeps (dist : P → P → P → D) (pts : List P) (t : D) :
    ∀ (fuel b e : Nat) (inc : List Bool) (i : Nat), inc[i]? = some true →
      (douglas_peucker_.consider dist pts t fuel b e inc)[i]? = some true := by
  intro fuel
  induction fuel with
  | zero => intro b e inc i h; exact h
  | succ fuel ih =>
    intro b e inc i hi
    rcases consider_cases dist pts t fuel b e inc with ⟨h, _⟩ | ⟨c, _, hbc, hce, _, _, h⟩
    · rw [h]; exact hi
    · rw [h]
      apply ih
      apply ih
      rw [List.getElem?_set]
      split
      · have : i < inc.length := by
          rcases Nat.lt_or_ge i inc.length with h1 | h1
          · exact h1
          · rw [List.getElem?_eq_none h1] at hi; cases hi
        subst_vars
        simp [this]
      · exact hi

/-- The fuel handed to `consider` is never exhausted: with at least `e - b` units the
result does not depend on the amount. -/
theorem consider_fuel (dist : P → P → P → D) (pts : List P) (t : D) :
    ∀ (fuel1 fuel2 b e : Nat) (inc : List Bool), e - b ≤ fuel1 → e - b ≤ fuel2 →
      douglas_peucker_.consider dist pts t fuel1 b e inc
        = douglas_peucker_.consider dist pts t fuel2 b e inc := by
  intro fuel1
  induction fuel1 with
  | zero =>
    intro fuel2 b e inc h1 _
    cases fuel2 with
    | zero => rfl
    | succ f2 => rw [consider_succ, consider_zero]; simp [show e - b ≤ 2 by omega]
  | succ f1 ih =>
    intro fuel2 b e inc h1 h2
    cases fuel2 with
    | zero => rw [consider_succ, consider_zero]; simp [show e - b ≤ 2 by omega]
    | succ f2 =>
      rw [consider_succ, consider_succ]
      by_cases hs : e - b ≤ 2
      · simp [hs]
      · simp only [hs, if_false]
        split
        · rcases scan_cases dist pts b (e - 1) with h | ⟨c, hbc, hce, h⟩
          · rw [h]
          · rw [h]
            simp only
            rw [ih f2 b (c + 1) _ (by omega) (by omega), ih f2 c e _ (by omega) (by omega)]
        · rfl

theorem getElem?_some_lt {α : Type} {l : List α} {i : Nat} {a : α} (h : l[i]? = some a) :
    i < l.length := by
  rcases Nat.lt_or_ge i l.length with h1 | h1
  · exact h1
  · rw [List.getElem?_eq_none h1] at h; cases h

/-- Invariant of the recursion: when `consider` is entered on a sub-range whose two end
flags are set and whose interior flags are clear, then afterwards between any two
neighbouring set flags of the sub-range every point is within the tolerance of their chord. -/
theorem consider_within (dist : P → P → P → D) (pts : List P) (t : D) (ht : 0 ≤ t) :
    ∀ (fuel b e : Nat) (inc : List Bool), e - b ≤ fuel →
      inc[b]? = some true → inc[e - 1]? = some true →
      (∀ m, b < m → m < e - 1 → inc[m]? = some false) →
      ∀ i j k, b ≤ i → i < k → k < j → j ≤ e - 1 →
        (douglas_peucker_.consider dist pts t fuel b e inc)[i]? = some true →
        (douglas_peucker_.consider dist pts t fuel b e inc)[j]? = some true →
        (∀ m, i < m → m < j →
          (douglas_peucker_.consider dist pts t fuel b e inc)[m]? ≠ some true) →
        douglas_peucker_.deviation dist pts i j k ≤ t := by
  intro fuel
  induction fuel with
  | zero => intro b e inc hf _ _ _ i j k h1 h2 h3 h4; omega
  | succ fuel ih =>
    intro b e inc hf hb he hin i j k h1 h2 h3 h4
    rcases consider_cases dist pts t fuel b e inc with ⟨h, hr⟩ | ⟨c, hsz, hbc, hce, hsc, htc, h⟩
    · rw [h]
      intro hi hj _
      have hib : i = b := by
        by_contra hne
        have := hin i (by omega) (by omega)
        rw [this] at hi; cases hi
      have hje : j = e - 1 := by
        by_contra hne
        have := hin j (by omega) (by omega)
        rw [this] at hj; cases hj
      subst hib hje
      rcases hr with hr | hr | ⟨hr, _⟩
      · omega
      · exact le_trans (scan_bound dist pts i (e - 1) k h2 h3) (not_lt.mp hr)
      · linarith
    · rw [h]
      have hclen : c < inc.length := by
        have := getElem?_some_lt he
        omega
      have hc1 : (inc.set c true)[c]? = some true := by
        rw [List.getElem?_set_self hclen]
      intro hi hj hcons
      rcases Nat.lt_or_ge c j with hcj | hcj
      · rcases Nat.lt_or_ge i c with hic | hic
        · exfalso
          apply hcons c hic hcj
          exact consider_keeps dist pts t _ _ _ _ _ (consider_keeps dist pts t _ _ _ _ _ hc1)
        · refine ih c e _ (by omega) ?_ ?_ ?_ i j k hic h2 h3 h4 hi hj hcons
          · exact consider_keeps dist pts t _ _ _ _ _ hc1
          · apply consider_keeps
            rw [List.getElem?_set_ne (by omega)]
            exact he
          · intro m hm1 hm2
            rw [consider_frame dist pts t _ _ _ _ m (by omega), List.getElem?_set_ne (by omega)]
            exact hin m (by omega) hm2
      · rw [consider_frame dist pts t _ _ _ _ i (by omega)] at hi
        rw [consider_frame dist pts t _ _ _ _ j (by omega)] at hj
        refine ih b (c + 1) _ (by omega) ?_ ?_ ?_ i j k h1 h2 h3 (by omega) hi hj ?_
        · rw [List.getElem?_set_ne (by omega)]
          exact hb
        · exact hc1
        · intro m hm1 hm2
          rw [List.getElem?_set_ne (by omega)]
          exact hin m hm1 (by omega)
        · intro m hm1 hm2
          have := hcons m hm1 hm2
          rw [consider_frame dist pts t _ _ _ _ m (by omega)] at this
          exact this

/-- The flags `apply` starts `consider` with: first and last set, the others clear. -/
theorem initial_flags (n m : Nat) (hm : m < n) :
    (((List.replicate n false).set 0 true).set (n - 1) true)[m]?
      = some (decide (m = 0 ∨ m = n - 1)) := by
  rw [List.getElem?_set, List.getElem?_set, List.getElem?_replicate]
  simp only [List.length_set, List.length_replicate]
  by_cases h1 : n - 1 = m
  · have : m = 0 ∨ m = n - 1 := Or.inr h1.symm
    simp [h1, hm, this]
  · by_cases h0 : 0 = m
    · subst h0
      simp [h1, hm]
    · have : ¬ (m = 0 ∨ m = n - 1) := by omega
      simp [h1, h0, hm, this]

/-- Monotonicity of the recursion in the tolerance: a flag set at the larger tolerance is
set at the smaller one (the split position does not depend on the tolerance). -/
theorem consider_mono (dist : P → P → P → D) (pts : List P) (t1 t2 : D) (h12 : t1 ≤ t2) :
    ∀ (fuel b e : Nat) (inc1 inc2 : List Bool), inc1.length = inc2.length →
      (∀ i : Nat, inc2[i]? = some true → inc1[i]? = some true) →
      ∀ i : Nat, (douglas_peucker_.consider dist pts t2 fuel b e inc2)[i]? = some true →
        (douglas_peucker_.consider dist pts t1 fuel b e inc1)[i]? = some true := by
  intro fuel
  induction fuel with
  | zero => intro b e inc1 inc2 _ h i hi; exact h i hi
  | succ fuel ih =>
    intro b e inc1 inc2 hlen h i hi
    rcases consider_cases dist pts t2 fuel b e inc2 with ⟨h2, _⟩ | ⟨c, hsz, hbc, hce, hsc, htc, h2⟩
    · rw [h2] at hi
      exact consider_keeps dist pts t1 _ _ _ _ _ (h i hi)
    · rw [h2] at hi
      have h1 : douglas_peucker_.consider dist pts t1 (fuel + 1) b e inc1 =
          douglas_peucker_.consider dist pts t1 fuel c e
            (douglas_peucker_.consider dist pts t1 fuel b (c + 1) (inc1.set c true)) := by
        rw [consider_succ, hsc]
        have : t1 < douglas_peucker_.deviation dist pts b (e - 1) c := lt_of_le_of_lt h12 htc
        simp [show ¬ e - b ≤ 2 by omega, this]
      rw [h1]
      refine ih c e _ _ ?_ ?_ i hi
      · rw [consider_length, consider_length, List.length_set, List.length_set, hlen]
      · intro j hj
        refine ih b (c + 1) _ _ ?_ ?_ j hj
        · rw [List.length_set, List.length_set, hlen]
        · intro k hk
          rw [List.getElem?_set] at hk ⊢
          by_cases hck : c = k
          · subst hck
            have hlt : c < inc2.length := by
              by_contra hn
              simp [hn] at hk
            simp [hlen, hlt]
          · simp only [hck, if_false] at hk ⊢
            exact h k hk

theorem included_length (dist : P → P → P → D) (range : List P) (t : D) :
    (douglas_peucker_.included dist range t).length = range.length := by
  unfold douglas_peucker_.included
  rw [consider_length]
  simp

end CoreLemmas

section CoreTheorems

variable {P : Type} [Inhabited P] {D : Type} [LinearOrderedField D]

/-- C1, distortion bound of the Point Elimination Core: for a range of at least 3 points
and a tolerance `t ≥ 0`, if the flags at input positions `i < j` are both set by
`douglas_peucker_::apply` and no flag strictly between them is set (the two points are
consecutive in the output), then every input point at a position `k` with `i < k < j` has a
deviation from the chord (point `i`, point `j`) that is at most `t` in the order of the
distance type. -/
theorem C1_distortion_bound (dist : P → P → P → D) (range : List P) (t : D)
    (_h3 : 3 ≤ range.length) (ht : 0 ≤ t) (i j k : Nat) (hik : i < k) (hkj : k < j)
    (hj : j < range.length)
    (hi_kept : (douglas_peucker_.included dist range t).getD i false = true)
    (hj_kept : (douglas_peucker_.included dist range t).getD j false = true)
    (hcons : ∀ m, i < m → m < j → (douglas_peucker_.included dist range t).getD m false = false) :
    dist (range.getD k default) (range.getD i default) (range.getD j default) ≤ t := by
  have hlen := included_length dist range t
  have get_some : ∀ m, m < range.length →
      (douglas_peucker_.included dist range t)[m]?
        = some ((douglas_peucker_.included dist range t).getD m false) := by
    intro m hm
    rw [List.getD_eq_getElem?_getD, List.getElem?_eq_getElem (by omega)]
    rfl
  have key := consider_within dist range t ht range.length 0 range.length
    (((List.replicate range.length false).set 0 true).set (range.length - 1) true)
    (by omega)
    (by rw [initial_flags _ _ (by omega)]; simp)
    (by rw [initial_flags _ _ (by omega)]; simp)
    (by
      intro m hm1 hm2
      rw [initial_flags _ _ (by omega)]
      simp
      omega)
    i j k (Nat.zero_le _) hik hkj (by omega)
  apply key
  · show (douglas_peucker_.included dist range t)[i]? = some true
    rw [get_some i (by omega), hi_kept]
  · show (douglas_peucker_.included dist range t)[j]? = some true
    rw [get_some j hj, hj_kept]
  · intro m hm1 hm2
    show (douglas_peucker_.included dist range t)[m]? ≠ some true
    rw [get_some m (by omega), hcons m hm1 hm2]
    simp

end CoreTheorems

/-! ## The Range Policy -/

section CopyLemmas

variable {P : Type}

theorem copy_included_cons (p : P) (ps : List P) (f : Bool) (fs : List Bool) :
    douglas_peucker_.copy_included (p :: ps) (f :: fs) =
      if f then p :: douglas_peucker_.copy_included ps fs
      else douglas_peucker_.copy_included ps fs := by
  cases f <;> simp [douglas_peucker_.copy_included]

theorem copy_included_nil_right (ps : List P) :
    douglas_peucker_.copy_included ps [] = [] := by
  simp [douglas_peucker_.copy_included]

theorem copy_included_nil_left (fs : List Bool) :
    douglas_peucker_.copy_included ([] : List P) fs = [] := by
  simp [douglas_peucker_.copy_included]

theorem copy_included_sublist : ∀ (pts : List P) (inc : List Bool),
    (douglas_peucker_.copy_included pts inc).Sublist pts := by
  intro pts
  induction pts with
  | nil => intro inc; rw [copy_included_nil_left]
  | cons p ps ih =>
    intro inc
    cases inc with
    | nil => rw [copy_included_nil_right]; exact List.nil_sublist _
    | cons f fs =>
      rw [copy_included_cons]
      split
      · exact (ih fs).cons₂ p
      · exact (ih fs).cons p

theorem copy_included_head (pts : List P) (inc : List Bool) (h0 : inc[0]? = some true) :
    (douglas_peucker_.copy_included pts inc).head? = pts.head? := by
  cases inc with
  | nil => simp at h0
  | cons f fs =>
    simp at h0
    subst h0
    cases pts with
    | nil => rw [copy_included_nil_left]
    | cons p ps => rw [copy_included_cons]; simp

theorem copy_included_getLast : ∀ (pts : List P) (inc : List Bool),
    pts.length = inc.length → inc.getLast? = some true →
    (douglas_peucker_.copy_included pts inc).getLast? = pts.getLast? := by
  intro pts
  induction pts with
  | nil =>
    intro inc hlen hl
    rw [copy_included_nil_left]
  | cons p ps ih =>
    intro inc hlen hl
    cases inc with
    | nil => simp at hl
    | cons f fs =>
      cases ps with
      | nil =>
        cases fs with
        | nil =>
          simp at hl
          subst hl
          simp [douglas_peucker_.copy_included]
        | cons g gs => simp at hlen
      | cons q qs =>
        cases fs with
        | nil => simp at hlen
        | cons g gs =>
          have hrec := ih (g :: gs) (by simpa using hlen) (by simpa using hl)
          rw [copy_included_cons]
          have hne : douglas_peucker_.copy_included (q :: qs) (g :: gs) ≠ [] := by
            intro h
            rw [h] at hrec
            have hrec2 := hrec.symm
            simp at hrec2
          split
          · rw [List.getLast?_cons, hrec, List.getLast?_cons_cons]
            cases hq : (q :: qs).getLast? with
            | none => simp at hq
            | some v => simp
          · rw [hrec, List.getLast?_cons_cons]

/-- Fewer set flags give a sublist of the copied points. -/
theorem copy_included_mono : ∀ (pts : List P) (inc1 inc2 : List Bool),
    inc1.length = inc2.length →
    (∀ i : Nat, inc2[i]? = some true → inc1[i]? = some true) →
    (douglas_peucker_.copy_included pts inc2).Sublist
      (douglas_peucker_.copy_included pts inc1) := by
  intro pts
  induction pts with
  | nil => intro inc1 inc2 _ _; rw [copy_included_nil_left]; exact List.nil_sublist _
  | cons p ps ih =>
    intro inc1 inc2 hlen h
    cases inc2 with
    | nil => rw [copy_included_nil_right]; exact List.nil_sublist _
    | cons f2 fs2 =>
      cases inc1 with
      | nil => simp at hlen
      | cons f1 fs1 =>
        have hrec := ih fs1 fs2 (by simpa using hlen)
          (fun i hi => by simpa using h (i + 1) (by simpa using hi))
        rw [copy_included_cons, copy_included_cons]
        cases f2 with
        | false =>
          simp only [Bool.false_eq_true, if_false]
          split
          · exact hrec.cons p
          · exact hrec
        | true =>
          have : f1 = true := by simpa using h 0 (by simp)
          subst this
          simp only [if_true]
          exact hrec.cons₂ p

end CopyLemmas

section IncludedLemmas

variable {P : Type} [Inhabited P] {D : Type} [LinearOrderedField D]

theorem included_first (dist : P → P → P → D) (range : List P) (t : D)
    (h : 0 < range.length) : (douglas_peucker_.included dist range t)[0]? = some true := by
  unfold douglas_peucker_.included
  apply consider_keeps
  rw [initial_flags _ _ h]
  simp

theorem included_last (dist : P → P → P → D) (range : List P) (t : D)
    (h : 0 < range.length) :
    (douglas_peucker_.included dist range t).getLast? = some true := by
  rw [List.getLast?_eq_getElem?, included_length]
  unfold douglas_peucker_.included
  apply consider_keeps
  rw [initial_flags _ _ (by omega)]
  simp

/-- The core keeps the first and the last point of its input. -/
theorem apply_endpoints (dist : P → P → P → D) (range : List P) (t : D) :
    (douglas_peucker_.apply dist range t).head? = range.head? ∧
    (douglas_peucker_.apply dist range t).getLast? = range.getLast? := by
  unfold douglas_peucker_.apply
  cases range with
  | nil => simp [copy_included_nil_left]
  | cons p ps =>
    constructor
    · exact copy_included_head _ _ (included_first dist _ t (by simp))
    · exact copy_included_getLast _ _ (included_length dist _ t).symm
        (included_last dist _ t (by simp))

end IncludedLemmas

section DegenerateLemmas

variable {P : Type} [DecidableEq P]

theorem is_degenerate_iff (l : List P) :
    is_degenerate l = true ↔ ∃ a, l = [a, a] := by
  unfold is_degenerate
  constructor
  · intro h
    simp only [Bool.and_eq_true, beq_iff_eq, decide_eq_true_eq] at h
    obtain ⟨h2, he⟩ := h
    match l, h2 with
    | [a, b], _ =>
      simp at he
      exact ⟨a, by rw [he]⟩
  · rintro ⟨a, rfl⟩
    simp

theorem degenerate_take_one (l : List P) (h : is_degenerate l = true) :
    (l.take 1).head? = l.head? ∧ (l.take 1).getLast? = l.getLast? := by
  obtain ⟨a, rfl⟩ := (is_degenerate_iff l).mp h
  simp

/-- The final degeneracy check of `simplify_range::apply` does not break the order of
output sizes. -/
theorem collapse_length_mono (l1 l2 : List P) (h : l2.Sublist l1) :
    (if is_degenerate l2 then l2.take 1 else l2).length
      ≤ (if is_degenerate l1 then l1.take 1 else l1).length := by
  by_cases h1 : is_degenerate l1 = true
  · obtain ⟨a, rfl⟩ := (is_degenerate_iff l1).mp h1
    have hlen := h.length_le
    simp only [List.length_cons, List.length_nil] at hlen
    by_cases h2 : is_degenerate l2 = true
    · simp [h1, h2, List.length_take]
    · have hne : l2.length ≠ 2 := by
        intro h2len
        have := h.eq_of_length (by simpa using h2len)
        exact h2 (this ▸ h1)
      simp only [h1, h2, if_true, List.length_take, List.length_cons, List.length_nil]
      simp only [Bool.false_eq_true, if_false]
      omega
  · simp only [h1, Bool.false_eq_true, if_false]
    split
    · exact le_trans (by simp [List.length_take]) h.length_le
    · exact h.length_le

end DegenerateLemmas

section RangeLemmas

variable {P : Type} [DecidableEq P] [Inhabited P] {D : Type} [LinearOrderedField D]

theorem simplify_range_insert_endpoints (impl : Impl P D) (range : List P) (t : D) :
    (simplify_range_insert.apply impl range t).head? = range.head? ∧
    (simplify_range_insert.apply impl range t).getLast? = range.getLast? := by
  unfold simplify_range_insert.apply
  split
  · exact degenerate_take_one range (by assumption)
  · split
    · exact ⟨rfl, rfl⟩
    · exact apply_endpoints _ _ _

theorem fill_nil (m : Nat) (impl : Impl P D) (range : List P) (t : D) :
    simplify_range.fill m impl range [] t =
      if range.length ≤ m ∨ t < 0 then range else simplify_range_insert.apply impl range t := by
  unfold simplify_range.fill simplify_copy.apply
  simp

theorem simplify_range_insert_sublist (impl : Impl P D) (range : List P) (t : D) :
    (simplify_range_insert.apply impl range t).Sublist range := by
  unfold simplify_range_insert.apply
  split
  · exact List.take_sublist _ _
  · split
    · exact List.Sublist.refl _
    · exact copy_included_sublist _ _

theorem fill_sublist (m : Nat) (impl : Impl P D) (range : List P) (t : D) :
    (simplify_range.fill m impl range [] t).Sublist range := by
  rw [fill_nil]
  split
  · exact List.Sublist.refl _
  · exact simplify_range_insert_sublist impl range t

/-- The container before the final check at a larger tolerance is a sublist of the one at a
smaller tolerance. -/
theorem fill_mono (m : Nat) (impl : Impl P D) (range : List P) (t1 t2 : D)
    (hconv : ∀ x y, 0 ≤ x → x ≤ y → impl.result_from_distance x ≤ impl.result_from_distance y)
    (h12 : t1 ≤ t2) :
    (simplify_range.fill m impl range [] t2).Sublist (simplify_range.fill m impl range [] t1) := by
  rw [fill_nil, fill_nil]
  by_cases hm : range.length ≤ m
  · simp [hm]
  · by_cases h2 : t2 < 0
    · have h1 : t1 < 0 := lt_of_le_of_lt h12 h2
      simp [h1, h2]
    · by_cases h1 : t1 < 0
      · simp only [hm, h1, h2, or_true, or_false, if_true, if_false]
        exact simplify_range_insert_sublist impl range t2
      · simp only [hm, h1, h2, or_false, if_false]
        unfold simplify_range_insert.apply
        split
        · exact List.Sublist.refl _
        · simp only [h1, h2, or_false]
          split
          · exact List.Sublist.refl _
          · unfold douglas_peucker.apply douglas_peucker_.apply
            apply copy_included_mono
            · rw [included_length, included_length]
            · unfold douglas_peucker_.included
              exact consider_mono _ _ _ _ (hconv t1 t2 (not_lt.mp h1) h12) _ _ _ _ _ rfl
                (fun i hi => hi)

/-- At a negative tolerance the Range Policy copies the range and then applies the final
degeneracy check. -/
theorem simplify_range_negative (m : Nat) (impl : Impl P D) (range : List P) (t : D)
    (ht : t < 0) :
    simplify_range.apply m impl range [] t
      = if is_degenerate range then range.take 1 else range := by
  have hfill : simplify_range.fill m impl range [] t = range := by
    rw [fill_nil]
    simp [ht]
  unfold simplify_range.apply
  simp only [hfill]

end RangeLemmas

section RangeTheorems

variable {P : Type} [DecidableEq P] [Inhabited P] {D : Type} [LinearOrderedField D]

/-- C2, endpoint preservation: the output of the Range Policy (any minimum size, written
into an empty container) has the same first point and the same last point as the input;
this holds for every range and tolerance, in particular for ranges of at least 2 points
and tolerances `≥ 0`. When the output is collapsed to one point, that point is therefore
both the first and the last input point. -/
theorem C2_endpoint_preservation (m : Nat) (impl : Impl P D) (range : List P) (t : D) :
    (simplify_range.apply m impl range [] t).head? = range.head? ∧
    (simplify_range.apply m impl range [] t).getLast? = range.getLast? := by
  have hfill : (simplify_range.fill m impl range [] t).head? = range.head? ∧
      (simplify_range.fill m impl range [] t).getLast? = range.getLast? := by
    rw [fill_nil]
    split
    · exact ⟨rfl, rfl⟩
    · exact simplify_range_insert_endpoints impl range t
  unfold simplify_range.apply
  simp only
  split
  · have := degenerate_take_one _ (by assumption : is_degenerate _ = true)
    exact ⟨this.1.trans hfill.1, this.2.trans hfill.2⟩
  · exact hfill

/-- C3, subsequence property: for every range and tolerance the output of the Range Policy
(any minimum size, written into an empty container) is a sublist of the input: it is
obtained by deleting points, so every output point is an input point and the order is the
input order. -/
theorem C3_subsequence (m : Nat) (impl : Impl P D) (range : List P) (t : D) :
    (simplify_range.apply m impl range [] t).Sublist range := by
  unfold simplify_range.apply
  simp only
  split
  · exact (List.take_sublist _ _).trans (fill_sublist m impl range t)
  · exact fill_sublist m impl range t

/-- C6 (counterexample): at tolerance `-1` the linestring Range Policy turns the range of two
equal points `(0,0), (0,0)` into the single point `(0,0)`, which is not the input. -/
theorem C6_counterexample :
    (-1 : ℚ) < 0 ∧
    simplify_range.apply 2 cartesian [⟨0, 0⟩, ⟨0, 0⟩] [] (-1) = [⟨0, 0⟩] ∧
    simplify_range.apply 2 cartesian [⟨0, 0⟩, ⟨0, 0⟩] [] (-1)
      ≠ [(⟨0, 0⟩ : point_xy), ⟨0, 0⟩] := by
  refine ⟨by norm_num, ?_, ?_⟩ <;>
    simp [simplify_range.apply, simplify_range.fill, simplify_copy.apply, is_degenerate]

/-- C6 (amended), negative tolerance is the identity for the Range Policy except on a pair of
equal points: for every tolerance `t < 0` and every range, the output (any minimum size,
empty container) equals the input exactly when the input is not a pair of two equal points,
and is the single first point when it is. -/
theorem C6_negative_tolerance_range (m : Nat) (impl : Impl P D) (range : List P) (t : D)
    (ht : t < 0) :
    (is_degenerate range = false → simplify_range.apply m impl range [] t = range) ∧
    (is_degenerate range = true → simplify_range.apply m impl range [] t = range.take 1) := by
  rw [simplify_range_negative m impl range t ht]
  constructor
  · intro h; simp [h]
  · intro h; simp [h]

/-- Witness of C6 (amended): three distinct points at tolerance `-1` are returned unchanged. -/
theorem C6_negative_tolerance_range_witness :
    (-1 : ℚ) < 0 ∧
    simplify_range.apply 2 cartesian [⟨0, 0⟩, ⟨5, 5⟩, ⟨10, 0⟩] [] (-1)
      = [(⟨0, 0⟩ : point_xy), ⟨5, 5⟩, ⟨10, 0⟩] :=
  ⟨by norm_num,
    (C6_negative_tolerance_range 2 cartesian [⟨0, 0⟩, ⟨5, 5⟩, ⟨10, 0⟩] (-1) (by norm_num)).1
      (by simp [is_degenerate])⟩

/-- C8, degenerate collapse: for a range of exactly two equal points the output of the Range
Policy (any minimum size, empty container) is the one-point sequence holding that point; this
holds for every tolerance, in particular for every tolerance `≥ 0`. -/
theorem C8_degenerate_collapse (m : Nat) (impl : Impl P D) (a : P) (t : D) :
    simplify_range.apply m impl [a, a] [] t = [a] := by
  have hdeg : is_degenerate [a, a] = true := (is_degenerate_iff _).mpr ⟨a, rfl⟩
  have hfill : simplify_range.fill m impl [a, a] [] t = [a, a] ∨
      simplify_range.fill m impl [a, a] [] t = [a] := by
    rw [fill_nil]
    split
    · left; rfl
    · right
      unfold simplify_range_insert.apply
      simp [hdeg]
  unfold simplify_range.apply
  rcases hfill with h | h
  · simp [h, hdeg]
  · simp [h, is_degenerate]

/-- C10, post-condition of the Range Policy: for every range and tolerance the output
(written into an empty container) is never a sequence of exactly two equal points; whenever
the container holds exactly two equal points `a, a` before the final check (after the copy or
after the Point Elimination Core), the output is the single point `a`, of length 1, below the
linestring minimum size 2. -/
theorem C10_postcondition (m : Nat) (impl : Impl P D) (range : List P) (t : D) :
    (∀ a, simplify_range.apply m impl range [] t ≠ [a, a]) ∧
    (∀ a, simplify_range.fill m impl range [] t = [a, a] →
      simplify_range.apply m impl range [] t = [a] ∧
      (simplify_range.apply m impl range [] t).length = 1) := by
  constructor
  · intro a h
    unfold simplify_range.apply at h
    simp only at h
    split at h
    · have := congrArg List.length h
      simp [List.length_take] at this
      omega
    · rename_i hnd
      apply hnd
      rw [h]
      exact (is_degenerate_iff _).mpr ⟨a, rfl⟩
  · intro a h
    unfold simplify_range.apply
    have hdeg : is_degenerate [a, a] = true := (is_degenerate_iff _).mpr ⟨a, rfl⟩
    simp [h, hdeg]

/-- C9, strict threshold on a three-point range: for a range `[a, mid, b]`, a tolerance
`t ≥ 0` and a minimum size of at most 2 (0 for rings, 2 for linestrings), the output of the
Range Policy is `[a, mid, b]` when the deviation of `mid` from the chord `(a, b)` is strictly
greater than the (converted) tolerance, and otherwise `mid` is dropped: the output is `[a, b]`,
or `[a]` when `a = b`. A deviation equal to the tolerance drops `mid`. The deviation is a
distance, hence non-negative. -/
theorem C9_three_point_threshold (m : Nat) (hm : m ≤ 2) (impl : Impl P D) (a mid b : P) (t : D)
    (ht : 0 ≤ t) (hd : 0 ≤ impl.comparable_distance mid a b) :
    simplify_range.apply m impl [a, mid, b] [] t =
      if impl.result_from_distance t < impl.comparable_distance mid a b then [a, mid, b]
      else if a = b then [a] else [a, b] := by
  have hlt : (-1 : D) < impl.comparable_distance mid a b := by linarith
  have hfill : simplify_range.fill m impl [a, mid, b] [] t =
      if impl.result_from_distance t < impl.comparable_distance mid a b then [a, mid, b]
      else [a, b] := by
    rw [fill_nil]
    have h1 : ¬ (([a, mid, b] : List P).length ≤ m ∨ t < 0) := by
      simp only [List.length_cons, List.length_nil, not_or, not_lt]
      exact ⟨by omega, ht⟩
    have h2 : ¬ (([a, mid, b] : List P).length ≤ 2 ∨ t < 0) := by
      simp only [List.length_cons, List.length_nil, not_or, not_lt]
      exact ⟨by omega, ht⟩
    have h3 : is_degenerate [a, mid, b] = false := by simp [is_degenerate]
    rw [if_neg h1]
    unfold simplify_range_insert.apply
    rw [if_neg h2]
    simp only [h3, Bool.false_eq_true, if_false]
    unfold douglas_peucker.apply douglas_peucker_.apply douglas_peucker_.included
    by_cases hc : impl.result_from_distance t < impl.comparable_distance mid a b
    · simp [douglas_peucker_.consider, douglas_peucker_.scan, douglas_peucker_.scanStep,
        douglas_peucker_.deviation, douglas_peucker_.copy_included, List.range', hlt, hc]
    · simp [douglas_peucker_.consider, douglas_peucker_.scan, douglas_peucker_.scanStep,
        douglas_peucker_.deviation, douglas_peucker_.copy_included, List.range', hlt, hc]
  unfold simplify_range.apply
  simp only [hfill]
  by_cases hc : impl.result_from_distance t < impl.comparable_distance mid a b
  · simp [hc, is_degenerate]
  · by_cases hab : a = b
    · subst hab
      simp [hc, is_degenerate]
    · simp [hc, hab, is_degenerate]

/-- Witness of C9: in the Cartesian instance (squared units), `[(0,0),(5,0.1),(10,0)]` at
tolerance 1 gives `[(0,0),(10,0)]` and `[(0,0),(5,5),(10,0)]` at tolerance 1 is unchanged. -/
theorem C9_three_point_threshold_witness :
    simplify_range.apply 2 cartesian [⟨0, 0⟩, ⟨5, 1 / 10⟩, ⟨10, 0⟩] [] 1
      = [(⟨0, 0⟩ : point_xy), ⟨10, 0⟩] ∧
    simplify_range.apply 2 cartesian [⟨0, 0⟩, ⟨5, 5⟩, ⟨10, 0⟩] [] 1
      = [(⟨0, 0⟩ : point_xy), ⟨5, 5⟩, ⟨10, 0⟩] := by
  constructor
  · rw [C9_three_point_threshold 2 (le_refl 2) cartesian ⟨0, 0⟩ ⟨5, 1 / 10⟩ ⟨10, 0⟩ 1
      (by norm_num) (by norm_num [cartesian, projected_point, comparable_pythagoras])]
    norm_num [cartesian, projected_point, comparable_pythagoras]
  · rw [C9_three_point_threshold 2 (le_refl 2) cartesian ⟨0, 0⟩ ⟨5, 5⟩ ⟨10, 0⟩ 1
      (by norm_num) (by norm_num [cartesian, projected_point, comparable_pythagoras])]
    norm_num [cartesian, projected_point, comparable_pythagoras]

/-- C5, monotonicity: for a fixed range and two tolerances `t1 ≤ t2`, the Range Policy output
at `t2` has at most as many points as the output at `t1` (any minimum size, empty container),
the conversion of the tolerance to the comparable unit being monotone on non-negative
tolerances. -/
theorem C5_monotonicity (m : Nat) (impl : Impl P D) (range : List P) (t1 t2 : D)
    (hconv : ∀ x y, 0 ≤ x → x ≤ y → impl.result_from_distance x ≤ impl.result_from_distance y)
    (h12 : t1 ≤ t2) :
    (simplify_range.apply m impl range [] t2).length
      ≤ (simplify_range.apply m impl range [] t1).length := by
  unfold simplify_range.apply
  exact collapse_length_mono _ _ (fill_mono m impl range t1 t2 hconv h12)

end RangeTheorems

/-! ## The Ring Policy and the Polygon Policy -/

section RingIndexLemmas

variable {P : Type} {D : Type} [LinearOrderedField D]

theorem get_opposite_loop_lt (dist : P → P → P → D) (point : P) :
    ∀ (rest : List P) (i : Nat) (md : D) (index n : Nat), index < n → i + rest.length ≤ n →
      simplify_ring.get_opposite_loop dist point rest i md index < n := by
  intro rest
  induction rest with
  | nil => intro i md index n h _; exact h
  | cons it rest ih =>
    intro i md index n h hi
    simp only [List.length_cons] at hi
    unfold simplify_ring.get_opposite_loop
    split
    · exact ih _ _ _ _ (by omega) (by omega)
    · exact ih _ _ _ _ h (by omega)

end RingIndexLemmas

section RingRotateLemmas

variable {P : Type} [Inhabited P] {D : Type} [LinearOrderedField D]

/-- The index `get_opposite` returns is a position of the ring. -/
theorem get_opposite_lt (impl : Impl P D) (index : Nat) (ring : List P)
    (h : index < ring.length) : simplify_ring.get_opposite impl index ring < ring.length := by
  unfold simplify_ring.get_opposite
  exact get_opposite_loop_lt _ _ _ _ _ _ _ h (by omega)

/-- The trial index after the `switch` is a position of the ring. -/
theorem advance_lt (size iteration index : Nat) (h : index < size) :
    simplify_ring.advance size iteration index < size := by
  unfold simplify_ring.advance
  have hpos : 0 < size := by omega
  split
  · exact Nat.mod_lt _ hpos
  · split
    · exact Nat.mod_lt _ hpos
    · split
      · exact Nat.mod_lt _ hpos
      · exact h

/-- With `rotated` of the size of the ring, the rotated and closed copy is the ring from
`index` on, then the ring up to `index`, then the point at `index` again. -/
theorem rotate_close_eq (ring rotated : List P) (index : Nat)
    (h : rotated.length = ring.length) :
    simplify_ring.rotate_close ring rotated index
      = ring.drop index ++ ring.take index ++ [ring.getD index default] := by
  unfold simplify_ring.rotate_close
  rw [List.drop_of_length_le (le_of_eq h)]
  simp

theorem rotate_close_length (ring rotated : List P) (index : Nat)
    (h : rotated.length = ring.length) (hi : index < ring.length) :
    (simplify_ring.rotate_close ring rotated index).length = ring.length + 1 := by
  rw [rotate_close_eq ring rotated index h]
  simp only [List.length_append, List.length_drop, List.length_take, List.length_cons,
    List.length_nil]
  have := Nat.min_eq_left (le_of_lt hi)
  omega

end RingRotateLemmas

section RingLemmas

variable {P : Type} [DecidableEq P] [Inhabited P] {D : Type} [LinearOrderedField D]

theorem iterations_succ (impl : Impl P D) (area perimeter : List P → D) (ring : List P)
    (t : D) (input_sign : Int) (remaining iteration index : Nat) (visited : List Nat)
    (rotated out : List P) :
    simplify_ring.iterations impl area perimeter ring t input_sign (remaining + 1) iteration
        index visited rotated out =
      if simplify_ring.get_opposite impl (simplify_ring.advance ring.length iteration index) ring
          ∈ visited then
        simplify_ring.iterations impl area perimeter ring t input_sign remaining (iteration + 1)
          (simplify_ring.get_opposite impl (simplify_ring.advance ring.length iteration index)
            ring) visited rotated out
      else if simplify_ring.area_sign (area (simplify_range.apply 0 impl
          (simplify_ring.rotate_close ring rotated (simplify_ring.get_opposite impl
            (simplify_ring.advance ring.length iteration index) ring)) out t)) = input_sign then
        simplify_range.apply 0 impl
          (simplify_ring.rotate_close ring rotated (simplify_ring.get_opposite impl
            (simplify_ring.advance ring.length iteration index) ring)) out t
      else if iteration = 0 ∧ perimeter ring < 3 * t then []
      else
        simplify_ring.iterations impl area perimeter ring t input_sign remaining (iteration + 1)
          (simplify_ring.get_opposite impl (simplify_ring.advance ring.length iteration index)
            ring)
          (simplify_ring.get_opposite impl (simplify_ring.advance ring.length iteration index)
            ring :: visited)
          ((simplify_ring.rotate_close ring rotated (simplify_ring.get_opposite impl
            (simplify_ring.advance ring.length iteration index) ring)).take ring.length) [] :=
  rfl

/-- Started with an empty output ring, the loop of the Ring Policy ends with the empty ring
or with a candidate whose area sign is the input sign. -/
theorem iterations_sign (impl : Impl P D) (area perimeter : List P → D) (ring : List P)
    (t : D) (input_sign : Int) :
    ∀ (remaining iteration index : Nat) (visited : List Nat) (rotated : List P),
      simplify_ring.iterations impl area perimeter ring t input_sign remaining iteration index
          visited rotated [] = [] ∨
      simplify_ring.area_sign (area (simplify_ring.iterations impl area perimeter ring t
          input_sign remaining iteration index visited rotated [])) = input_sign := by
  intro remaining
  induction remaining with
  | zero => intro _ _ _ _; left; rfl
  | succ remaining ih =>
    intro iteration index visited rotated
    rw [iterations_succ]
    split
    · exact ih _ _ _ _
    · split
      · right; assumption
      · split
        · left; rfl
        · exact ih _ _ _ _

/-- At a negative tolerance, for a ring of at least two points and an empty output ring, the
loop of the Ring Policy ends with the empty ring or with the ring rotated to start at one of
its positions `i` and closed with the point at `i`. -/
theorem iterations_negative (impl : Impl P D) (area perimeter : List P → D) (ring : List P)
    (t : D) (ht : t < 0) (h2 : 2 ≤ ring.length) (input_sign : Int) :
    ∀ (remaining iteration index : Nat) (visited : List Nat) (rotated : List P),
      index < ring.length → rotated.length = ring.length →
      simplify_ring.iterations impl area perimeter ring t input_sign remaining iteration index
          visited rotated [] = [] ∨
      ∃ i, i < ring.length ∧
        simplify_ring.iterations impl area perimeter ring t input_sign remaining iteration index
          visited rotated [] = ring.drop i ++ ring.take i ++ [ring.getD i default] := by
  intro remaining
  induction remaining with
  | zero => intro _ _ _ _ _ _; left; rfl
  | succ remaining ih =>
    intro iteration index visited rotated hidx hrot
    have hopp := get_opposite_lt impl _ ring (advance_lt ring.length iteration index hidx)
    rw [iterations_succ]
    split
    · exact ih _ _ _ _ hopp hrot
    · split
      · right
        refine ⟨_, hopp, ?_⟩
        rw [simplify_range_negative 0 impl _ t ht]
        have hlen := rotate_close_length ring rotated _ hrot hopp
        have hnd : is_degenerate (simplify_ring.rotate_close ring rotated
            (simplify_ring.get_opposite impl (simplify_ring.advance ring.length iteration index)
              ring)) = false := by
          cases hd : is_degenerate (simplify_ring.rotate_close ring rotated
            (simplify_ring.get_opposite impl (simplify_ring.advance ring.length iteration index)
              ring)) with
          | false => rfl
          | true =>
            obtain ⟨a, ha⟩ := (is_degenerate_iff _).mp hd
            rw [ha] at hlen
            simp at hlen
            omega
        rw [hnd]
        simp only [Bool.false_eq_true, if_false]
        exact rotate_close_eq ring rotated _ hrot
      · split
        · left; rfl
        · refine ih _ _ _ _ hopp ?_
          rw [List.length_take, rotate_close_length ring rotated _ hrot hopp]
          omega

/-- At a negative tolerance the Ring Policy (empty output ring) returns the empty ring, or a
ring of at most one point unchanged, or the input ring rotated to start at one of its
positions `i` and closed with the point at `i` (one point more than the input). -/
theorem simplify_ring_negative (impl : Impl P D) (area perimeter : List P → D) (ring : List P)
    (t : D) (ht : t < 0) :
    simplify_ring.apply impl area perimeter ring [] t = [] ∨
    (ring.length ≤ 1 ∧ simplify_ring.apply impl area perimeter ring [] t = ring) ∨
    ∃ i, i < ring.length ∧ simplify_ring.apply impl area perimeter ring [] t
      = ring.drop i ++ ring.take i ++ [ring.getD i default] := by
  match ring with
  | [] => left; rfl
  | [a] =>
    right; left
    refine ⟨by simp, ?_⟩
    simp [simplify_ring.apply, simplify_ring.iterations, simplify_ring.get_opposite,
      simplify_ring.get_opposite_loop, simplify_ring.advance, simplify_ring.rotate_close,
      simplify_range_negative 0 impl _ t ht, is_degenerate]
  | a :: b :: rest =>
    unfold simplify_ring.apply
    simp only [List.length_cons, Nat.add_one_ne_zero, if_false]
    rcases iterations_negative impl area perimeter (a :: b :: rest) t ht (by simp)
      (simplify_ring.area_sign (area (a :: b :: rest))) 4 0 0 []
      (List.replicate (rest.length + 1 + 1) default) (by simp) (by simp) with h | h
    · left; exact h
    · right; right; exact h

/-- Every ring `iterate` adds is a non-empty Ring Policy result of one of the input rings. -/
theorem iterate_mem (impl : Impl P D) (area perimeter : List P → D) (t : D) :
    ∀ (rings acc : List (List P)) (r : List P),
      r ∈ simplify_polygon.iterate impl area perimeter rings acc t →
      r ∈ acc ∨ ∃ r0 ∈ rings, r ≠ [] ∧ r = simplify_ring.apply impl area perimeter r0 [] t := by
  intro rings
  induction rings with
  | nil => intro acc r h; left; exact h
  | cons it rest ih =>
    intro acc r h
    unfold simplify_polygon.iterate at h
    simp only at h
    split at h
    · rename_i hne
      rcases ih _ r h with h1 | ⟨r0, hr0, hr⟩
      · rcases List.mem_append.mp h1 with h2 | h2
        · left; exact h2
        · right
          refine ⟨it, List.mem_cons_self _ _, ?_, ?_⟩
          · rw [List.mem_singleton] at h2
            rw [h2]
            intro he
            rw [he] at hne
            simp at hne
          · simpa using h2
      · right; exact ⟨r0, List.mem_cons_of_mem _ hr0, hr⟩
    · rcases ih _ r h with h1 | ⟨r0, hr0, hr⟩
      · left; exact h1
      · right; exact ⟨r0, List.mem_cons_of_mem _ hr0, hr⟩

end RingLemmas

section RingTheorems

variable {P : Type} [DecidableEq P] [Inhabited P] {D : Type} [LinearOrderedField D]

/-- C4, ring orientation invariant: for every ring and tolerance, if the Ring Policy, called
with an empty output ring, returns a non-empty ring, then the sign (-1, 0 or +1) of the signed
area of the output equals the sign of the signed area of the input. -/
theorem C4_ring_orientation (impl : Impl P D) (area perimeter : List P → D) (ring : List P)
    (t : D) (hne : simplify_ring.apply impl area perimeter ring [] t ≠ []) :
    simplify_ring.area_sign (area (simplify_ring.apply impl area perimeter ring [] t))
      = simplify_ring.area_sign (area ring) := by
  unfold simplify_ring.apply at hne ⊢
  split at hne
  · exact absurd rfl hne
  · rename_i h0
    simp only [h0, if_false]
    rcases iterations_sign impl area perimeter ring t (simplify_ring.area_sign (area ring)) 4 0 0
      [] (List.replicate ring.length default) with h | h
    · exact absurd h hne
    · exact h

/-- C7, negative tolerance in the Polygon Policy, at a failing input: at tolerance `-1` the
Polygon Policy turns the triangle `(0,0), (0,4), (3,0), (0,0)` (no holes) into the exterior
ring `(0,4), (3,0), (0,0), (0,0), (0,4)`. The ring is rotated to the vertex farthest from the
first one and closed again, and the old closing point stays in, so the output has five points
with `(0,0)` twice in a row and is not the input ring; the interior rings stay empty. The
Range Policy on the same point sequence at the same tolerance returns it unchanged. The
perimeter collaborator is asked for the input ring only, whose perimeter is 12. -/
theorem C7_negative_tolerance_failing_input :
    (-1 : ℚ) < 0 ∧
    (simplify_polygon.apply cartesian cartesian_area (fun _ => 12)
      ⟨[⟨0, 0⟩, ⟨0, 4⟩, ⟨3, 0⟩, ⟨0, 0⟩], []⟩ ⟨[], []⟩ (-1)).outer
      = [⟨0, 4⟩, ⟨3, 0⟩, ⟨0, 0⟩, ⟨0, 0⟩, ⟨0, 4⟩] ∧
    (simplify_polygon.apply cartesian cartesian_area (fun _ => 12)
      ⟨[⟨0, 0⟩, ⟨0, 4⟩, ⟨3, 0⟩, ⟨0, 0⟩], []⟩ ⟨[], []⟩ (-1)).outer
      ≠ [⟨0, 0⟩, ⟨0, 4⟩, ⟨3, 0⟩, ⟨0, 0⟩] ∧
    (simplify_polygon.apply cartesian cartesian_area (fun _ => 12)
      ⟨[⟨0, 0⟩, ⟨0, 4⟩, ⟨3, 0⟩, ⟨0, 0⟩], []⟩ ⟨[], []⟩ (-1)).inners = [] ∧
    simplify_range.apply 2 cartesian [⟨0, 0⟩, ⟨0, 4⟩, ⟨3, 0⟩, ⟨0, 0⟩] [] (-1)
      = [⟨0, 0⟩, ⟨0, 4⟩, ⟨3, 0⟩, ⟨0, 0⟩] := by
  refine ⟨by norm_num, by decide!, by decide!, by decide!, by decide!⟩

/-- Witness of C1: the range `(0,0), (1,0.1), (2,3), (3,0), (4,0)` at (squared) tolerance 1
keeps the positions 0, 2 and 4; the point at position 1 is within the tolerance of the chord
from position 0 to position 2. -/
theorem C1_distortion_bound_witness :
    douglas_peucker_.included projected_point
      [⟨0, 0⟩, ⟨1, 1 / 10⟩, ⟨2, 3⟩, ⟨3, 0⟩, ⟨4, 0⟩] 1 = [true, false, true, false, true] ∧
    projected_point ⟨1, 1 / 10⟩ ⟨0, 0⟩ ⟨2, 3⟩ ≤ 1 :=
  ⟨by decide!,
    C1_distortion_bound projected_point [⟨0, 0⟩, ⟨1, 1 / 10⟩, ⟨2, 3⟩, ⟨3, 0⟩, ⟨4, 0⟩] 1
      (by decide) (by norm_num) 0 2 1 (by decide) (by decide) (by decide) (by decide!)
      (by decide!) (by intro m h1 h2; interval_cases m; decide!)⟩

/-- Witness of C4: the square `(0,0), (0,4), (4,4), (4,0), (0,0)` at tolerance 1 is returned
as a non-empty ring with the area sign of the input (the perimeter collaborator is asked for
the input ring only, whose perimeter is 16). -/
theorem C4_ring_orientation_witness :
    simplify_ring.apply cartesian cartesian_area (fun _ => 16)
      [⟨0, 0⟩, ⟨0, 4⟩, ⟨4, 4⟩, ⟨4, 0⟩, ⟨0, 0⟩] [] 1
      = [⟨4, 4⟩, ⟨4, 0⟩, ⟨0, 0⟩, ⟨0, 4⟩, ⟨4, 4⟩] ∧
    simplify_ring.area_sign (cartesian_area (simplify_ring.apply cartesian cartesian_area
      (fun _ => 16) [⟨0, 0⟩, ⟨0, 4⟩, ⟨4, 4⟩, ⟨4, 0⟩, ⟨0, 0⟩] [] 1))
      = simplify_ring.area_sign (cartesian_area [⟨0, 0⟩, ⟨0, 4⟩, ⟨4, 4⟩, ⟨4, 0⟩, ⟨0, 0⟩]) :=
  ⟨by decide!,
    C4_ring_orientation cartesian cartesian_area (fun _ => 16)
      [⟨0, 0⟩, ⟨0, 4⟩, ⟨4, 4⟩, ⟨4, 0⟩, ⟨0, 0⟩] 1 (by decide!)⟩

/-- Witness of C5: `(0,0), (5,5), (10,0)` keeps three points at tolerance 1 and two points at
tolerance 6; squaring is monotone on non-negative tolerances. -/
theorem C5_monotonicity_witness :
    (1 : ℚ) ≤ 6 ∧
    (simplify_range.apply 2 cartesian [⟨0, 0⟩, ⟨5, 5⟩, ⟨10, 0⟩] [] 6).length
      ≤ (simplify_range.apply 2 cartesian [⟨0, 0⟩, ⟨5, 5⟩, ⟨10, 0⟩] [] 1).length :=
  ⟨by norm_num,
    C5_monotonicity 2 cartesian [⟨0, 0⟩, ⟨5, 5⟩, ⟨10, 0⟩] 1 6
      (by
        intro x y hx hxy
        show x * x ≤ y * y
        exact mul_le_mul hxy hxy hx (le_trans hx hxy))
      (by norm_num)⟩

end RingTheorems

/-! ## Short ranges, composition of the policies, the entry point -/

section CompositionLemmas

variable {P : Type} [DecidableEq P] [Inhabited P] {D : Type} [LinearOrderedField D]

/-- The loop `iterate` appends the non-empty Ring Policy results, in input order. -/
theorem iterate_eq (impl : Impl P D) (area perimeter : List P → D) (t : D) :
    ∀ (rings acc : List (List P)),
      simplify_polygon.iterate impl area perimeter rings acc t =
        acc ++ (rings.map (fun r => simplify_ring.apply impl area perimeter r [] t)).filter
          (fun r => !r.isEmpty) := by
  intro rings
  induction rings with
  | nil => intro acc; simp [simplify_polygon.iterate]
  | cons it rest ih =>
    intro acc
    unfold simplify_polygon.iterate
    simp only [List.map_cons, List.filter_cons]
    by_cases h : (simplify_ring.apply impl area perimeter it [] t).isEmpty = true
    · simp [h, ih]
    · simp [h, ih]

end CompositionLemmas

section MultiLemmas

variable {G : Type} {D : Type}

/-- The loop of `simplify_multi` appends the non-empty policy results, in input order. -/
theorem multi_loop_eq (policy : G → G → D → G) (is_empty : G → Bool) (fresh : G) (t : D) :
    ∀ (multi acc : List G),
      simplify_multi.loop policy is_empty fresh multi acc t =
        acc ++ (multi.map (fun g => policy g fresh t)).filter (fun r => !is_empty r) := by
  intro multi
  induction multi with
  | nil => intro acc; simp [simplify_multi.loop]
  | cons it rest ih =>
    intro acc
    unfold simplify_multi.loop
    simp only [List.map_cons, List.filter_cons]
    by_cases h : is_empty (policy it fresh t) = true
    · simp [h, ih]
    · simp [h, ih]

end MultiLemmas

section CompositionTheorems

variable {P : Type} [DecidableEq P] [Inhabited P] {D : Type} [LinearOrderedField D]

/-- C11, short ranges are copied verbatim: for every range with at most 2 points that is not
a pair of equal points and for every tolerance (negative, zero or positive), the output of
the Range Policy (any minimum size, in particular 2 for linestrings; empty container) equals
the input exactly. -/
theorem C11_short_ranges (m : Nat) (impl : Impl P D) (range : List P) (t : D)
    (hlen : range.length ≤ 2) (hnd : is_degenerate range = false) :
    simplify_range.apply m impl range [] t = range := by
  have hfill : simplify_range.fill m impl range [] t = range := by
    rw [fill_nil]
    split
    · rfl
    · unfold simplify_range_insert.apply
      simp [hnd, hlen]
  unfold simplify_range.apply
  simp [hfill, hnd]

/-- Witness of C11: two distinct points at tolerance `-1` are returned unchanged. -/
theorem C11_short_ranges_witness :
    simplify_range.apply 2 cartesian [⟨0, 0⟩, ⟨1, 1⟩] [] (-1)
      = [(⟨0, 0⟩ : point_xy), ⟨1, 1⟩] :=
  C11_short_ranges 2 cartesian [⟨0, 0⟩, ⟨1, 1⟩] (-1) (by decide) (by decide)

/-- C13, Polygon Policy composition: the output exterior ring is the Ring Policy result of the
input exterior ring (written into the output exterior ring), and the output interior rings
are exactly the Ring Policy results of the input interior rings (each written into a fresh
ring), in input order, with the empty results removed; so there are at most as many as in the
input and the prior interior rings of the output do not appear. -/
theorem C13_polygon_composition (impl : Impl P D) (area perimeter : List P → D)
    (poly_in poly_out : polygon P) (t : D) :
    (simplify_polygon.apply impl area perimeter poly_in poly_out t).outer
      = simplify_ring.apply impl area perimeter poly_in.outer poly_out.outer t ∧
    (simplify_polygon.apply impl area perimeter poly_in poly_out t).inners
      = (poly_in.inners.map (fun r => simplify_ring.apply impl area perimeter r [] t)).filter
          (fun r => !r.isEmpty) ∧
    (simplify_polygon.apply impl area perimeter poly_in poly_out t).inners.length
      ≤ poly_in.inners.length := by
  have h : (simplify_polygon.apply impl area perimeter poly_in poly_out t).inners
      = (poly_in.inners.map (fun r => simplify_ring.apply impl area perimeter r [] t)).filter
          (fun r => !r.isEmpty) := by
    unfold simplify_polygon.apply simplify_polygon.apply_interior_rings
    simp only
    rw [iterate_eq]
    simp
  refine ⟨rfl, h, ?_⟩
  rw [h]
  exact le_trans (List.length_filter_le _ _) (by simp)

/-- C16, empty propagates: for the empty ring the Ring Policy returns at once with `out` as
it was, hence with the empty ring when called with an empty output ring or through the entry
point `simplify`; no iteration of the loop is executed, so no index is taken modulo the ring
length 0. -/
theorem C16_empty_ring (impl : Impl P D) (area perimeter : List P → D) (t : D) :
    simplify_ring.apply impl area perimeter [] [] t = [] ∧
    (∀ out : List P, simplify_ring.apply impl area perimeter [] out t = out) ∧
    (∀ out : List P, simplify_ring.attempts impl area perimeter [] out t = []) ∧
    (∀ out : List P, simplify impl area perimeter .ring_tag ([] : List P) out t
      = ([] : List P)) := by
  refine ⟨rfl, fun _ => rfl, fun _ => rfl, fun _ => rfl⟩

/-- C17, multi-points are copied verbatim: for every multi-point, every tolerance and every
prior value of the output, `simplify` returns the input point sequence; the result does not
depend on the tolerance. -/
theorem C17_multi_point_copy (impl : Impl P D) (area perimeter : List P → D)
    (geometry out : List P) (t : D) :
    simplify impl area perimeter .multi_point_tag geometry out t = geometry := by
  show simplify_copy.apply geometry [] = geometry
  simp [simplify_copy.apply]

/-- C18, the output is cleared before use: for every geometry tag, input geometry and
tolerance, the result of the entry point `simplify` is the same for any two prior values of
the output. -/
theorem C18_output_cleared (impl : Impl P D) (area perimeter : List P → D) (tag : geometry_tag)
    (geometry out1 out2 : geometry_type P tag) (t : D) :
    simplify impl area perimeter tag geometry out1 t
      = simplify impl area perimeter tag geometry out2 t := by
  cases tag <;> rfl

/-- C19, first-attempt acceptance in the Ring Policy: for a non-empty ring let `a` be the
antipodal index of vertex 0 and `c` the result of the Range Policy with minimum size 0 on the
sequence `ring[a], ..., ring[n-1], ring[0], ..., ring[a-1], ring[a]`; if the area sign of `c`
equals the area sign of the ring, the output of the Ring Policy (empty output ring) is `c`. -/
theorem C19_first_attempt (impl : Impl P D) (area perimeter : List P → D) (ring : List P)
    (t : D) (hne : ring ≠ [])
    (hsign : simplify_ring.area_sign (area (simplify_range.apply 0 impl
        (ring.drop (simplify_ring.get_opposite impl 0 ring)
          ++ ring.take (simplify_ring.get_opposite impl 0 ring)
          ++ [ring.getD (simplify_ring.get_opposite impl 0 ring) default]) [] t))
      = simplify_ring.area_sign (area ring)) :
    simplify_ring.apply impl area perimeter ring [] t
      = simplify_range.apply 0 impl
        (ring.drop (simplify_ring.get_opposite impl 0 ring)
          ++ ring.take (simplify_ring.get_opposite impl 0 ring)
          ++ [ring.getD (simplify_ring.get_opposite impl 0 ring) default]) [] t := by
  have hlen : ring.length ≠ 0 := by
    intro h
    exact hne (List.length_eq_zero.mp h)
  unfold simplify_ring.apply
  rw [if_neg hlen, iterations_succ]
  have hadv : simplify_ring.advance ring.length 0 0 = 0 := by simp [simplify_ring.advance]
  rw [hadv, rotate_close_eq ring _ _ (by simp)]
  simp only [List.not_mem_nil, if_false]
  rw [if_pos hsign]

/-- Witness of C19: for the square `(0,0), (0,4), (4,4), (4,0), (0,0)` at tolerance 1 the
antipodal index of vertex 0 is 2 and the first candidate, the square from `(4,4)` on, is the
output. -/
theorem C19_first_attempt_witness :
    simplify_ring.get_opposite cartesian 0
      [(⟨0, 0⟩ : point_xy), ⟨0, 4⟩, ⟨4, 4⟩, ⟨4, 0⟩, ⟨0, 0⟩] = 2 ∧
    simplify_ring.apply cartesian cartesian_area (fun _ => 16)
      [⟨0, 0⟩, ⟨0, 4⟩, ⟨4, 4⟩, ⟨4, 0⟩, ⟨0, 0⟩] [] 1
      = [⟨4, 4⟩, ⟨4, 0⟩, ⟨0, 0⟩, ⟨0, 4⟩, ⟨4, 4⟩] :=
  ⟨by decide!,
    (C19_first_attempt cartesian cartesian_area (fun _ => 16)
      [⟨0, 0⟩, ⟨0, 4⟩, ⟨4, 4⟩, ⟨4, 0⟩, ⟨0, 0⟩] 1 (by decide) (by decide!)).trans (by decide!)⟩

end CompositionTheorems

section MultiTheorems

variable {G : Type} {D : Type}

/-- C14, Multi-Geometry Policy composition: for every collection, tolerance, element policy
and prior output, the output is exactly the list of the per-element policy results (each
written into a fresh element), in input order, with the empty results removed; hence the
output is not longer than the input and the survivors keep their relative order. -/
theorem C14_multi_composition (policy : G → G → D → G) (is_empty : G → Bool) (fresh : G)
    (multi out : List G) (t : D) :
    simplify_multi.apply policy is_empty fresh multi out t
      = (multi.map (fun g => policy g fresh t)).filter (fun r => !is_empty r) ∧
    (simplify_multi.apply policy is_empty fresh multi out t).length ≤ multi.length ∧
    (simplify_multi.apply policy is_empty fresh multi out t).Sublist
      (multi.map (fun g => policy g fresh t)) := by
  have h : simplify_multi.apply policy is_empty fresh multi out t
      = (multi.map (fun g => policy g fresh t)).filter (fun r => !is_empty r) := by
    unfold simplify_multi.apply
    rw [multi_loop_eq]
    simp
  refine ⟨h, ?_, ?_⟩
  · rw [h]
    exact le_trans (List.length_filter_le _ _) (by simp)
  · rw [h]
    exact List.filter_sublist _

end MultiTheorems

/-! ## The history of the Ring Policy loop -/

section HistoryLemmas

variable {P : Type} [DecidableEq P] [Inhabited P] {D : Type} [LinearOrderedField D]

theorem history_succ (impl : Impl P D) (area perimeter : List P → D) (ring : List P)
    (t : D) (input_sign : Int) (remaining iteration index : Nat) (visited : List Nat)
    (rotated out : List P) :
    simplify_ring.history impl area perimeter ring t input_sign (remaining + 1) iteration
        index visited rotated out =
      if simplify_ring.get_opposite impl (simplify_ring.advance ring.length iteration index) ring
          ∈ visited then
        ⟨iteration, simplify_ring.advance ring.length iteration index,
          simplify_ring.get_opposite impl (simplify_ring.advance ring.length iteration index)
            ring, none⟩ ::
        simplify_ring.history impl area perimeter ring t input_sign remaining (iteration + 1)
          (simplify_ring.get_opposite impl (simplify_ring.advance ring.length iteration index)
            ring) visited rotated out
      else if simplify_ring.area_sign (area (simplify_range.apply 0 impl
          (simplify_ring.rotate_close ring rotated (simplify_ring.get_opposite impl
            (simplify_ring.advance ring.length iteration index) ring)) out t)) = input_sign then
        [⟨iteration, simplify_ring.advance ring.length iteration index,
          simplify_ring.get_opposite impl (simplify_ring.advance ring.length iteration index)
            ring,
          some (simplify_range.apply 0 impl
            (simplify_ring.rotate_close ring rotated (simplify_ring.get_opposite impl
              (simplify_ring.advance ring.length iteration index) ring)) out t)⟩]
      else if iteration = 0 ∧ perimeter ring < 3 * t then
        [⟨iteration, simplify_ring.advance ring.length iteration index,
          simplify_ring.get_opposite impl (simplify_ring.advance ring.length iteration index)
            ring,
          some (simplify_range.apply 0 impl
            (simplify_ring.rotate_close ring rotated (simplify_ring.get_opposite impl
              (simplify_ring.advance ring.length iteration index) ring)) out t)⟩]
      else
        ⟨iteration, simplify_ring.advance ring.length iteration index,
          simplify_ring.get_opposite impl (simplify_ring.advance ring.length iteration index)
            ring,
          some (simplify_range.apply 0 impl
            (simplify_ring.rotate_close ring rotated (simplify_ring.get_opposite impl
              (simplify_ring.advance ring.length iteration index) ring)) out t)⟩ ::
        simplify_ring.history impl area perimeter ring t input_sign remaining (iteration + 1)
          (simplify_ring.get_opposite impl (simplify_ring.advance ring.length iteration index)
            ring)
          (simplify_ring.get_opposite impl (simplify_ring.advance ring.length iteration index)
            ring :: visited)
          ((simplify_ring.rotate_close ring rotated (simplify_ring.get_opposite impl
            (simplify_ring.advance ring.length iteration index) ring)).take ring.length) [] :=
  rfl

/-- The first record of a history, if there is one, is the record of the current iteration;
the rest is the history of the next iteration, started from the new `index`. -/
theorem history_cases (impl : Impl P D) (area perimeter : List P → D) (ring : List P)
    (t : D) (input_sign : Int) (remaining iteration index : Nat) (visited : List Nat)
    (rotated out : List P) :
    ∃ (c : Option (List P)) (rest : List (simplify_ring.attempt P)),
      simplify_ring.history impl area perimeter ring t input_sign (remaining + 1) iteration
          index visited rotated out
        = ⟨iteration, simplify_ring.advance ring.length iteration index,
            simplify_ring.get_opposite impl (simplify_ring.advance ring.length iteration index)
              ring, c⟩ :: rest ∧
      (rest = [] ∨ ∃ visited1 rotated1 out1,
        rest = simplify_ring.history impl area perimeter ring t input_sign remaining
          (iteration + 1)
          (simplify_ring.get_opposite impl (simplify_ring.advance ring.length iteration index)
            ring) visited1 rotated1 out1) := by
  rw [history_succ]
  split
  · exact ⟨_, _, rfl, Or.inr ⟨_, _, _, rfl⟩⟩
  · split
    · exact ⟨_, _, rfl, Or.inl rfl⟩
    · split
      · exact ⟨_, _, rfl, Or.inl rfl⟩
      · exact ⟨_, _, rfl, Or.inr ⟨_, _, _, rfl⟩⟩

theorem history_length (impl : Impl P D) (area perimeter : List P → D) (ring : List P)
    (t : D) (input_sign : Int) :
    ∀ (remaining iteration index : Nat) (visited : List Nat) (rotated out : List P),
      (simplify_ring.history impl area perimeter ring t input_sign remaining iteration index
        visited rotated out).length ≤ remaining := by
  intro remaining
  induction remaining with
  | zero => intro _ _ _ _ _; simp [simplify_ring.history]
  | succ remaining ih =>
    intro iteration index visited rotated out
    obtain ⟨c, rest, h, hrest⟩ := history_cases impl area perimeter ring t input_sign remaining
      iteration index visited rotated out
    rw [h]
    rcases hrest with hr | ⟨v, r, o, hr⟩
    · rw [hr]; simp
    · rw [hr, List.length_cons]
      exact Nat.succ_le_succ (ih _ _ _ _ _)

/-- The records of a history: the `k`-th one belongs to iteration `iteration + k`, its
`index` is the antipodal index of its `trial`, the first `trial` is the `switch` applied to
the start `index`, and every later `trial` is the `switch` applied to the `index` of the
record before. -/
theorem history_schedule (impl : Impl P D) (area perimeter : List P → D) (ring : List P)
    (t : D) (input_sign : Int) :
    ∀ (remaining iteration index : Nat) (visited : List Nat) (rotated out : List P)
      (k : Nat) (a : simplify_ring.attempt P),
      (simplify_ring.history impl area perimeter ring t input_sign remaining iteration index
        visited rotated out)[k]? = some a →
      a.iteration = iteration + k ∧
      a.index = simplify_ring.get_opposite impl a.trial ring ∧
      (k = 0 → a.trial = simplify_ring.advance ring.length iteration index) ∧
      ∀ a2, (simplify_ring.history impl area perimeter ring t input_sign remaining iteration
          index visited rotated out)[k + 1]? = some a2 →
        a2.trial = simplify_ring.advance ring.length (iteration + k + 1) a.index := by
  intro remaining
  induction remaining with
  | zero => intro _ _ _ _ _ k a h; simp [simplify_ring.history] at h
  | succ remaining ih =>
    intro iteration index visited rotated out k a h
    obtain ⟨c, rest, hh, hrest⟩ := history_cases impl area perimeter ring t input_sign remaining
      iteration index visited rotated out
    rw [hh] at h ⊢
    cases k with
    | zero =>
      simp only [List.getElem?_cons_zero, Option.some.injEq] at h
      subst h
      refine ⟨rfl, rfl, fun _ => rfl, ?_⟩
      intro a2 h2
      simp only [zero_add, List.getElem?_cons_succ] at h2
      rcases hrest with hr | ⟨v, r, o, hr⟩
      · rw [hr] at h2; simp at h2
      · rw [hr] at h2
        have := (ih _ _ _ _ _ 0 a2 h2).2.2.1 rfl
        simpa using this
    | succ k =>
      simp only [List.getElem?_cons_succ] at h
      rcases hrest with hr | ⟨v, r, o, hr⟩
      · rw [hr] at h; simp at h
      · rw [hr] at h
        obtain ⟨h1, h2, _, h4⟩ := ih _ _ _ _ _ k a h
        refine ⟨by omega, h2, fun h0 => by omega, ?_⟩
        intro a2 ha2
        simp only [List.getElem?_cons_succ] at ha2
        rw [hr] at ha2
        have := h4 a2 ha2
        rw [this]
        congr 1
        omega

/-- When no recorded candidate has the input sign, the loop ends with the empty ring. -/
theorem history_fail (impl : Impl P D) (area perimeter : List P → D) (ring : List P)
    (t : D) (input_sign : Int) :
    ∀ (remaining iteration index : Nat) (visited : List Nat) (rotated : List P),
      (∀ a ∈ simplify_ring.history impl area perimeter ring t input_sign remaining iteration
          index visited rotated [], ∀ c, a.candidate = some c →
        simplify_ring.area_sign (area c) ≠ input_sign) →
      simplify_ring.iterations impl area perimeter ring t input_sign remaining iteration index
        visited rotated [] = [] := by
  intro remaining
  induction remaining with
  | zero => intro _ _ _ _ _; rfl
  | succ remaining ih =>
    intro iteration index visited rotated hall
    rw [history_succ] at hall
    rw [iterations_succ]
    split
    · rename_i hv
      rw [if_pos hv] at hall
      exact ih _ _ _ _ (fun a ha => hall a (List.mem_cons_of_mem _ ha))
    · rename_i hv
      rw [if_neg hv] at hall
      split
      · rename_i hs
        rw [if_pos hs] at hall
        exact absurd hs (hall _ (List.mem_singleton.mpr rfl) _ rfl)
      · rename_i hs
        rw [if_neg hs] at hall
        split
        · rfl
        · rename_i hp
          rw [if_neg hp] at hall
          exact ih _ _ _ _ (fun a ha => hall a (List.mem_cons_of_mem _ ha))

end HistoryLemmas

section HistoryTheorems

variable {P : Type} [DecidableEq P] [Inhabited P] {D : Type} [LinearOrderedField D]

/-- C15, ring simplification failure yields an empty ring: for a non-empty ring, if none of
the candidates produced in the (at most 4) iterations of the Ring Policy has an area sign
equal to the area sign of the input, the output (empty output ring) is the empty ring. -/
theorem C15_failure_empty (impl : Impl P D) (area perimeter : List P → D) (ring : List P)
    (t : D) (_hne : ring ≠ [])
    (hall : ∀ a ∈ simplify_ring.attempts impl area perimeter ring [] t, ∀ c,
      a.candidate = some c →
      simplify_ring.area_sign (area c) ≠ simplify_ring.area_sign (area ring)) :
    simplify_ring.apply impl area perimeter ring [] t = [] := by
  unfold simplify_ring.apply
  unfold simplify_ring.attempts at hall
  split
  · rfl
  · rename_i h0
    rw [if_neg h0] at hall
    exact history_fail impl area perimeter ring t _ 4 0 0 [] _ hall

/-- Witness of C15: the ring `(0,0), (0,1), (10,1), (10,0), (0,0)` (perimeter 22) at tolerance
2: the three candidates are flat rings of area 0, the fourth iteration is skipped, and the
output is empty. -/
theorem C15_failure_empty_witness :
    (simplify_ring.attempts cartesian cartesian_area (fun _ => 22)
      [⟨0, 0⟩, ⟨0, 1⟩, ⟨10, 1⟩, ⟨10, 0⟩, ⟨0, 0⟩] [] 2).map (fun a => a.candidate)
      = [some [⟨10, 1⟩, ⟨0, 0⟩, ⟨10, 1⟩], some [⟨0, 1⟩, ⟨10, 0⟩, ⟨0, 1⟩],
          some [⟨10, 0⟩, ⟨0, 1⟩, ⟨10, 0⟩], none] ∧
    simplify_ring.apply cartesian cartesian_area (fun _ => 22)
      [⟨0, 0⟩, ⟨0, 1⟩, ⟨10, 1⟩, ⟨10, 0⟩, ⟨0, 0⟩] [] 2 = [] :=
  ⟨by decide!,
    C15_failure_empty cartesian cartesian_area (fun _ => 22)
      [⟨0, 0⟩, ⟨0, 1⟩, ⟨10, 1⟩, ⟨10, 0⟩, ⟨0, 0⟩] 2 (by decide)
      (by
        have key : ∀ a ∈ simplify_ring.attempts cartesian cartesian_area (fun _ => 22)
            [⟨0, 0⟩, ⟨0, 1⟩, ⟨10, 1⟩, ⟨10, 0⟩, ⟨0, 0⟩] [] 2, ∀ c ∈ a.candidate,
            simplify_ring.area_sign (cartesian_area c) ≠ simplify_ring.area_sign
              (cartesian_area [⟨0, 0⟩, ⟨0, 1⟩, ⟨10, 1⟩, ⟨10, 0⟩, ⟨0, 0⟩]) := by
          decide!
        intro a ha c hc
        exact key a ha c hc)⟩

/-- C20 (counterexample): for the ring `(0,0), (0,1), (10,1), (10,0), (0,0)` of `n = 5`
points (perimeter 22) at tolerance 2 the trial indices of the iterations 0, 1, 2, 3 are
0, 3, 1, 4, whereas the claimed schedule `0, n/4, n/4 + n/8, n/4 + n/8 + n/4` (mod `n`) is
0, 1, 1, 2: the offsets are added to the antipodal index of the iteration before. -/
theorem C20_counterexample :
    (simplify_ring.attempts cartesian cartesian_area (fun _ => 22)
      [⟨0, 0⟩, ⟨0, 1⟩, ⟨10, 1⟩, ⟨10, 0⟩, ⟨0, 0⟩] [] 2).map (fun a => (a.iteration, a.trial))
      = [(0, 0), (1, 3), (2, 1), (3, 4)] ∧
    [0 % 5, (5 / 4) % 5, (5 / 4 + 5 / 8) % 5, (5 / 4 + 5 / 8 + 5 / 4) % 5] = [0, 1, 1, 2] ∧
    (simplify_ring.attempts cartesian cartesian_area (fun _ => 22)
      [⟨0, 0⟩, ⟨0, 1⟩, ⟨10, 1⟩, ⟨10, 0⟩, ⟨0, 0⟩] [] 2).map (fun a => a.trial)
      ≠ [0 % 5, (5 / 4) % 5, (5 / 4 + 5 / 8) % 5, (5 / 4 + 5 / 8 + 5 / 4) % 5] := by
  refine ⟨by decide!, by decide, by decide!⟩

/-- C20 (amended), offset schedule of the Ring Policy: in every call, the `k`-th executed
iteration is iteration `k` of the loop; its index after `get_opposite` is the antipodal index
of its trial index; the trial index of iteration 0 is 0; and the trial index of iteration
`k + 1` is the antipodal index found in iteration `k` advanced by `n / 4` (for iterations 1
and 3) or `n / 8` (for iteration 2), taken mod `n`, where `n` is the ring length. -/
theorem C20_offset_schedule (impl : Impl P D) (area perimeter : List P → D) (ring out : List P)
    (t : D) (k : Nat) (a : simplify_ring.attempt P)
    (h : (simplify_ring.attempts impl area perimeter ring out t)[k]? = some a) :
    a.iteration = k ∧
    a.index = simplify_ring.get_opposite impl a.trial ring ∧
    (k = 0 → a.trial = 0) ∧
    ∀ a2, (simplify_ring.attempts impl area perimeter ring out t)[k + 1]? = some a2 →
      a2.trial = (a.index + ring.length / (if k = 1 then 8 else 4)) % ring.length := by
  unfold simplify_ring.attempts at h ⊢
  split at h
  · simp at h
  · rename_i h0
    simp only [h0, if_false]
    obtain ⟨h1, h2, h3, h4⟩ := history_schedule impl area perimeter ring t _ 4 0 0 [] _ out k a h
    refine ⟨by omega, h2, ?_, ?_⟩
    · intro hk
      rw [h3 hk]
      simp [simplify_ring.advance]
    · intro a2 ha2
      have hlen := history_length impl area perimeter ring t
        (simplify_ring.area_sign (area ring)) 4 0 0 [] (List.replicate ring.length default) out
      have hk : k + 1 < 4 := lt_of_lt_of_le (getElem?_some_lt ha2) hlen
      rw [h4 a2 ha2]
      have hcases : k = 0 ∨ k = 1 ∨ k = 2 := by omega
      rcases hcases with rfl | rfl | rfl <;> simp [simplify_ring.advance]

/-- Witness of C20 (amended): in the ring `(0,0), (0,1), (10,1), (10,0), (0,0)` at tolerance 2
iteration 0 has trial index 0 and antipodal index 2, and iteration 1 has the trial index
`(2 + 5 / 4) % 5 = 3`. -/
theorem C20_offset_schedule_witness :
    (simplify_ring.attempts cartesian cartesian_area (fun _ => 22)
      [⟨0, 0⟩, ⟨0, 1⟩, ⟨10, 1⟩, ⟨10, 0⟩, ⟨0, 0⟩] [] 2)[0]?
      = some ⟨0, 0, 2, some [⟨10, 1⟩, ⟨0, 0⟩, ⟨10, 1⟩]⟩ ∧
    ∀ a2, (simplify_ring.attempts cartesian cartesian_area (fun _ => 22)
      [⟨0, 0⟩, ⟨0, 1⟩, ⟨10, 1⟩, ⟨10, 0⟩, ⟨0, 0⟩] [] 2)[0 + 1]? = some a2 →
      a2.trial = (2 + 5 / (if 0 = 1 then 8 else 4)) % 5 :=
  ⟨by decide!,
    (C20_offset_schedule cartesian cartesian_area (fun _ => 22)
      [⟨0, 0⟩, ⟨0, 1⟩, ⟨10, 1⟩, ⟨10, 0⟩, ⟨0, 0⟩] [] 2 0
      ⟨0, 0, 2, some [⟨10, 1⟩, ⟨0, 0⟩, ⟨10, 1⟩]⟩ (by decide!)).2.2.2⟩

end HistoryTheorems

/-! ## The square scenario -/

section SquareLemmas

variable {P : Type} [Inhabited P] {D : Type} [LinearOrderedField D]

/-- Evaluation of the core on six points `p0 .. p5` when the scan of the whole range selects
`p2`, the left part keeps `p1`, the right part keeps `p4` and `p3` stays within the
tolerance of the chord `p2 p4`. -/
theorem included_six (dist : P → P → P → D) (p0 p1 p2 p3 p4 p5 : P) (T : D)
    (h1 : -1 < dist p1 p0 p5) (h2 : dist p1 p0 p5 < dist p2 p0 p5)
    (h3 : ¬ dist p2 p0 p5 < dist p3 p0 p5) (h4 : ¬ dist p2 p0 p5 < dist p4 p0 p5)
    (hT1 : T < dist p2 p0 p5)
    (h5 : -1 < dist p1 p0 p2) (hT2 : T < dist p1 p0 p2)
    (h6 : -1 < dist p3 p2 p5) (h7 : dist p3 p2 p5 < dist p4 p2 p5)
    (hT3 : T < dist p4 p2 p5)
    (h8 : -1 < dist p3 p2 p4) (hT4 : ¬ T < dist p3 p2 p4) :
    douglas_peucker_.included dist [p0, p1, p2, p3, p4, p5] T
      = [true, true, true, false, true, true] := by
  have r14 : List.range' 1 4 = [1, 2, 3, 4] := rfl
  have r32 : List.range' 3 2 = [3, 4] := rfl
  simp [douglas_peucker_.included, douglas_peucker_.consider, douglas_peucker_.scan,
    douglas_peucker_.scanStep, douglas_peucker_.deviation, r14, r32, h1, h2, h3, h4, hT1, h5,
    hT2, h6, h7, hT3, h8, hT4]

end SquareLemmas


section CartesianLemmas

theorem pp_same (p q : point_xy) : projected_point p q q = comparable_pythagoras p q := by
  simp [projected_point]

theorem pp_start (p q : point_xy) : projected_point p p q = 0 := by
  simp [projected_point, comparable_pythagoras]

/-- The oracle at a point whose projection falls strictly inside the segment. -/
theorem pp_mid (p p1 p2 : point_xy) (c1 c2 : ℚ)
    (h1 : (p.x - p1.x) * (p2.x - p1.x) + (p.y - p1.y) * (p2.y - p1.y) = c1)
    (h2 : (p2.x - p1.x) * (p2.x - p1.x) + (p2.y - p1.y) * (p2.y - p1.y) = c2)
    (hpos : 0 < c1) (hlt : c1 < c2) :
    projected_point p p1 p2 = comparable_pythagoras p
      ⟨p1.x + c1 / c2 * (p2.x - p1.x), p1.y + c1 / c2 * (p2.y - p1.y)⟩ := by
  unfold projected_point
  simp only [h1, h2]
  rw [if_neg (not_le.mpr hpos), if_neg (not_le.mpr hlt)]

theorem pp_diag1 (x y a b : ℚ) (hs : 0 < a * a + b * b) :
    projected_point ⟨x + b, y - a⟩ ⟨x + a + b, y + b - a⟩ ⟨x, y⟩ = (a * a + b * b) / 2 := by
  rw [pp_mid _ _ _ (a * a + b * b) (2 * (a * a + b * b)) (by dsimp only; ring)
    (by dsimp only; ring) hs (by linarith)]
  have h : (a * a + b * b) / (2 * (a * a + b * b)) = 1 / 2 := by
    field_simp
    ring
  rw [h]
  simp only [comparable_pythagoras]
  ring

theorem pp_diag2 (x y a b : ℚ) (hs : 0 < a * a + b * b) :
    projected_point ⟨x + a, y + b⟩ ⟨x, y⟩ ⟨x + a + b, y + b - a⟩ = (a * a + b * b) / 2 := by
  rw [pp_mid _ _ _ (a * a + b * b) (2 * (a * a + b * b)) (by dsimp only; ring)
    (by dsimp only; ring) hs (by linarith)]
  have h : (a * a + b * b) / (2 * (a * a + b * b)) = 1 / 2 := by
    field_simp
    ring
  rw [h]
  simp only [comparable_pythagoras]
  ring

/-- Evaluation of `get_opposite` for index 0 on five points when the distances from the
first point grow up to the third point and do not grow after it. -/
theorem get_opposite_five {P : Type} [Inhabited P] {D : Type} [LinearOrderedField D]
    (impl : Impl P D) (q0 q1 q2 q3 q4 : P)
    (k0 : impl.distance_strategy q0 q0 q0 > -1)
    (k1 : impl.distance_strategy q1 q0 q0 > impl.distance_strategy q0 q0 q0)
    (k2 : impl.distance_strategy q2 q0 q0 > impl.distance_strategy q1 q0 q0)
    (k3 : ¬ impl.distance_strategy q3 q0 q0 > impl.distance_strategy q2 q0 q0)
    (k4 : ¬ impl.distance_strategy q4 q0 q0 > impl.distance_strategy q2 q0 q0) :
    simplify_ring.get_opposite impl 0 [q0, q1, q2, q3, q4] = 2 := by
  simp only [simplify_ring.get_opposite, simplify_ring.get_opposite_loop, List.getD_cons_zero,
    k0, k1, k2, k3, k4, if_true, if_false]

theorem square_opposite (x y a b : ℚ) (hs : 0 < a * a + b * b) :
    simplify_ring.get_opposite cartesian 0
      [(⟨x, y⟩ : point_xy), ⟨x + a, y + b⟩, ⟨x + a + b, y + b - a⟩, ⟨x + b, y - a⟩, ⟨x, y⟩]
      = 2 := by
  apply get_opposite_five <;>
    simp only [cartesian, pp_same, comparable_pythagoras, gt_iff_lt, not_lt] <;>
    nlinarith [hs]

theorem square_included (x y a b t : ℚ) (ht : 4 * (t * t) < a * a + b * b) :
    douglas_peucker_.included projected_point
      [(⟨x + a + b, y + b - a⟩ : point_xy), ⟨x + b, y - a⟩, ⟨x, y⟩, ⟨x, y⟩, ⟨x + a, y + b⟩,
        ⟨x + a + b, y + b - a⟩] (t * t)
      = [true, true, true, false, true, true] := by
  have ht0 : 0 ≤ t * t := mul_self_nonneg t
  have hs : 0 < a * a + b * b := by linarith
  apply included_six
  · rw [pp_same]; simp only [comparable_pythagoras]; nlinarith
  · rw [pp_same, pp_same]; simp only [comparable_pythagoras]; nlinarith
  · rw [pp_same]; exact lt_irrefl _
  · rw [pp_same, pp_same]; simp only [comparable_pythagoras]; nlinarith
  · rw [pp_same]; simp only [comparable_pythagoras]; nlinarith
  · rw [pp_diag1 x y a b hs]; linarith
  · rw [pp_diag1 x y a b hs]; linarith
  · rw [pp_start]; norm_num
  · rw [pp_start, pp_diag2 x y a b hs]; linarith
  · rw [pp_diag2 x y a b hs]; linarith
  · rw [pp_start]; norm_num
  · rw [pp_start]; exact not_lt.mpr ht0

theorem square_candidate (x y a b t : ℚ) (ht : 0 ≤ t) (hhalf : 4 * (t * t) < a * a + b * b) :
    simplify_range.apply 0 cartesian
      [(⟨x + a + b, y + b - a⟩ : point_xy), ⟨x + b, y - a⟩, ⟨x, y⟩, ⟨x, y⟩, ⟨x + a, y + b⟩,
        ⟨x + a + b, y + b - a⟩] [] t
      = [⟨x + a + b, y + b - a⟩, ⟨x + b, y - a⟩, ⟨x, y⟩, ⟨x + a, y + b⟩,
          ⟨x + a + b, y + b - a⟩] := by
  have hfill : simplify_range.fill 0 cartesian
      [(⟨x + a + b, y + b - a⟩ : point_xy), ⟨x + b, y - a⟩, ⟨x, y⟩, ⟨x, y⟩, ⟨x + a, y + b⟩,
        ⟨x + a + b, y + b - a⟩] [] t
      = [⟨x + a + b, y + b - a⟩, ⟨x + b, y - a⟩, ⟨x, y⟩, ⟨x + a, y + b⟩,
          ⟨x + a + b, y + b - a⟩] := by
    rw [fill_nil]
    simp only [List.length_cons, List.length_nil, not_lt.mpr ht, or_false]
    rw [if_neg (by omega)]
    unfold simplify_range_insert.apply
    rw [if_neg (by simp [is_degenerate])]
    simp only [List.length_cons, List.length_nil, not_lt.mpr ht, or_false]
    rw [if_neg (by omega)]
    unfold douglas_peucker.apply douglas_peucker_.apply
    rw [show cartesian.comparable_distance = projected_point from rfl,
      show cartesian.result_from_distance t = t * t from rfl,
      square_included x y a b t hhalf]
    simp [douglas_peucker_.copy_included]
  unfold simplify_range.apply
  simp only [hfill]
  rw [if_neg (by simp [is_degenerate])]

theorem square_area_in (x y a b : ℚ) :
    cartesian_area
      [(⟨x, y⟩ : point_xy), ⟨x + a, y + b⟩, ⟨x + a + b, y + b - a⟩, ⟨x + b, y - a⟩, ⟨x, y⟩]
      = a * a + b * b := by
  simp only [cartesian_area]
  ring

theorem square_area_out (x y a b : ℚ) :
    cartesian_area
      [(⟨x + a + b, y + b - a⟩ : point_xy), ⟨x + b, y - a⟩, ⟨x, y⟩, ⟨x + a, y + b⟩,
        ⟨x + a + b, y + b - a⟩]
      = a * a + b * b := by
  simp only [cartesian_area]
  ring

end CartesianLemmas

section SquareTheorems

/-- C12 (counterexample): the square ring `(0,0), (0,4), (4,4), (4,0), (0,0)` (side 4,
positive area 16) at tolerance 1, which is below half the side length, is returned as
`(4,4), (4,0), (0,0), (0,4), (4,4)`: the same corners, but the sequence starts at the corner
opposite to the first one, so it is not the input sequence. -/
theorem C12_counterexample :
    (0 : ℚ) ≤ 1 ∧ (1 : ℚ) < 4 / 2 ∧
    cartesian_area [⟨0, 0⟩, ⟨0, 4⟩, ⟨4, 4⟩, ⟨4, 0⟩, ⟨0, 0⟩] = 16 ∧
    simplify_ring.apply cartesian cartesian_area (fun _ => 16)
      [⟨0, 0⟩, ⟨0, 4⟩, ⟨4, 4⟩, ⟨4, 0⟩, ⟨0, 0⟩] [] 1
      = [⟨4, 4⟩, ⟨4, 0⟩, ⟨0, 0⟩, ⟨0, 4⟩, ⟨4, 4⟩] ∧
    simplify_ring.apply cartesian cartesian_area (fun _ => 16)
      [⟨0, 0⟩, ⟨0, 4⟩, ⟨4, 4⟩, ⟨4, 0⟩, ⟨0, 0⟩] [] 1
      ≠ [⟨0, 0⟩, ⟨0, 4⟩, ⟨4, 4⟩, ⟨4, 0⟩, ⟨0, 0⟩] := by
  refine ⟨by norm_num, by norm_num, by decide!, by decide!, by decide!⟩

/-- C12 (amended), square scenario: for every closed square ring of positive signed area,
with first corner `(x, y)` and side vector `(a, b)`, i.e. the points `(x, y)`, `(x+a, y+b)`,
`(x+a+b, y+b-a)`, `(x+b, y-a)`, `(x, y)`, and every tolerance `t` with `0 ≤ t` and `t` below
half the side length (`4 t² < a² + b²`), the output of the Ring Policy in the Cartesian model
keeps all four corners in the same cyclic order and is closed, but it starts and ends at the
corner opposite to the first corner of the input. -/
theorem C12_square_rotated (perimeter : List point_xy → ℚ) (x y a b t : ℚ) (ht : 0 ≤ t)
    (hhalf : 4 * (t * t) < a * a + b * b) :
    simplify_ring.apply cartesian cartesian_area perimeter
      [⟨x, y⟩, ⟨x + a, y + b⟩, ⟨x + a + b, y + b - a⟩, ⟨x + b, y - a⟩, ⟨x, y⟩] [] t
      = [⟨x + a + b, y + b - a⟩, ⟨x + b, y - a⟩, ⟨x, y⟩, ⟨x + a, y + b⟩,
          ⟨x + a + b, y + b - a⟩] := by
  have hs : 0 < a * a + b * b := by nlinarith [mul_self_nonneg t]
  unfold simplify_ring.apply
  rw [if_neg (by simp), iterations_succ]
  have hadv : simplify_ring.advance
      ([(⟨x, y⟩ : point_xy), ⟨x + a, y + b⟩, ⟨x + a + b, y + b - a⟩, ⟨x + b, y - a⟩,
        ⟨x, y⟩]).length 0 0 = 0 := by
    simp [simplify_ring.advance]
  rw [hadv, square_opposite x y a b hs, rotate_close_eq _ _ _ (by simp)]
  simp only [List.not_mem_nil, if_false]
  have hrot : List.drop 2
        [(⟨x, y⟩ : point_xy), ⟨x + a, y + b⟩, ⟨x + a + b, y + b - a⟩, ⟨x + b, y - a⟩, ⟨x, y⟩]
      ++ List.take 2
        [(⟨x, y⟩ : point_xy), ⟨x + a, y + b⟩, ⟨x + a + b, y + b - a⟩, ⟨x + b, y - a⟩, ⟨x, y⟩]
      ++ [List.getD
        [(⟨x, y⟩ : point_xy), ⟨x + a, y + b⟩, ⟨x + a + b, y + b - a⟩, ⟨x + b, y - a⟩, ⟨x, y⟩]
        2 default]
      = [⟨x + a + b, y + b - a⟩, ⟨x + b, y - a⟩, ⟨x, y⟩, ⟨x, y⟩, ⟨x + a, y + b⟩,
          ⟨x + a + b, y + b - a⟩] := rfl
  rw [hrot, square_candidate x y a b t ht hhalf, square_area_in, square_area_out, if_pos rfl]

/-- Witness of C12 (amended): the square `(0,0), (0,4), (4,4), (4,0), (0,0)` at tolerance 1. -/
theorem C12_square_rotated_witness :
    (0 : ℚ) ≤ 1 ∧ (4 : ℚ) * (1 * 1) < 0 * 0 + 4 * 4 ∧
    simplify_ring.apply cartesian cartesian_area (fun _ => 16)
      [⟨0, 0⟩, ⟨0 + 0, 0 + 4⟩, ⟨0 + 0 + 4, 0 + 4 - 0⟩, ⟨0 + 4, 0 - 0⟩, ⟨0, 0⟩] [] 1
      = [⟨0 + 0 + 4, 0 + 4 - 0⟩, ⟨0 + 4, 0 - 0⟩, ⟨0, 0⟩, ⟨0 + 0, 0 + 4⟩,
          ⟨0 + 0 + 4, 0 + 4 - 0⟩] :=
  ⟨by norm_num, by norm_num,
    C12_square_rotated (fun _ => 16) 0 0 0 4 1 (by norm_num) (by norm_num)⟩

end SquareTheorems

/-! ## More on the Range Policy and on the history of the Ring Policy -/

section RangeShapeLemmas

variable {P : Type} [DecidableEq P] [Inhabited P] {D : Type} [LinearOrderedField D]

/-- The Range Policy keeps the first and the last point (any minimum size, empty container). -/
theorem simplify_range_endpoints (m : Nat) (impl : Impl P D) (range : List P) (t : D) :
    (simplify_range.apply m impl range [] t).head? = range.head? ∧
    (simplify_range.apply m impl range [] t).getLast? = range.getLast? := by
  have hfill : (simplify_range.fill m impl range [] t).head? = range.head? ∧
      (simplify_range.fill m impl range [] t).getLast? = range.getLast? := by
    rw [fill_nil]
    split
    · exact ⟨rfl, rfl⟩
    · exact simplify_range_insert_endpoints impl range t
  unfold simplify_range.apply
  simp only
  split
  · have := degenerate_take_one _ (by assumption : is_degenerate _ = true)
    exact ⟨this.1.trans hfill.1, this.2.trans hfill.2⟩
  · exact hfill

/-- The output of the Range Policy is a sublist of its input. -/
theorem simplify_range_sublist (m : Nat) (impl : Impl P D) (range : List P) (t : D) :
    (simplify_range.apply m impl range [] t).Sublist range := by
  unfold simplify_range.apply
  simp only
  split
  · exact (List.take_sublist _ _).trans (fill_sublist m impl range t)
  · exact fill_sublist m impl range t

/-- The containers of the Range Policy with minimum sizes 0 and 2 differ at most on a pair of
equal points, which the final check collapses in both. -/
theorem fill_zero_two (impl : Impl P D) (range : List P) (t : D) :
    simplify_range.fill 0 impl range [] t = simplify_range.fill 2 impl range [] t ∨
    (is_degenerate range = true ∧ simplify_range.fill 0 impl range [] t = range.take 1 ∧
      simplify_range.fill 2 impl range [] t = range) := by
  rw [fill_nil, fill_nil]
  by_cases ht : t < 0
  · left; simp [ht]
  · by_cases h2 : range.length ≤ 2
    · by_cases hd : is_degenerate range = true
      · right
        obtain ⟨a, rfl⟩ := (is_degenerate_iff range).mp hd
        refine ⟨hd, ?_, ?_⟩
        · simp [ht, simplify_range_insert.apply, hd]
        · simp [ht]
      · left
        simp only [ht, h2, or_false, if_true]
        unfold simplify_range_insert.apply
        simp only [hd, Bool.false_eq_true, if_false, h2, true_or, if_true]
        split <;> rfl
    · left
      have h0 : ¬ range.length ≤ 0 := by omega
      simp [ht, h2, h0]

end RangeShapeLemmas

section RangeShapeTheorems

variable {P : Type} [DecidableEq P] [Inhabited P] {D : Type} [LinearOrderedField D]

/-- C29, the minimum-size parameter of the Range Policy is not observable: for every range
and every tolerance, the Range Policy with minimum size 0 (rings) and with minimum size 2
(linestrings) give the same output when writing into an empty container. -/
theorem C29_minimum_size_unobservable (impl : Impl P D) (range : List P) (t : D) :
    simplify_range.apply 0 impl range [] t = simplify_range.apply 2 impl range [] t := by
  unfold simplify_range.apply
  rcases fill_zero_two impl range t with h | ⟨hd, h0, h2⟩
  · rw [h]
  · obtain ⟨a, rfl⟩ := (is_degenerate_iff range).mp hd
    rw [h0, h2]
    simp [is_degenerate]

end RangeShapeTheorems

section RotatedShapeLemmas

variable {P : Type} [Inhabited P]

/-- The points of the ring rotated to a position and closed are points of the ring, and the
sequence starts and ends with the point at that position. -/
theorem rotated_shape (ring : List P) (i : Nat) (hi : i < ring.length) :
    (ring.drop i ++ ring.take i ++ [ring.getD i default]).head? = some (ring.getD i default) ∧
    (ring.drop i ++ ring.take i ++ [ring.getD i default]).getLast?
      = some (ring.getD i default) ∧
    ∀ p ∈ ring.drop i ++ ring.take i ++ [ring.getD i default], p ∈ ring := by
  have hget : ring.getD i default = ring[i] := by
    rw [List.getD_eq_getElem?_getD, List.getElem?_eq_getElem hi]
    rfl
  refine ⟨?_, ?_, ?_⟩
  · rw [List.append_assoc, List.head?_append, List.head?_drop, List.getElem?_eq_getElem hi, hget]
    rfl
  · rw [List.getLast?_append]
    simp
  · intro p hp
    rcases List.mem_append.mp hp with h | h
    · rcases List.mem_append.mp h with h | h
      · exact List.mem_of_mem_drop h
      · exact List.mem_of_mem_take h
    · rw [List.mem_singleton] at h
      rw [h, hget]
      exact List.getElem_mem _

end RotatedShapeLemmas

section HistoryShapeLemmas

variable {P : Type} [DecidableEq P] [Inhabited P] {D : Type} [LinearOrderedField D]

/-- Every trial index and every antipodal index of a history started at a position of the
ring is a position of the ring. -/
theorem history_bounds (impl : Impl P D) (area perimeter : List P → D) (ring : List P)
    (t : D) (input_sign : Int) :
    ∀ (remaining iteration index : Nat) (visited : List Nat) (rotated out : List P),
      index < ring.length →
      ∀ a ∈ simplify_ring.history impl area perimeter ring t input_sign remaining iteration
          index visited rotated out, a.trial < ring.length ∧ a.index < ring.length := by
  intro remaining
  induction remaining with
  | zero => intro _ _ _ _ _ _ a ha; simp [simplify_ring.history] at ha
  | succ remaining ih =>
    intro iteration index visited rotated out hidx a ha
    have hadv := advance_lt ring.length iteration index hidx
    have hopp := get_opposite_lt impl _ ring hadv
    obtain ⟨c, rest, hh, hrest⟩ := history_cases impl area perimeter ring t input_sign remaining
      iteration index visited rotated out
    rw [hh] at ha
    rcases List.mem_cons.mp ha with h | h
    · subst h
      exact ⟨hadv, hopp⟩
    · rcases hrest with hr | ⟨v, r, o, hr⟩
      · rw [hr] at h; simp at h
      · rw [hr] at h
        exact ih _ _ _ _ _ hopp a h

/-- The start indices the Range Policy was run from in a history are pairwise different and
were not visited before; an iteration that was skipped has an index that was visited before
or that the Range Policy was run from in this history. -/
theorem history_runs (impl : Impl P D) (area perimeter : List P → D) (ring : List P)
    (t : D) (input_sign : Int) :
    ∀ (remaining iteration index : Nat) (visited : List Nat) (rotated out : List P),
      (((simplify_ring.history impl area perimeter ring t input_sign remaining iteration index
          visited rotated out).filter (fun a => a.candidate.isSome)).map
            (fun a => a.index)).Nodup ∧
      (∀ i ∈ ((simplify_ring.history impl area perimeter ring t input_sign remaining iteration
          index visited rotated out).filter (fun a => a.candidate.isSome)).map
            (fun a => a.index), i ∉ visited) ∧
      (∀ a ∈ simplify_ring.history impl area perimeter ring t input_sign remaining iteration
          index visited rotated out, a.candidate = none →
        a.index ∈ visited ∨
        a.index ∈ ((simplify_ring.history impl area perimeter ring t input_sign remaining
          iteration index visited rotated out).filter (fun a => a.candidate.isSome)).map
            (fun a => a.index)) := by
  intro remaining
  induction remaining with
  | zero => intro _ _ _ _ _; simp [simplify_ring.history]
  | succ remaining ih =>
    intro iteration index visited rotated out
    rw [history_succ]
    split
    · rename_i hv
      obtain ⟨h1, h2, h3⟩ := ih (iteration + 1)
        (simplify_ring.get_opposite impl (simplify_ring.advance ring.length iteration index)
          ring) visited rotated out
      simp only [List.filter_cons, Option.isSome_none, Bool.false_eq_true, if_false]
      refine ⟨h1, h2, ?_⟩
      intro a ha hnone
      rcases List.mem_cons.mp ha with h | h
      · subst h
        left; exact hv
      · exact h3 a h hnone
    · rename_i hv
      split
      · simp [hv]
      · split
        · simp [hv]
        · obtain ⟨h1, h2, h3⟩ := ih (iteration + 1)
            (simplify_ring.get_opposite impl (simplify_ring.advance ring.length iteration index)
              ring)
            (simplify_ring.get_opposite impl (simplify_ring.advance ring.length iteration index)
              ring :: visited)
            ((simplify_ring.rotate_close ring rotated (simplify_ring.get_opposite impl
              (simplify_ring.advance ring.length iteration index) ring)).take ring.length) []
          simp only [List.filter_cons, Option.isSome_some, if_true, List.map_cons,
            List.nodup_cons, List.mem_cons]
          refine ⟨⟨?_, h1⟩, ?_, ?_⟩
          · intro hmem
            exact h2 _ hmem (List.mem_cons_self _ _)
          · intro i hi
            rcases hi with h | h
            · rw [h]; exact hv
            · intro hiv
              exact h2 i h (List.mem_cons_of_mem _ hiv)
          · intro a ha hnone
            rcases ha with h | h
            · subst h
              simp at hnone
            · rcases h3 a h hnone with h4 | h4
              · rcases List.mem_cons.mp h4 with h5 | h5
                · right; left; exact h5
                · left; exact h5
              · right; right; exact h4

/-- From iteration 1 on the loop of the Ring Policy does not consult the perimeter. -/
theorem iterations_perimeter (impl : Impl P D) (area p1 p2 : List P → D) (ring : List P)
    (t : D) (input_sign : Int) :
    ∀ (remaining iteration index : Nat) (visited : List Nat) (rotated out : List P),
      1 ≤ iteration →
      simplify_ring.iterations impl area p1 ring t input_sign remaining iteration index visited
          rotated out
        = simplify_ring.iterations impl area p2 ring t input_sign remaining iteration index
          visited rotated out := by
  intro remaining
  induction remaining with
  | zero => intro _ _ _ _ _ _; rfl
  | succ remaining ih =>
    intro iteration index visited rotated out hit
    have h0 : iteration ≠ 0 := by omega
    rw [iterations_succ, iterations_succ]
    simp only [h0, false_and, if_false]
    rw [ih (iteration + 1) _ visited rotated out (by omega),
      ih (iteration + 1) _ _ _ [] (by omega)]

/-- A non-empty result of the loop (started with an empty output ring) is the candidate of
the last iteration of the history, which is the Range Policy result on the ring rotated to
the index of that iteration and closed. -/
theorem iterations_accept (impl : Impl P D) (area perimeter : List P → D) (ring : List P)
    (t : D) (input_sign : Int) :
    ∀ (remaining iteration index : Nat) (visited : List Nat) (rotated : List P),
      index < ring.length → rotated.length = ring.length →
      simplify_ring.iterations impl area perimeter ring t input_sign remaining iteration index
          visited rotated [] = [] ∨
      ∃ a, (simplify_ring.history impl area perimeter ring t input_sign remaining iteration
          index visited rotated []).getLast? = some a ∧
        a.index < ring.length ∧
        a.candidate = some (simplify_ring.iterations impl area perimeter ring t input_sign
          remaining iteration index visited rotated []) ∧
        simplify_ring.iterations impl area perimeter ring t input_sign remaining iteration index
          visited rotated []
          = simplify_range.apply 0 impl
            (ring.drop a.index ++ ring.take a.index ++ [ring.getD a.index default]) [] t := by
  intro remaining
  induction remaining with
  | zero => intro _ _ _ _ _ _; left; rfl
  | succ remaining ih =>
    intro iteration index visited rotated hidx hrot
    have hopp := get_opposite_lt impl _ ring (advance_lt ring.length iteration index hidx)
    have hlast : ∀ (x : simplify_ring.attempt P) (l : List (simplify_ring.attempt P))
        (y : simplify_ring.attempt P), l.getLast? = some y → (x :: l).getLast? = some y := by
      intro x l y hy
      rw [List.getLast?_cons, hy]
      rfl
    rw [iterations_succ, history_succ]
    split
    · rcases ih (iteration + 1) _ visited rotated hopp hrot with h | ⟨a, h1, h2, h3, h4⟩
      · left; exact h
      · right
        exact ⟨a, hlast _ _ _ h1, h2, h3, h4⟩
    · split
      · right
        refine ⟨⟨iteration, simplify_ring.advance ring.length iteration index,
          simplify_ring.get_opposite impl (simplify_ring.advance ring.length iteration index)
            ring, some _⟩, rfl, hopp, rfl, ?_⟩
        rw [rotate_close_eq ring rotated _ hrot]
      · split
        · left; rfl
        · have hlen : ((simplify_ring.rotate_close ring rotated (simplify_ring.get_opposite impl
              (simplify_ring.advance ring.length iteration index) ring)).take
              ring.length).length = ring.length := by
            rw [List.length_take, rotate_close_length ring rotated _ hrot hopp]
            omega
          rcases ih (iteration + 1) _ (_ :: visited) _ hopp hlen with h | ⟨a, h1, h2, h3, h4⟩
          · left; exact h
          · right
            exact ⟨a, hlast _ _ _ h1, h2, h3, h4⟩

end HistoryShapeLemmas

section HistoryShapeTheorems

variable {P : Type} [DecidableEq P] [Inhabited P] {D : Type} [LinearOrderedField D]

/-- C27, index safety of the Ring Policy: in every call, every trial start index and every
antipodal index computed in an iteration is smaller than the number `n` of points of the
ring (iterations exist for a non-empty ring only), so the vertex accesses and the rotation
position are in bounds. -/
theorem C27_index_safety (impl : Impl P D) (area perimeter : List P → D) (ring out : List P)
    (t : D) (a : simplify_ring.attempt P)
    (ha : a ∈ simplify_ring.attempts impl area perimeter ring out t) :
    a.trial < ring.length ∧ a.index < ring.length := by
  unfold simplify_ring.attempts at ha
  split at ha
  · simp at ha
  · rename_i h0
    exact history_bounds impl area perimeter ring t _ 4 0 0 [] _ out (by omega) a ha

/-- Witness of C27: the first iteration for the ring `(0,0), (0,1), (10,1), (10,0), (0,0)` at
tolerance 2 has trial index 0 and antipodal index 2, both below 5. -/
theorem C27_index_safety_witness :
    (⟨0, 0, 2, some [⟨10, 1⟩, ⟨0, 0⟩, ⟨10, 1⟩]⟩ : simplify_ring.attempt point_xy)
      ∈ simplify_ring.attempts cartesian cartesian_area (fun _ => 22)
        [⟨0, 0⟩, ⟨0, 1⟩, ⟨10, 1⟩, ⟨10, 0⟩, ⟨0, 0⟩] [] 2 ∧
    ((0 : Nat) < 5 ∧ (2 : Nat) < 5) :=
  ⟨by decide!,
    C27_index_safety cartesian cartesian_area (fun _ => 22)
      [⟨0, 0⟩, ⟨0, 1⟩, ⟨10, 1⟩, ⟨10, 0⟩, ⟨0, 0⟩] [] 2
      ⟨0, 0, 2, some [⟨10, 1⟩, ⟨0, 0⟩, ⟨10, 1⟩]⟩ (by decide!)⟩

/-- C24, no start index is tried twice: within one call of the Ring Policy the antipodal
start indices from which the Range Policy was run are pairwise different, the Range Policy
is run at most 4 times, and an iteration in which it was not run (skipped) has an antipodal
index from which it was run in an earlier iteration of the call. -/
theorem C24_no_index_twice (impl : Impl P D) (area perimeter : List P → D) (ring out : List P)
    (t : D) :
    (((simplify_ring.attempts impl area perimeter ring out t).filter
      (fun a => a.candidate.isSome)).map (fun a => a.index)).Nodup ∧
    ((simplify_ring.attempts impl area perimeter ring out t).filter
      (fun a => a.candidate.isSome)).length ≤ 4 ∧
    (∀ a ∈ simplify_ring.attempts impl area perimeter ring out t, a.candidate = none →
      a.index ∈ ((simplify_ring.attempts impl area perimeter ring out t).filter
        (fun a => a.candidate.isSome)).map (fun a => a.index)) := by
  unfold simplify_ring.attempts
  split
  · simp
  · obtain ⟨h1, _, h3⟩ := history_runs impl area perimeter ring t
      (simplify_ring.area_sign (area ring)) 4 0 0 [] (List.replicate ring.length default) out
    refine ⟨h1, ?_, ?_⟩
    · exact le_trans (List.length_filter_le _ _) (history_length impl area perimeter ring t _ 4
        0 0 [] _ out)
    · intro a ha hnone
      rcases h3 a ha hnone with h | h
      · simp at h
      · exact h

/-- C21, early exit for small rings: for a non-empty ring, if the candidate of the first
iteration (from the antipodal index of vertex 0) has an area sign different from the input's
and `perimeter(ring) < 3 * tolerance`, the Ring Policy returns the empty ring and its history
has this one iteration only; and from iteration 1 on the loop does not depend on the
perimeter at all (the test is tied to `iteration == 0`). -/
theorem C21_early_exit (impl : Impl P D) (area perimeter : List P → D) (ring : List P) (t : D)
    (hne : ring ≠ [])
    (hsign : simplify_ring.area_sign (area (simplify_range.apply 0 impl
        (ring.drop (simplify_ring.get_opposite impl 0 ring)
          ++ ring.take (simplify_ring.get_opposite impl 0 ring)
          ++ [ring.getD (simplify_ring.get_opposite impl 0 ring) default]) [] t))
      ≠ simplify_ring.area_sign (area ring))
    (hper : perimeter ring < 3 * t) :
    simplify_ring.apply impl area perimeter ring [] t = [] ∧
    (simplify_ring.attempts impl area perimeter ring [] t).length = 1 ∧
    (∀ (p1 p2 : List P → D) (input_sign : Int) (remaining iteration index : Nat)
      (visited : List Nat) (rotated out : List P), 1 ≤ iteration →
      simplify_ring.iterations impl area p1 ring t input_sign remaining iteration index visited
          rotated out
        = simplify_ring.iterations impl area p2 ring t input_sign remaining iteration index
          visited rotated out) := by
  have hlen : ring.length ≠ 0 := by
    intro h
    exact hne (List.length_eq_zero.mp h)
  have hadv : simplify_ring.advance ring.length 0 0 = 0 := by simp [simplify_ring.advance]
  refine ⟨?_, ?_, ?_⟩
  · unfold simplify_ring.apply
    rw [if_neg hlen, iterations_succ, hadv, rotate_close_eq ring _ _ (by simp)]
    simp only [List.not_mem_nil, if_false]
    rw [if_neg hsign, if_pos ⟨trivial, hper⟩]
  · unfold simplify_ring.attempts
    rw [if_neg hlen, history_succ, hadv, rotate_close_eq ring _ _ (by simp)]
    simp only [List.not_mem_nil, if_false]
    rw [if_neg hsign, if_pos ⟨trivial, hper⟩]
    rfl
  · intro p1 p2 input_sign remaining iteration index visited rotated out hit
    exact iterations_perimeter impl area p1 p2 ring t input_sign remaining iteration index
      visited rotated out hit

/-- Witness of C21: the triangle `(0,0), (0,4), (3,0), (0,0)` (perimeter 12) at tolerance 10:
the first candidate is the single point `(0,4)`, of area sign 0, and the output is empty after
one iteration. -/
theorem C21_early_exit_witness :
    simplify_ring.attempts cartesian cartesian_area (fun _ => 12)
      [⟨0, 0⟩, ⟨0, 4⟩, ⟨3, 0⟩, ⟨0, 0⟩] [] 10 = [⟨0, 0, 1, some [⟨0, 4⟩]⟩] ∧
    simplify_ring.apply cartesian cartesian_area (fun _ => 12)
      [⟨0, 0⟩, ⟨0, 4⟩, ⟨3, 0⟩, ⟨0, 0⟩] [] 10 = [] :=
  ⟨by decide!,
    (C21_early_exit cartesian cartesian_area (fun _ => 12)
      [⟨0, 0⟩, ⟨0, 4⟩, ⟨3, 0⟩, ⟨0, 0⟩] 10 (by decide) (by decide!) (by norm_num)).1⟩

/-- C30, shape of an accepted ring: for every ring and tolerance, a non-empty output of the
Ring Policy (empty output ring) is the candidate of the last iteration of the call; it starts
and ends with the input vertex at the antipodal start index of that iteration, and every
output point is a vertex of the input ring. -/
theorem C30_accepted_ring_shape (impl : Impl P D) (area perimeter : List P → D)
    (ring : List P) (t : D) (hne : simplify_ring.apply impl area perimeter ring [] t ≠ []) :
    ∃ a, (simplify_ring.attempts impl area perimeter ring [] t).getLast? = some a ∧
      a.candidate = some (simplify_ring.apply impl area perimeter ring [] t) ∧
      a.index < ring.length ∧
      (simplify_ring.apply impl area perimeter ring [] t).head?
        = some (ring.getD a.index default) ∧
      (simplify_ring.apply impl area perimeter ring [] t).getLast?
        = some (ring.getD a.index default) ∧
      ∀ p ∈ simplify_ring.apply impl area perimeter ring [] t, p ∈ ring := by
  unfold simplify_ring.apply simplify_ring.attempts at *
  split at hne
  · exact absurd rfl hne
  · rename_i h0
    simp only [h0, if_false]
    rcases iterations_accept impl area perimeter ring t (simplify_ring.area_sign (area ring)) 4 0
      0 [] (List.replicate ring.length default) (by omega) (by simp) with h | ⟨a, h1, h2, h3, h4⟩
    · exact absurd h hne
    · obtain ⟨s1, s2, s3⟩ := rotated_shape ring a.index h2
      obtain ⟨e1, e2⟩ := simplify_range_endpoints 0 impl
        (ring.drop a.index ++ ring.take a.index ++ [ring.getD a.index default]) t
      refine ⟨a, h1, h3, h2, ?_, ?_, ?_⟩
      · rw [h4, e1, s1]
      · rw [h4, e2, s2]
      · intro p hp
        rw [h4] at hp
        exact s3 p ((simplify_range_sublist 0 impl _ t).subset hp)

/-- Witness of C30: the square `(0,0), (0,4), (4,4), (4,0), (0,0)` at tolerance 1 is accepted
from the antipodal index 2 and the output starts and ends with the vertex `(4,4)`. -/
theorem C30_accepted_ring_shape_witness :
    simplify_ring.apply cartesian cartesian_area (fun _ => 16)
      [⟨0, 0⟩, ⟨0, 4⟩, ⟨4, 4⟩, ⟨4, 0⟩, ⟨0, 0⟩] [] 1
      = [⟨4, 4⟩, ⟨4, 0⟩, ⟨0, 0⟩, ⟨0, 4⟩, ⟨4, 4⟩] ∧
    ∃ a, (simplify_ring.attempts cartesian cartesian_area (fun _ => 16)
        [⟨0, 0⟩, ⟨0, 4⟩, ⟨4, 4⟩, ⟨4, 0⟩, ⟨0, 0⟩] [] 1).getLast? = some a ∧
      a.candidate = some (simplify_ring.apply cartesian cartesian_area (fun _ => 16)
        [⟨0, 0⟩, ⟨0, 4⟩, ⟨4, 4⟩, ⟨4, 0⟩, ⟨0, 0⟩] [] 1) ∧
      a.index < 5 ∧
      (simplify_ring.apply cartesian cartesian_area (fun _ => 16)
        [⟨0, 0⟩, ⟨0, 4⟩, ⟨4, 4⟩, ⟨4, 0⟩, ⟨0, 0⟩] [] 1).head?
        = some (([⟨0, 0⟩, ⟨0, 4⟩, ⟨4, 4⟩, ⟨4, 0⟩, ⟨0, 0⟩] : List point_xy).getD a.index
          default) ∧
      (simplify_ring.apply cartesian cartesian_area (fun _ => 16)
        [⟨0, 0⟩, ⟨0, 4⟩, ⟨4, 4⟩, ⟨4, 0⟩, ⟨0, 0⟩] [] 1).getLast?
        = some (([⟨0, 0⟩, ⟨0, 4⟩, ⟨4, 4⟩, ⟨4, 0⟩, ⟨0, 0⟩] : List point_xy).getD a.index
          default) ∧
      ∀ p ∈ simplify_ring.apply cartesian cartesian_area (fun _ => 16)
        [⟨0, 0⟩, ⟨0, 4⟩, ⟨4, 4⟩, ⟨4, 0⟩, ⟨0, 0⟩] [] 1,
        p ∈ ([⟨0, 0⟩, ⟨0, 4⟩, ⟨4, 4⟩, ⟨4, 0⟩, ⟨0, 0⟩] : List point_xy) :=
  ⟨by decide!,
    C30_accepted_ring_shape cartesian cartesian_area (fun _ => 16)
      [⟨0, 0⟩, ⟨0, 4⟩, ⟨4, 4⟩, ⟨4, 0⟩, ⟨0, 0⟩] 1 (by decide!)⟩

end HistoryShapeTheorems

/-! ## The antipodal point search -/

section OppositeLemmas

variable {P : Type} [Inhabited P] {D : Type} [LinearOrderedField D]

/-- The scan of `get_opposite`: either no vertex has a distance above the start value and the
index is unchanged, or the result is the first position whose distance is the maximum. -/
theorem get_opposite_loop_spec (dist : P → P → P → D) (point : P) :
    ∀ (rest : List P) (i : Nat) (md : D) (index : Nat),
      (simplify_ring.get_opposite_loop dist point rest i md index = index ∧
        ∀ k, k < rest.length → dist (rest.getD k default) point point ≤ md) ∨
      ∃ k, k < rest.length ∧
        simplify_ring.get_opposite_loop dist point rest i md index = i + k ∧
        md < dist (rest.getD k default) point point ∧
        (∀ k2, k2 < rest.length →
          dist (rest.getD k2 default) point point ≤ dist (rest.getD k default) point point) ∧
        (∀ k2, k2 < k →
          dist (rest.getD k2 default) point point < dist (rest.getD k default) point point) := by
  intro rest
  induction rest with
  | nil => intro i md index; left; exact ⟨rfl, fun k hk => absurd hk (Nat.not_lt_zero k)⟩
  | cons it rest ih =>
    intro i md index
    unfold simplify_ring.get_opposite_loop
    by_cases h : dist it point point > md
    · rw [if_pos h]
      right
      rcases ih (i + 1) (dist it point point) i with ⟨h1, h2⟩ | ⟨k, hk, h1, h2, h3, h4⟩
      · refine ⟨0, by simp, by rw [h1]; rfl, h, ?_, fun k2 hk2 => absurd hk2 (Nat.not_lt_zero k2)⟩
        intro k2 hk2
        cases k2 with
        | zero => exact le_refl _
        | succ k2 =>
          simp only [List.length_cons] at hk2
          exact h2 k2 (by omega)
      · refine ⟨k + 1, by simp; omega, by rw [h1]; omega, ?_, ?_, ?_⟩
        · exact lt_trans h h2
        · intro k2 hk2
          cases k2 with
          | zero => exact le_of_lt h2
          | succ k2 =>
            simp only [List.length_cons] at hk2
            exact h3 k2 (by omega)
        · intro k2 hk2
          cases k2 with
          | zero => exact h2
          | succ k2 => exact h4 k2 (by omega)
    · rw [if_neg h]
      rcases ih (i + 1) md index with ⟨h1, h2⟩ | ⟨k, hk, h1, h2, h3, h4⟩
      · left
        refine ⟨h1, ?_⟩
        intro k2 hk2
        cases k2 with
        | zero => exact not_lt.mp h
        | succ k2 =>
          simp only [List.length_cons] at hk2
          exact h2 k2 (by omega)
      · right
        refine ⟨k + 1, by simp; omega, by rw [h1]; omega, h2, ?_, ?_⟩
        · intro k2 hk2
          cases k2 with
          | zero => exact le_trans (not_lt.mp h) (le_of_lt h2)
          | succ k2 =>
            simp only [List.length_cons] at hk2
            exact h3 k2 (by omega)
        · intro k2 hk2
          cases k2 with
          | zero => exact lt_of_le_of_lt (not_lt.mp h) h2
          | succ k2 => exact h4 k2 (by omega)

end OppositeLemmas

section OppositeTheorems

variable {P : Type} [Inhabited P] {D : Type} [LinearOrderedField D]

/-- C22, antipodal point search: for a ring and an index `i` below its size, the distances
from the ring vertices to `ring[i]` being non-negative, `get_opposite` returns an index `j`
of the ring such that the distance from `ring[j]` to `ring[i]` is the maximum over all ring
vertices and every vertex before `j` is strictly closer: `j` is the least index attaining the
maximum, the first one reaching it in the forward scan. -/
theorem C22_get_opposite (impl : Impl P D) (ring : List P) (i : Nat) (_hi : i < ring.length)
    (hnn : ∀ k, k < ring.length →
      0 ≤ impl.distance_strategy (ring.getD k default) (ring.getD i default)
        (ring.getD i default)) :
    simplify_ring.get_opposite impl i ring < ring.length ∧
    (∀ k, k < ring.length →
      impl.distance_strategy (ring.getD k default) (ring.getD i default) (ring.getD i default)
        ≤ impl.distance_strategy (ring.getD (simplify_ring.get_opposite impl i ring) default)
          (ring.getD i default) (ring.getD i default)) ∧
    (∀ k, k < simplify_ring.get_opposite impl i ring →
      impl.distance_strategy (ring.getD k default) (ring.getD i default) (ring.getD i default)
        < impl.distance_strategy (ring.getD (simplify_ring.get_opposite impl i ring) default)
          (ring.getD i default) (ring.getD i default)) := by
  unfold simplify_ring.get_opposite
  rcases get_opposite_loop_spec impl.distance_strategy (ring.getD i default) ring 0 (-1) i with
    ⟨_, h2⟩ | ⟨k, hk, h1, _, h3, h4⟩
  · exfalso
    have h0 := hnn 0 (by omega)
    have h1 := h2 0 (by omega)
    linarith
  · rw [h1]
    simp only [zero_add]
    exact ⟨hk, h3, h4⟩

/-- Witness of C22: in the square `(0,0), (0,4), (4,4), (4,0), (0,0)` the vertex farthest from
vertex 0 is vertex 2. -/
theorem C22_get_opposite_witness :
    simplify_ring.get_opposite cartesian 0
      [(⟨0, 0⟩ : point_xy), ⟨0, 4⟩, ⟨4, 4⟩, ⟨4, 0⟩, ⟨0, 0⟩] = 2 ∧
    simplify_ring.get_opposite cartesian 0
      [(⟨0, 0⟩ : point_xy), ⟨0, 4⟩, ⟨4, 4⟩, ⟨4, 0⟩, ⟨0, 0⟩] < 5 :=
  ⟨by decide!,
    (C22_get_opposite cartesian [⟨0, 0⟩, ⟨0, 4⟩, ⟨4, 4⟩, ⟨4, 0⟩, ⟨0, 0⟩] 0 (by decide)
      (by decide!)).1⟩

end OppositeTheorems

/-! ## Tie-break and termination of the Point Elimination Core -/

section TieBreakLemmas

variable {P : Type} [Inhabited P] {D : Type} [LinearOrderedField D]

/-- The loop of `consider` over the positions `s, ..., s + n - 1` from the state `st`:
either no deviation is above `st.1` and the state is unchanged, or the result is the first
position whose deviation is the maximum, with that deviation. -/
theorem scan_range_spec (dist : P → P → P → D) (pts : List P) (b l : Nat) :
    ∀ (n s : Nat) (st : D × Option Nat),
      ((List.range' s n).foldl (douglas_peucker_.scanStep dist pts b l) st = st ∧
        ∀ k, s ≤ k → k < s + n → douglas_peucker_.deviation dist pts b l k ≤ st.1) ∨
      ∃ c, s ≤ c ∧ c < s + n ∧
        (List.range' s n).foldl (douglas_peucker_.scanStep dist pts b l) st
          = (douglas_peucker_.deviation dist pts b l c, some c) ∧
        st.1 < douglas_peucker_.deviation dist pts b l c ∧
        (∀ k, s ≤ k → k < s + n →
          douglas_peucker_.deviation dist pts b l k ≤ douglas_peucker_.deviation dist pts b l c) ∧
        (∀ k, s ≤ k → k < c →
          douglas_peucker_.deviation dist pts b l k < douglas_peucker_.deviation dist pts b l c) := by
  intro n
  induction n with
  | zero =>
    intro s st
    left
    exact ⟨rfl, fun k h1 h2 => by omega⟩
  | succ n ih =>
    intro s st
    rw [List.range'_succ, List.foldl_cons]
    by_cases h : st.1 < douglas_peucker_.deviation dist pts b l s
    · have hstep : douglas_peucker_.scanStep dist pts b l st s
          = (douglas_peucker_.deviation dist pts b l s, some s) := by
        unfold douglas_peucker_.scanStep
        simp [h]
      rw [hstep]
      right
      rcases ih (s + 1) (douglas_peucker_.deviation dist pts b l s, some s) with
        ⟨h1, h2⟩ | ⟨c, hc1, hc2, h1, h2, h3, h4⟩
      · refine ⟨s, le_refl s, by omega, h1, h, ?_, fun k hk1 hk2 => by omega⟩
        intro k hk1 hk2
        rcases Nat.eq_or_lt_of_le hk1 with he | hlt
        · rw [← he]
        · exact h2 k (by omega) (by omega)
      · refine ⟨c, by omega, by omega, h1, lt_trans h h2, ?_, ?_⟩
        · intro k hk1 hk2
          rcases Nat.eq_or_lt_of_le hk1 with he | hlt
          · rw [← he]; exact le_of_lt h2
          · exact h3 k (by omega) (by omega)
        · intro k hk1 hk2
          rcases Nat.eq_or_lt_of_le hk1 with he | hlt
          · rw [← he]; exact h2
          · exact h4 k (by omega) hk2
    · have hstep : douglas_peucker_.scanStep dist pts b l st s = st := by
        unfold douglas_peucker_.scanStep
        simp [h]
      rw [hstep]
      rcases ih (s + 1) st with ⟨h1, h2⟩ | ⟨c, hc1, hc2, h1, h2, h3, h4⟩
      · left
        refine ⟨h1, ?_⟩
        intro k hk1 hk2
        rcases Nat.eq_or_lt_of_le hk1 with he | hlt
        · rw [← he]; exact not_lt.mp h
        · exact h2 k (by omega) (by omega)
      · right
        refine ⟨c, by omega, by omega, h1, h2, ?_, ?_⟩
        · intro k hk1 hk2
          rcases Nat.eq_or_lt_of_le hk1 with he | hlt
          · rw [← he]; exact le_trans (not_lt.mp h) (le_of_lt h2)
          · exact h3 k (by omega) (by omega)
        · intro k hk1 hk2
          rcases Nat.eq_or_lt_of_le hk1 with he | hlt
          · rw [← he]; exact lt_of_le_of_lt (not_lt.mp h) h2
          · exact h4 k (by omega) hk2

/-- The scan of `consider` on the chord `b l`: either every interior deviation is at most
`-1` and nothing is selected, or the candidate is the first interior position whose deviation
is the maximum. -/
theorem scan_spec (dist : P → P → P → D) (pts : List P) (b l : Nat) :
    (douglas_peucker_.scan dist pts b l = (-1, none) ∧
      ∀ k, b < k → k < l → douglas_peucker_.deviation dist pts b l k ≤ -1) ∨
    ∃ c, b < c ∧ c < l ∧
      douglas_peucker_.scan dist pts b l = (douglas_peucker_.deviation dist pts b l c, some c) ∧
      -1 < douglas_peucker_.deviation dist pts b l c ∧
      (∀ k, b < k → k < l →
        douglas_peucker_.deviation dist pts b l k ≤ douglas_peucker_.deviation dist pts b l c) ∧
      (∀ k, b < k → k < c →
        douglas_peucker_.deviation dist pts b l k < douglas_peucker_.deviation dist pts b l c) := by
  unfold douglas_peucker_.scan
  rcases scan_range_spec dist pts b l (l - (b + 1)) (b + 1) (-1, none) with
    ⟨h1, h2⟩ | ⟨c, hc1, hc2, h1, h2, h3, h4⟩
  · left
    exact ⟨h1, fun k hk1 hk2 => h2 k (by omega) (by omega)⟩
  · right
    exact ⟨c, by omega, by omega, h1, h2, fun k hk1 hk2 => h3 k (by omega) (by omega),
      fun k hk1 hk2 => h4 k (by omega) hk2⟩

/-- The first interior position whose deviation is the maximum, if that deviation is above
`-1`, is the candidate of the scan. -/
theorem scan_first (dist : P → P → P → D) (pts : List P) (b l c : Nat) (hbc : b < c)
    (hcl : c < l) (hneg : -1 < douglas_peucker_.deviation dist pts b l c)
    (hmax : ∀ k, b < k → k < l →
      douglas_peucker_.deviation dist pts b l k ≤ douglas_peucker_.deviation dist pts b l c)
    (hfirst : ∀ k, b < k → k < c →
      douglas_peucker_.deviation dist pts b l k < douglas_peucker_.deviation dist pts b l c) :
    douglas_peucker_.scan dist pts b l
      = (douglas_peucker_.deviation dist pts b l c, some c) := by
  rcases scan_spec dist pts b l with ⟨_, h2⟩ | ⟨c2, hc1, hc2, h1, _, h3, h4⟩
  · exact absurd (h2 c hbc hcl) (not_le.mpr hneg)
  · have hcc : c2 = c := by
      rcases Nat.lt_trichotomy c2 c with h | h | h
      · exact absurd (hfirst c2 hc1 h) (not_lt.mpr (h3 c hbc hcl))
      · exact h
      · exact absurd (h4 c hbc h) (not_lt.mpr (hmax c2 hc1 hc2))
    rw [h1, hcc]

end TieBreakLemmas

section TieBreakTheorems

variable {P : Type} [Inhabited P] {D : Type} [LinearOrderedField D]

/-- C23, tie-break of the Point Elimination Core: in a call of `consider` on a sub-range of
more than 2 points, let `c` be the interior position of least position among those attaining
the maximum interior deviation (every interior deviation is at most the one of `c`, every
earlier one is strictly smaller), that deviation being strictly greater than the tolerance
(and non-negative, as a distance). Then `c` is the candidate of the scan, `c` is the point
marked kept and the two recursive calls split the sub-range at `c`. -/
theorem C23_tie_break (dist : P → P → P → D) (pts : List P) (t : D) (fuel b e : Nat)
    (inc : List Bool) (c : Nat) (hsz : 2 < e - b) (hbc : b < c) (hce : c < e - 1)
    (hmax : ∀ k, b < k → k < e - 1 → douglas_peucker_.deviation dist pts b (e - 1) k
      ≤ douglas_peucker_.deviation dist pts b (e - 1) c)
    (hfirst : ∀ k, b < k → k < c → douglas_peucker_.deviation dist pts b (e - 1) k
      < douglas_peucker_.deviation dist pts b (e - 1) c)
    (hgt : t < douglas_peucker_.deviation dist pts b (e - 1) c)
    (hnn : 0 ≤ douglas_peucker_.deviation dist pts b (e - 1) c) :
    douglas_peucker_.scan dist pts b (e - 1)
      = (douglas_peucker_.deviation dist pts b (e - 1) c, some c) ∧
    douglas_peucker_.consider dist pts t (fuel + 1) b e inc
      = douglas_peucker_.consider dist pts t fuel c e
          (douglas_peucker_.consider dist pts t fuel b (c + 1) (inc.set c true)) ∧
    (c < inc.length →
      (douglas_peucker_.consider dist pts t (fuel + 1) b e inc)[c]? = some true) := by
  have hscan := scan_first dist pts b (e - 1) c hbc hce (by linarith) hmax hfirst
  have hcons : douglas_peucker_.consider dist pts t (fuel + 1) b e inc
      = douglas_peucker_.consider dist pts t fuel c e
          (douglas_peucker_.consider dist pts t fuel b (c + 1) (inc.set c true)) := by
    rw [consider_succ, hscan]
    simp [show ¬ e - b ≤ 2 by omega, hgt]
  refine ⟨hscan, hcons, ?_⟩
  intro hlen
  rw [hcons]
  apply consider_keeps
  apply consider_keeps
  rw [List.getElem?_set_self hlen]

/-- Witness of C23: in `(0,0), (1,2), (2,2), (3,0)` at (squared) tolerance 1 the positions 1
and 2 both have the maximum deviation 4 from the chord; position 1, the first, is the
candidate. -/
theorem C23_tie_break_witness :
    douglas_peucker_.deviation projected_point [⟨0, 0⟩, ⟨1, 2⟩, ⟨2, 2⟩, ⟨3, 0⟩] 0 3 1
      = douglas_peucker_.deviation projected_point [⟨0, 0⟩, ⟨1, 2⟩, ⟨2, 2⟩, ⟨3, 0⟩] 0 3 2 ∧
    douglas_peucker_.scan projected_point [⟨0, 0⟩, ⟨1, 2⟩, ⟨2, 2⟩, ⟨3, 0⟩] 0 (4 - 1)
      = (douglas_peucker_.deviation projected_point [⟨0, 0⟩, ⟨1, 2⟩, ⟨2, 2⟩, ⟨3, 0⟩] 0 (4 - 1) 1,
          some 1) :=
  ⟨by decide!,
    (C23_tie_break projected_point [⟨0, 0⟩, ⟨1, 2⟩, ⟨2, 2⟩, ⟨3, 0⟩] 1 3 0 4
      [true, false, false, true] 1 (by decide) (by decide) (by decide)
      (by
        intro k h1 h2
        have h3 : k = 1 ∨ k = 2 := by omega
        rcases h3 with rfl | rfl <;> decide!)
      (by intro k h1 h2; omega) (by decide!) (by decide!)).1⟩

/-- C26, termination of the recursion: with an amount of fuel of at least the size `e - b`
of the sub-range (the core starts with the size of the input) the result of `consider` is the
same as with exactly `e - b`: the recursion ends before the fuel does, its depth is bounded
by the size. For when it recurses, at a candidate `c`, both recursive calls, on
`[b, c + 1)` and on `[c, e)`, are on sub-ranges strictly shorter than `[b, e)`. -/
theorem C26_termination (dist : P → P → P → D) (pts : List P) (t : D) (fuel b e : Nat)
    (inc : List Bool) (hf : e - b ≤ fuel) :
    douglas_peucker_.consider dist pts t fuel b e inc
      = douglas_peucker_.consider dist pts t (e - b) b e inc ∧
    (douglas_peucker_.consider dist pts t (fuel + 1) b e inc = inc ∨
      ∃ c, douglas_peucker_.consider dist pts t (fuel + 1) b e inc
          = douglas_peucker_.consider dist pts t fuel c e
              (douglas_peucker_.consider dist pts t fuel b (c + 1) (inc.set c true)) ∧
        (c + 1) - b < e - b ∧ e - c < e - b) := by
  refine ⟨consider_fuel dist pts t fuel (e - b) b e inc hf (le_refl _), ?_⟩
  rcases consider_cases dist pts t fuel b e inc with ⟨h, _⟩ | ⟨c, hsz, hbc, hce, _, _, h⟩
  · left; exact h
  · right
    exact ⟨c, h, by omega, by omega⟩

/-- Witness of C26: on `(0,0), (1,2), (2,2), (3,0)` the fuel 4 of the core and any larger
fuel, here 10, give the same flags. -/
theorem C26_termination_witness :
    douglas_peucker_.consider projected_point [⟨0, 0⟩, ⟨1, 2⟩, ⟨2, 2⟩, ⟨3, 0⟩] 1 10 0 4
        [true, false, false, true]
      = douglas_peucker_.consider projected_point [⟨0, 0⟩, ⟨1, 2⟩, ⟨2, 2⟩, ⟨3, 0⟩] 1 (4 - 0) 0 4
        [true, false, false, true] :=
  (C26_termination projected_point [⟨0, 0⟩, ⟨1, 2⟩, ⟨2, 2⟩, ⟨3, 0⟩] 1 10 0 4
    [true, false, false, true] (by decide)).1

end TieBreakTheorems

/-! ## The duplicate end point of a closed ring -/

section CopyLengthLemmas

variable {P : Type}

/-- With a clear flag the copy loop writes fewer points than it reads. -/
theorem copy_included_length_lt : ∀ (pts : List P) (inc : List Bool) (q : Nat),
    pts.length = inc.length → inc[q]? = some false →
    (douglas_peucker_.copy_included pts inc).length < pts.length := by
  intro pts
  induction pts with
  | nil =>
    intro inc q hlen hq
    have := getElem?_some_lt hq
    simp at hlen
    omega
  | cons p ps ih =>
    intro inc q hlen hq
    cases inc with
    | nil => simp at hlen
    | cons f fs =>
      rw [copy_included_cons]
      have hsub := (copy_included_sublist ps fs).length_le
      cases q with
      | zero =>
        simp at hq
        subst hq
        simp only [Bool.false_eq_true, if_false, List.length_cons]
        omega
      | succ q =>
        have := ih fs q (by simpa using hlen) (by simpa using hq)
        split
        · simp only [List.length_cons]; omega
        · simp only [List.length_cons]; omega

theorem getD_of_getElem?_eq {l : List P} {a b : Nat} (d : P) (h : l[a]? = l[b]?) :
    l.getD a d = l.getD b d := by
  rw [List.getD_eq_getElem?_getD l, List.getD_eq_getElem?_getD l, h]

end CopyLengthLemmas

section DuplicateCoreLemmas

variable {P : Type} [Inhabited P] {D : Type} [LinearOrderedField D]

/-- A position `q` whose point repeats the point before it, or repeats the last point right
after it, is never marked by `consider` when the tolerance is non-negative and the oracle
gives deviation 0 to the end points of a chord. -/
theorem consider_skip (dist : P → P → P → D) (pts : List P) (T : D) (hT : 0 ≤ T)
    (hz : ∀ p a b, p = a ∨ p = b → dist p a b = 0) (q : Nat)
    (hq : (1 ≤ q ∧ pts.getD q default = pts.getD (q - 1) default) ∨
      (q + 2 = pts.length ∧ pts.getD q default = pts.getD (q + 1) default)) :
    ∀ (fuel b e : Nat) (inc : List Bool), e ≤ pts.length →
      (douglas_peucker_.consider dist pts T fuel b e inc)[q]? = inc[q]? := by
  intro fuel
  induction fuel with
  | zero => intro b e inc _; rfl
  | succ fuel ih =>
    intro b e inc he
    rcases consider_cases dist pts T fuel b e inc with ⟨h, _⟩ | ⟨c, hsz, hbc, hce, hsc, htc, h⟩
    · rw [h]
    · have hcq : c ≠ q := by
        intro hc
        rw [hc] at hbc hce hsc htc
        rcases scan_spec dist pts b (e - 1) with ⟨h1, _⟩ | ⟨c2, hc1, hc2, h1, _, _, h4⟩
        · rw [h1] at hsc
          simp at hsc
        · rw [h1] at hsc
          have hc2q : c2 = q := by
            have := congrArg Prod.snd hsc
            simpa using this
          rw [hc2q] at h4
          rcases hq with ⟨hq1, heq⟩ | ⟨hq2, heq⟩
          · by_cases hb : b = q - 1
            · have h0 : douglas_peucker_.deviation dist pts b (e - 1) q = 0 := by
                unfold douglas_peucker_.deviation
                apply hz
                left
                rw [heq, hb]
              linarith
            · have h5 := h4 (q - 1) (by omega) (by omega)
              have heq2 : douglas_peucker_.deviation dist pts b (e - 1) (q - 1)
                  = douglas_peucker_.deviation dist pts b (e - 1) q := by
                unfold douglas_peucker_.deviation
                rw [heq]
              rw [heq2] at h5
              exact lt_irrefl _ h5
          · have hl : e - 1 = q + 1 := by omega
            have h0 : douglas_peucker_.deviation dist pts b (e - 1) q = 0 := by
              unfold douglas_peucker_.deviation
              apply hz
              right
              rw [hl, heq]
            linarith
      rw [h, ih c e _ he, ih b (c + 1) _ (by omega), List.getElem?_set_ne hcq]

/-- The core drops a position of the kind of `consider_skip` that lies strictly inside the
range, so its output is shorter than its input. -/
theorem apply_shorter (dist : P → P → P → D) (pts : List P) (T : D) (hT : 0 ≤ T)
    (hz : ∀ p a b, p = a ∨ p = b → dist p a b = 0) (q : Nat) (hq1 : 1 ≤ q)
    (hq2 : q + 1 < pts.length)
    (hq : (1 ≤ q ∧ pts.getD q default = pts.getD (q - 1) default) ∨
      (q + 2 = pts.length ∧ pts.getD q default = pts.getD (q + 1) default)) :
    (douglas_peucker_.apply dist pts T).length < pts.length := by
  unfold douglas_peucker_.apply
  apply copy_included_length_lt pts _ q (included_length dist pts T).symm
  unfold douglas_peucker_.included
  rw [consider_skip dist pts T hT hz q hq _ _ _ _ (le_refl _), initial_flags _ _ (by omega)]
  have : ¬ (q = 0 ∨ q = pts.length - 1) := by omega
  simp [this]

end DuplicateCoreLemmas

section DuplicateRingLemmas

variable {P : Type} [Inhabited P]

theorem rotated_getElem?_lo (ring : List P) (i k : Nat) (hk : i + k < ring.length) :
    (ring.drop i ++ ring.take i ++ [ring.getD i default])[k]? = ring[i + k]? := by
  rw [List.append_assoc, List.getElem?_append_left (by rw [List.length_drop]; omega),
    List.getElem?_drop]

theorem rotated_getElem?_hi (ring : List P) (i k : Nat) (hi : i < ring.length)
    (hk1 : ring.length ≤ i + k) (hk2 : k < ring.length) :
    (ring.drop i ++ ring.take i ++ [ring.getD i default])[k]? = ring[k - (ring.length - i)]? := by
  rw [List.append_assoc, List.getElem?_append_right (by rw [List.length_drop]; omega),
    List.length_drop,
    List.getElem?_append_left (by rw [List.length_take]; omega),
    List.getElem?_take_of_lt (by omega)]

theorem rotated_getElem?_last (ring : List P) (i : Nat) (hi : i < ring.length) :
    (ring.drop i ++ ring.take i ++ [ring.getD i default])[ring.length]? = ring[i]? := by
  rw [List.getElem?_append_right (by
    rw [List.length_append, List.length_drop, List.length_take]; omega)]
  have hlen : ring.length - (ring.drop i ++ ring.take i).length = 0 := by
    rw [List.length_append, List.length_drop, List.length_take]; omega
  rw [hlen, List.getD_eq_getElem?_getD, List.getElem?_eq_getElem hi]
  rfl

/-- In the rotated and closed copy of a closed ring of at least 2 points there is a position
strictly inside whose point repeats its neighbour: the old closing point. -/
theorem rotated_redundant (ring : List P) (hclosed : ring.head? = ring.getLast?)
    (h2 : 2 ≤ ring.length) (i : Nat) (hi : i < ring.length) :
    ∃ q, 1 ≤ q ∧ q + 1 < (ring.drop i ++ ring.take i ++ [ring.getD i default]).length ∧
      ((1 ≤ q ∧ (ring.drop i ++ ring.take i ++ [ring.getD i default]).getD q default
          = (ring.drop i ++ ring.take i ++ [ring.getD i default]).getD (q - 1) default) ∨
       (q + 2 = (ring.drop i ++ ring.take i ++ [ring.getD i default]).length ∧
        (ring.drop i ++ ring.take i ++ [ring.getD i default]).getD q default
          = (ring.drop i ++ ring.take i ++ [ring.getD i default]).getD (q + 1) default)) := by
  have hlen : (ring.drop i ++ ring.take i ++ [ring.getD i default]).length
      = ring.length + 1 := by
    simp only [List.length_append, List.length_drop, List.length_take, List.length_cons,
      List.length_nil]
    have := Nat.min_eq_left (le_of_lt hi)
    omega
  have hc : ring[0]? = ring[ring.length - 1]? := by
    rw [← List.head?_eq_getElem?, ← List.getLast?_eq_getElem?]
    exact hclosed
  rw [hlen]
  by_cases h0 : i = 0
  · subst h0
    refine ⟨ring.length - 1, by omega, by omega, Or.inr ⟨by omega, ?_⟩⟩
    apply getD_of_getElem?_eq
    rw [rotated_getElem?_lo ring 0 (ring.length - 1) (by omega),
      show ring.length - 1 + 1 = ring.length by omega,
      rotated_getElem?_last ring 0 hi, zero_add, hc]
  · refine ⟨ring.length - i, by omega, by omega, Or.inl ⟨by omega, ?_⟩⟩
    apply getD_of_getElem?_eq
    rw [rotated_getElem?_hi ring i (ring.length - i) hi (by omega) (by omega),
      rotated_getElem?_lo ring i (ring.length - i - 1) (by omega),
      show ring.length - i - (ring.length - i) = 0 by omega,
      show i + (ring.length - i - 1) = ring.length - 1 by omega, hc]

end DuplicateRingLemmas

section DuplicatePolicyLemmas

variable {P : Type} [DecidableEq P] [Inhabited P] {D : Type} [LinearOrderedField D]

/-- The Range Policy on a pair of equal points gives the single point. -/
theorem simplify_range_pair (m : Nat) (impl : Impl P D) (a : P) (t : D) :
    simplify_range.apply m impl [a, a] [] t = [a] := by
  have hdeg : is_degenerate [a, a] = true := (is_degenerate_iff _).mpr ⟨a, rfl⟩
  have hfill : simplify_range.fill m impl [a, a] [] t = [a, a] ∨
      simplify_range.fill m impl [a, a] [] t = [a] := by
    rw [fill_nil]
    split
    · left; rfl
    · right
      unfold simplify_range_insert.apply
      simp [hdeg]
  unfold simplify_range.apply
  rcases hfill with h | h
  · simp [h, hdeg]
  · simp [h, is_degenerate]

/-- The Range Policy with minimum size 0 on a range of at least 3 points with a repeated
point of the kind of `consider_skip` strictly inside gives fewer points than it gets. -/
theorem simplify_range_shorter (impl : Impl P D) (pts : List P) (t : D) (ht : 0 ≤ t)
    (hconv : 0 ≤ impl.result_from_distance t)
    (hz : ∀ p a b, p = a ∨ p = b → impl.comparable_distance p a b = 0) (q : Nat)
    (hq1 : 1 ≤ q) (hq2 : q + 1 < pts.length)
    (hq : (1 ≤ q ∧ pts.getD q default = pts.getD (q - 1) default) ∨
      (q + 2 = pts.length ∧ pts.getD q default = pts.getD (q + 1) default)) :
    (simplify_range.apply 0 impl pts [] t).length < pts.length := by
  have hfill : simplify_range.fill 0 impl pts [] t
      = douglas_peucker_.apply impl.comparable_distance pts (impl.result_from_distance t) := by
    rw [fill_nil, if_neg (by
      simp only [not_or, not_lt, Nat.le_zero_eq]
      exact ⟨by omega, ht⟩)]
    unfold simplify_range_insert.apply
    have hnd : is_degenerate pts = false := by
      cases hd : is_degenerate pts with
      | false => rfl
      | true =>
        obtain ⟨a, ha⟩ := (is_degenerate_iff pts).mp hd
        rw [ha] at hq2
        simp at hq2
        omega
    rw [hnd]
    simp only [Bool.false_eq_true, if_false]
    rw [if_neg (by
      simp only [not_or, not_lt, not_le]
      exact ⟨by omega, ht⟩)]
    rfl
  have hlt := apply_shorter impl.comparable_distance pts (impl.result_from_distance t) hconv hz
    q hq1 hq2 hq
  unfold simplify_range.apply
  simp only [hfill]
  split
  · rw [List.length_take]
    omega
  · exact hlt

/-- The Ring Policy on a closed ring: the output has at most as many points as the ring. -/
theorem simplify_ring_length_le (impl : Impl P D) (area perimeter : List P → D) (ring : List P)
    (t : D) (hclosed : ring.head? = ring.getLast?) (ht : 0 ≤ t)
    (hconv : 0 ≤ impl.result_from_distance t)
    (hz : ∀ p a b, p = a ∨ p = b → impl.comparable_distance p a b = 0) :
    (simplify_ring.apply impl area perimeter ring [] t).length ≤ ring.length := by
  unfold simplify_ring.apply
  split
  · simp
  · rename_i h0
    rcases iterations_accept impl area perimeter ring t (simplify_ring.area_sign (area ring)) 4 0
      0 [] (List.replicate ring.length default) (by omega) (by simp) with h | ⟨a, _, h2, _, h4⟩
    · rw [h]; simp
    · rw [h4]
      by_cases hn : 2 ≤ ring.length
      · obtain ⟨q, hq1, hq2, hq⟩ := rotated_redundant ring hclosed hn a.index h2
        have hlt := simplify_range_shorter impl _ t ht hconv hz q hq1 hq2 hq
        have hlen : (ring.drop a.index ++ ring.take a.index ++ [ring.getD a.index default]).length
            = ring.length + 1 := by
          simp only [List.length_append, List.length_drop, List.length_take, List.length_cons,
            List.length_nil]
          have := Nat.min_eq_left (le_of_lt h2)
          omega
        omega
      · obtain ⟨x, hx⟩ := List.length_eq_one.mp (show ring.length = 1 by omega)
        subst hx
        have hi : a.index = 0 := by simpa using h2
        rw [hi]
        have : List.drop 0 [x] ++ List.take 0 [x] ++ [List.getD [x] 0 default] = [x, x] := rfl
        rw [this, simplify_range_pair]

end DuplicatePolicyLemmas

section DuplicateTheorems

variable {P : Type} [DecidableEq P] [Inhabited P] {D : Type} [LinearOrderedField D]

/-- C25, the duplicate end point of a closed ring is simplified away: for a closed input ring
(first point equal to last point), a tolerance `t ≥ 0` whose converted value is non-negative
as well, and a distance oracle that gives deviation 0 to a point equal to an end point of its
chord, the output of the Ring Policy (empty output ring) has at most as many points as the
input ring, although every rotated and closed working sequence has one point more than the
ring. -/
theorem C25_duplicate_end_point (impl : Impl P D) (area perimeter : List P → D)
    (ring : List P) (t : D) (hclosed : ring.head? = ring.getLast?) (ht : 0 ≤ t)
    (hconv : 0 ≤ impl.result_from_distance t)
    (hz : ∀ p a b, p = a ∨ p = b → impl.comparable_distance p a b = 0) :
    (simplify_ring.apply impl area perimeter ring [] t).length ≤ ring.length ∧
    ∀ i, i < ring.length →
      (ring.drop i ++ ring.take i ++ [ring.getD i default]).length = ring.length + 1 := by
  refine ⟨simplify_ring_length_le impl area perimeter ring t hclosed ht hconv hz, ?_⟩
  intro i hi
  simp only [List.length_append, List.length_drop, List.length_take, List.length_cons,
    List.length_nil]
  have := Nat.min_eq_left (le_of_lt hi)
  omega

end DuplicateTheorems

section DuplicateWitness

/-- The Cartesian oracle gives deviation 0 to the end point of the chord. -/
theorem pp_end (p a : point_xy) : projected_point p a p = 0 := by
  unfold projected_point
  simp only
  split_ifs with h1 h2
  · simp only [comparable_pythagoras]
    have h3 := mul_self_nonneg (p.x - a.x)
    have h4 := mul_self_nonneg (p.y - a.y)
    linarith
  · simp [comparable_pythagoras]
  · exact absurd (le_refl _) h2

/-- Witness of C25: the closed square `(0,0), (0,4), (4,4), (4,0), (0,0)` of 5 points at
tolerance 1: the working sequence has 6 points and the output has 5. -/
theorem C25_duplicate_end_point_witness :
    (simplify_ring.apply cartesian cartesian_area (fun _ => 16)
      [⟨0, 0⟩, ⟨0, 4⟩, ⟨4, 4⟩, ⟨4, 0⟩, ⟨0, 0⟩] [] 1).length = 5 ∧
    (simplify_ring.apply cartesian cartesian_area (fun _ => 16)
      [⟨0, 0⟩, ⟨0, 4⟩, ⟨4, 4⟩, ⟨4, 0⟩, ⟨0, 0⟩] [] 1).length
      ≤ ([⟨0, 0⟩, ⟨0, 4⟩, ⟨4, 4⟩, ⟨4, 0⟩, ⟨0, 0⟩] : List point_xy).length :=
  ⟨by decide!,
    (C25_duplicate_end_point cartesian cartesian_area (fun _ => 16)
      [⟨0, 0⟩, ⟨0, 4⟩, ⟨4, 4⟩, ⟨4, 0⟩, ⟨0, 0⟩] 1 (by decide) (by norm_num)
      (by show (0 : ℚ) ≤ 1 * 1; norm_num)
      (by
        rintro p a b (h | h)
        · subst h; exact pp_start _ _
        · subst h; exact pp_end _ _)).1⟩

end DuplicateWitness

/-! ## Idempotence of the Range Policy -/

section EmbeddingLemmas

variable {P : Type}

/-- The copied points with the positions they come from: a strictly increasing map `f` from
the output positions onto the positions whose flag is set. -/
theorem copy_included_embedding : ∀ (pts : List P) (F : List Bool), pts.length = F.length →
    ∃ f : Nat → Nat,
      (∀ j, j < (douglas_peucker_.copy_included pts F).length →
        F[f j]? = some true ∧ (douglas_peucker_.copy_included pts F)[j]? = pts[f j]?) ∧
      (∀ j1 j2, j1 < j2 → j2 < (douglas_peucker_.copy_included pts F).length → f j1 < f j2) ∧
      (∀ k, F[k]? = some true →
        ∃ j, j < (douglas_peucker_.copy_included pts F).length ∧ f j = k) := by
  intro pts
  induction pts with
  | nil =>
    intro F hlen
    have hF : F = [] := List.length_eq_zero.mp hlen.symm
    subst hF
    refine ⟨fun j => j, ?_, ?_, ?_⟩
    · intro j hj; simp [copy_included_nil_left] at hj
    · intro j1 j2 _ hj; simp [copy_included_nil_left] at hj
    · intro k hk; simp at hk
  | cons p ps ih =>
    intro F hlen
    cases F with
    | nil => simp at hlen
    | cons fl fs =>
      obtain ⟨g, hg1, hg2, hg3⟩ := ih fs (by simpa using hlen)
      rw [copy_included_cons]
      cases fl with
      | true =>
        simp only [if_true]
        refine ⟨fun j => match j with | 0 => 0 | j + 1 => g j + 1, ?_, ?_, ?_⟩
        · intro j hj
          cases j with
          | zero => simp
          | succ j =>
            simp only [List.length_cons] at hj
            have := hg1 j (by omega)
            simpa using this
        · intro j1 j2 h12 hj
          cases j2 with
          | zero => omega
          | succ j2 =>
            simp only [List.length_cons] at hj
            cases j1 with
            | zero => simp
            | succ j1 =>
              have := hg2 j1 j2 (by omega) (by omega)
              simpa using this
        · intro k hk
          cases k with
          | zero => exact ⟨0, by simp, rfl⟩
          | succ k =>
            obtain ⟨j, hj1, hj2⟩ := hg3 k (by simpa using hk)
            exact ⟨j + 1, by simpa using hj1, by simp [hj2]⟩
      | false =>
        simp only [Bool.false_eq_true, if_false]
        refine ⟨fun j => g j + 1, ?_, ?_, ?_⟩
        · intro j hj
          have := hg1 j hj
          simpa using this
        · intro j1 j2 h12 hj
          have := hg2 j1 j2 h12 hj
          simpa using this
        · intro k hk
          cases k with
          | zero => simp at hk
          | succ k =>
            obtain ⟨j, hj1, hj2⟩ := hg3 k (by simpa using hk)
            exact ⟨j, hj1, by simp [hj2]⟩

/-- With all flags set the copy loop writes the whole range. -/
theorem copy_included_all : ∀ (pts : List P) (J : List Bool), pts.length = J.length →
    (∀ j, j < pts.length → J[j]? = some true) →
    douglas_peucker_.copy_included pts J = pts := by
  intro pts
  induction pts with
  | nil => intro J _ _; rw [copy_included_nil_left]
  | cons p ps ih =>
    intro J hlen hall
    cases J with
    | nil => simp at hlen
    | cons fl fs =>
      have h0 := hall 0 (by simp)
      simp at h0
      subst h0
      rw [copy_included_cons]
      simp only [if_true]
      rw [ih fs (by simpa using hlen) (fun j hj => by simpa using hall (j + 1) (by simpa using hj))]

end EmbeddingLemmas

section IdempotenceCoreLemmas

variable {P : Type} [Inhabited P] {D : Type} [LinearOrderedField D]

/-- A candidate found by the scan is the first interior position of maximum deviation. -/
theorem scan_some_spec (dist : P → P → P → D) (pts : List P) (b l : Nat) (m : D) (c : Nat)
    (h : douglas_peucker_.scan dist pts b l = (m, some c)) :
    b < c ∧ c < l ∧ m = douglas_peucker_.deviation dist pts b l c ∧
    -1 < douglas_peucker_.deviation dist pts b l c ∧
    (∀ k, b < k → k < l →
      douglas_peucker_.deviation dist pts b l k ≤ douglas_peucker_.deviation dist pts b l c) ∧
    (∀ k, b < k → k < c →
      douglas_peucker_.deviation dist pts b l k < douglas_peucker_.deviation dist pts b l c) := by
  rcases scan_spec dist pts b l with ⟨h1, _⟩ | ⟨c2, hc1, hc2, h1, h2, h3, h4⟩
  · rw [h1] at h
    simp at h
  · rw [h1] at h
    have hc : c2 = c := by
      have := congrArg Prod.snd h
      simpa using this
    have hm : douglas_peucker_.deviation dist pts b l c2 = m := congrArg Prod.fst h
    subst hc
    exact ⟨hc1, hc2, hm.symm, h2, h3, h4⟩

/-- The branch of `consider` that marks the candidate and recurses. -/
theorem consider_split (dist : P → P → P → D) (pts : List P) (T : D) (fuel b e : Nat)
    (inc : List Bool) (c : Nat) (m : D) (hsz : 2 < e - b)
    (hscan : douglas_peucker_.scan dist pts b (e - 1) = (m, some c)) (hT : T < m) :
    douglas_peucker_.consider dist pts T (fuel + 1) b e inc
      = douglas_peucker_.consider dist pts T fuel c e
          (douglas_peucker_.consider dist pts T fuel b (c + 1) (inc.set c true)) := by
  rw [consider_succ, hscan]
  simp [show ¬ e - b ≤ 2 by omega, hT]

/-- Running the core on its own output. `pts` with the flags `inc` is a run of `consider` on
`[b, e)`; `O` with the flags `J` is a second range whose positions `b2, ..., e2 - 1` hold, in
order, exactly the points of `[b, e)` that the first run leaves marked (`f` maps the
positions). Then the second run marks every position of `[b2, e2)`. -/
theorem consider_idem (dist : P → P → P → D) (pts O : List P) (T : D) (f : Nat → Nat) :
    ∀ (fuel b e : Nat) (inc : List Bool), e - b ≤ fuel → b < e →
      inc[b]? = some true → inc[e - 1]? = some true →
      (∀ m, b < m → m < e - 1 → inc[m]? = some false) →
      ∀ (fuel2 b2 e2 : Nat) (J : List Bool), e2 - b2 ≤ fuel2 → b2 < e2 →
        f b2 = b → f (e2 - 1) = e - 1 →
        (∀ j, b2 ≤ j → j ≤ e2 - 1 → O.getD j default = pts.getD (f j) default) →
        (∀ j, b2 ≤ j → j ≤ e2 - 1 →
          (douglas_peucker_.consider dist pts T fuel b e inc)[f j]? = some true) →
        (∀ j1 j2, b2 ≤ j1 → j1 < j2 → j2 ≤ e2 - 1 → f j1 < f j2) →
        (∀ k, b ≤ k → k ≤ e - 1 →
          (douglas_peucker_.consider dist pts T fuel b e inc)[k]? = some true →
          ∃ j, b2 ≤ j ∧ j ≤ e2 - 1 ∧ f j = k) →
        J[b2]? = some true → J[e2 - 1]? = some true →
        (∀ m, b2 < m → m < e2 - 1 → J[m]? = some false) →
        ∀ j, b2 ≤ j → j ≤ e2 - 1 →
          (douglas_peucker_.consider dist O T fuel2 b2 e2 J)[j]? = some true := by
  intro fuel
  induction fuel with
  | zero => intro b e inc hf hbe; omega
  | succ fuel ih =>
    intro b e inc hf hbe hb he hin fuel2 b2 e2 J hf2 hbe2 fb fe hO hF hmono hsurj hJb hJe hJin
      j hj1 hj2
    rcases consider_cases dist pts T fuel b e inc with ⟨h, _⟩ | ⟨c, hsz, hbc, hce, hsc, htc, h⟩
    · rw [h] at hF
      have hsmall : e2 - 1 ≤ b2 + 1 := by
        by_contra hcon
        have h1 := hF (b2 + 1) (by omega) (by omega)
        have h2 := hmono b2 (b2 + 1) (le_refl _) (by omega) (by omega)
        have h3 := hmono (b2 + 1) (e2 - 1) (by omega) (by omega) (le_refl _)
        rw [hin (f (b2 + 1)) (by omega) (by omega)] at h1
        cases h1
      have hj : j = b2 ∨ j = e2 - 1 := by omega
      rcases hj with hj | hj
      · rw [hj]; exact consider_keeps _ _ _ _ _ _ _ _ hJb
      · rw [hj]; exact consider_keeps _ _ _ _ _ _ _ _ hJe
    · rw [h] at hF hsurj
      have hclen : c < inc.length := by
        have := getElem?_some_lt he
        omega
      have hc1 : (inc.set c true)[c]? = some true := by
        rw [List.getElem?_set_self hclen]
      have hFc : (douglas_peucker_.consider dist pts T fuel c e
          (douglas_peucker_.consider dist pts T fuel b (c + 1) (inc.set c true)))[c]?
          = some true :=
        consider_keeps _ _ _ _ _ _ _ _ (consider_keeps _ _ _ _ _ _ _ _ hc1)
      obtain ⟨jc, hjc1, hjc2, hfjc⟩ := hsurj c (by omega) (by omega) hFc
      have hjc3 : b2 < jc := by
        rcases Nat.eq_or_lt_of_le hjc1 with h0 | h0
        · rw [← h0, fb] at hfjc; omega
        · exact h0
      have hjc4 : jc < e2 - 1 := by
        rcases Nat.eq_or_lt_of_le hjc2 with h0 | h0
        · rw [h0, fe] at hfjc; omega
        · exact h0
      obtain ⟨_, _, _, hneg, hmax, hfirst⟩ := scan_some_spec dist pts b (e - 1) _ c hsc
      have hdev : ∀ k, b2 ≤ k → k ≤ e2 - 1 →
          douglas_peucker_.deviation dist O b2 (e2 - 1) k
            = douglas_peucker_.deviation dist pts b (e - 1) (f k) := by
        intro k hk1 hk2
        unfold douglas_peucker_.deviation
        rw [hO k hk1 hk2, hO b2 (le_refl _) (by omega), hO (e2 - 1) (by omega) (le_refl _),
          fb, fe]
      have hscanO : douglas_peucker_.scan dist O b2 (e2 - 1)
          = (douglas_peucker_.deviation dist O b2 (e2 - 1) jc, some jc) := by
        apply scan_first dist O b2 (e2 - 1) jc hjc3 hjc4
        · rw [hdev jc hjc1 hjc2, hfjc]; exact hneg
        · intro k hk1 hk2
          rw [hdev k (by omega) (by omega), hdev jc hjc1 hjc2, hfjc]
          have h1 := hmono b2 k (le_refl _) hk1 (by omega)
          have h2 := hmono k (e2 - 1) (by omega) hk2 (le_refl _)
          exact hmax (f k) (by omega) (by omega)
        · intro k hk1 hk2
          rw [hdev k (by omega) (by omega), hdev jc hjc1 hjc2, hfjc]
          have h1 := hmono b2 k (le_refl _) hk1 (by omega)
          have h2 := hmono k jc (by omega) hk2 hjc2
          exact hfirst (f k) (by omega) (by omega)
      obtain ⟨fuel3, hfuel3⟩ : ∃ k, fuel2 = k + 1 := ⟨fuel2 - 1, by omega⟩
      subst hfuel3
      have hTO : T < douglas_peucker_.deviation dist O b2 (e2 - 1) jc := by
        rw [hdev jc hjc1 hjc2, hfjc]; exact htc
      rw [consider_split dist O T fuel3 b2 e2 J jc _ (by omega) hscanO hTO]
      have hjclen : jc < J.length := by
        have := getElem?_some_lt hJe
        omega
      have hJc1 : (J.set jc true)[jc]? = some true := by
        rw [List.getElem?_set_self hjclen]
      -- the flags of the first run agree with the left call up to `c`
      have hagree : ∀ i, i ≤ c →
          (douglas_peucker_.consider dist pts T fuel c e
            (douglas_peucker_.consider dist pts T fuel b (c + 1) (inc.set c true)))[i]?
          = (douglas_peucker_.consider dist pts T fuel b (c + 1) (inc.set c true))[i]? :=
        fun i hi => consider_frame dist pts T _ _ _ _ i (Or.inl hi)
      have hfle : ∀ k, b2 ≤ k → k ≤ jc → f k ≤ c := by
        intro k hk1 hk2
        rcases Nat.eq_or_lt_of_le hk2 with h0 | h0
        · rw [h0, hfjc]
        · have := hmono k jc hk1 h0 hjc2
          omega
      have hleft : ∀ k, b2 ≤ k → k ≤ jc →
          (douglas_peucker_.consider dist O T fuel3 b2 (jc + 1) (J.set jc true))[k]?
            = some true := by
        refine ih b (c + 1) (inc.set c true) (by omega) (by omega) ?_ hc1 ?_ fuel3 b2 (jc + 1)
          (J.set jc true) (by omega) (by omega) fb hfjc ?_ ?_ ?_ ?_ ?_ hJc1 ?_
        · rw [List.getElem?_set_ne (by omega)]; exact hb
        · intro m hm1 hm2
          rw [List.getElem?_set_ne (by omega)]
          exact hin m hm1 (by omega)
        · intro k hk1 hk2
          exact hO k hk1 (by omega)
        · intro k hk1 hk2
          rw [← hagree (f k) (hfle k hk1 hk2)]
          exact hF k hk1 (by omega)
        · intro j1 j2 h1 h2 h3
          exact hmono j1 j2 h1 h2 (by omega)
        · intro k hk1 hk2 hk3
          rw [← hagree k hk2] at hk3
          obtain ⟨j0, hj01, hj02, hj03⟩ := hsurj k hk1 (by omega) hk3
          refine ⟨j0, hj01, ?_, hj03⟩
          by_contra hcon
          have := hmono jc j0 hjc1 (by omega) hj02
          omega
        · rw [List.getElem?_set_ne (by omega)]; exact hJb
        · intro m hm1 hm2
          rw [List.getElem?_set_ne (by omega)]
          exact hJin m hm1 (by omega)
      have hright : ∀ k, jc ≤ k → k ≤ e2 - 1 →
          (douglas_peucker_.consider dist O T fuel3 jc e2
            (douglas_peucker_.consider dist O T fuel3 b2 (jc + 1) (J.set jc true)))[k]?
            = some true := by
        refine ih c e (douglas_peucker_.consider dist pts T fuel b (c + 1) (inc.set c true))
          (by omega) (by omega) ?_ ?_ ?_ fuel3 jc e2
          (douglas_peucker_.consider dist O T fuel3 b2 (jc + 1) (J.set jc true))
          (by omega) (by omega) hfjc fe ?_ ?_ ?_ ?_ ?_ ?_ ?_
        · exact consider_keeps _ _ _ _ _ _ _ _ hc1
        · apply consider_keeps
          rw [List.getElem?_set_ne (by omega)]
          exact he
        · intro m hm1 hm2
          rw [consider_frame dist pts T _ _ _ _ m (by omega), List.getElem?_set_ne (by omega)]
          exact hin m (by omega) hm2
        · intro k hk1 hk2
          exact hO k (by omega) hk2
        · intro k hk1 hk2
          exact hF k (by omega) hk2
        · intro j1 j2 h1 h2 h3
          exact hmono j1 j2 (by omega) h2 h3
        · intro k hk1 hk2 hk3
          obtain ⟨j0, hj01, hj02, hj03⟩ := hsurj k (by omega) hk2 hk3
          refine ⟨j0, ?_, hj02, hj03⟩
          by_contra hcon
          have := hmono j0 jc hj01 (by omega) hjc2
          omega
        · exact hleft jc hjc1 (le_refl _)
        · apply consider_keeps
          rw [List.getElem?_set_ne (by omega)]
          exact hJe
        · intro m hm1 hm2
          rw [consider_frame dist O T _ _ _ _ m (by omega), List.getElem?_set_ne (by omega)]
          exact hJin m (by omega) hm2
      rcases Nat.lt_or_ge j jc with hlt | hge
      · exact consider_keeps _ _ _ _ _ _ _ _ (hleft j hj1 (by omega))
      · exact hright j hge hj2

/-- The core returns its own output unchanged. -/
theorem apply_idem (dist : P → P → P → D) (pts : List P) (T : D) (h2 : 2 ≤ pts.length) :
    douglas_peucker_.apply dist (douglas_peucker_.apply dist pts T) T
      = douglas_peucker_.apply dist pts T := by
  have hFlen := included_length dist pts T
  obtain ⟨f, hf1, hf2, hf3⟩ := copy_included_embedding pts
    (douglas_peucker_.included dist pts T) hFlen.symm
  have hF0 : (douglas_peucker_.included dist pts T)[0]? = some true :=
    included_first dist pts T (by omega)
  have hFn : (douglas_peucker_.included dist pts T)[pts.length - 1]? = some true := by
    have := included_last dist pts T (by omega)
    rw [List.getLast?_eq_getElem?, hFlen] at this
    exact this
  obtain ⟨j0, hj0, hfj0⟩ := hf3 0 hF0
  obtain ⟨j1, hj1, hfj1⟩ := hf3 (pts.length - 1) hFn
  have hf0 : f 0 = 0 := by
    rcases Nat.eq_zero_or_pos j0 with h | h
    · rw [h] at hfj0; exact hfj0
    · have := hf2 0 j0 h hj0
      omega
  have hO : douglas_peucker_.apply dist pts T
      = douglas_peucker_.copy_included pts (douglas_peucker_.included dist pts T) := rfl
  have hfl : f ((douglas_peucker_.apply dist pts T).length - 1) = pts.length - 1 := by
    rw [hO]
    rcases Nat.lt_or_ge j1
      ((douglas_peucker_.copy_included pts (douglas_peucker_.included dist pts T)).length - 1)
      with h | h
    · have h3 := hf2 j1 _ h (by omega)
      have h4 := getElem?_some_lt (hf1 _ (show
        (douglas_peucker_.copy_included pts (douglas_peucker_.included dist pts T)).length - 1
          < _ by omega)).1
      omega
    · have : j1 = (douglas_peucker_.copy_included pts
          (douglas_peucker_.included dist pts T)).length - 1 := by omega
      rw [← this]; exact hfj1
  have hOlen : 2 ≤ (douglas_peucker_.apply dist pts T).length := by
    rw [hO]
    have : j0 ≠ j1 := by
      intro h
      rw [h] at hfj0
      omega
    omega
  have hget : ∀ j, 0 ≤ j → j ≤ (douglas_peucker_.apply dist pts T).length - 1 →
      (douglas_peucker_.apply dist pts T).getD j default = pts.getD (f j) default := by
    intro j _ hj
    rw [List.getD_eq_getElem?_getD, List.getD_eq_getElem?_getD, hO,
      (hf1 j (by rw [hO] at hj hOlen; omega)).2]
  have hall : ∀ j, 0 ≤ j → j ≤ (douglas_peucker_.apply dist pts T).length - 1 →
      (douglas_peucker_.included dist (douglas_peucker_.apply dist pts T) T)[j]? = some true := by
    unfold douglas_peucker_.included
    refine consider_idem dist pts (douglas_peucker_.apply dist pts T) T f pts.length 0
      pts.length (((List.replicate pts.length false).set 0 true).set (pts.length - 1) true)
      (by omega) (by omega) ?_ ?_ ?_ (douglas_peucker_.apply dist pts T).length 0
      (douglas_peucker_.apply dist pts T).length
      (((List.replicate (douglas_peucker_.apply dist pts T).length false).set 0 true).set
        ((douglas_peucker_.apply dist pts T).length - 1) true)
      (by omega) (by omega) hf0 hfl hget ?_ ?_ ?_ ?_ ?_ ?_
    · rw [initial_flags _ _ (by omega)]; simp
    · rw [initial_flags _ _ (by omega)]; simp
    · intro m hm1 hm2
      rw [initial_flags _ _ (by omega)]
      have : ¬ (m = 0 ∨ m = pts.length - 1) := by omega
      simp [this]
    · intro j _ hj
      exact (hf1 j (by rw [hO] at hj hOlen; omega)).1
    · intro j1 j2 _ h12 hj
      exact hf2 j1 j2 h12 (by rw [hO] at hj hOlen; omega)
    · intro k _ _ hk
      obtain ⟨j, hj, hfj⟩ := hf3 k hk
      exact ⟨j, Nat.zero_le _, by rw [hO]; omega, hfj⟩
    · rw [initial_flags _ _ (by omega)]; simp
    · rw [initial_flags _ _ (by omega)]; simp
    · intro m hm1 hm2
      rw [initial_flags _ _ (by omega)]
      have : ¬ (m = 0 ∨ m = (douglas_peucker_.apply dist pts T).length - 1) := by omega
      simp [this]
  show douglas_peucker_.copy_included (douglas_peucker_.apply dist pts T)
    (douglas_peucker_.included dist (douglas_peucker_.apply dist pts T) T)
      = douglas_peucker_.apply dist pts T
  exact copy_included_all _ _ (included_length dist _ T).symm
    (fun j hj => hall j (Nat.zero_le _) (by omega))

end IdempotenceCoreLemmas

section IdempotencePolicyLemmas

variable {P : Type} [DecidableEq P] [Inhabited P] {D : Type} [LinearOrderedField D]

/-- A range that is not a pair of equal points and that the core, when it is run on it,
returns unchanged, is a fixed point of the Range Policy. -/
theorem simplify_range_fixed (m : Nat) (impl : Impl P D) (O : List P) (t : D)
    (hnd : is_degenerate O = false)
    (hcore : 2 < O.length → douglas_peucker.apply impl O t = O) :
    simplify_range.apply m impl O [] t = O := by
  have hfill : simplify_range.fill m impl O [] t = O := by
    rw [fill_nil]
    split
    · rfl
    · unfold simplify_range_insert.apply
      rw [hnd]
      simp only [Bool.false_eq_true, if_false]
      split
      · rfl
      · rename_i h
        exact hcore (by
          simp only [not_or, not_le] at h
          exact h.1)
  unfold simplify_range.apply
  simp only [hfill, hnd, Bool.false_eq_true, if_false]

/-- The three shapes of a Range Policy output: the input itself, a single point, or the
output of the core, when that is not a pair of equal points. -/
theorem simplify_range_shapes (m : Nat) (impl : Impl P D) (range : List P) (t : D) :
    simplify_range.apply m impl range [] t = range ∨
    (∃ a, simplify_range.apply m impl range [] t = [a]) ∨
    (2 ≤ range.length ∧
      simplify_range.apply m impl range [] t = douglas_peucker.apply impl range t ∧
      is_degenerate (simplify_range.apply m impl range [] t) = false) := by
  have hcollapse : ∀ L : List P, (if is_degenerate L then L.take 1 else L) = L ∨
      ∃ a, (if is_degenerate L then L.take 1 else L) = [a] := by
    intro L
    by_cases hd : is_degenerate L = true
    · right
      obtain ⟨a, rfl⟩ := (is_degenerate_iff L).mp hd
      exact ⟨a, by simp [hd]⟩
    · left
      simp [hd]
  unfold simplify_range.apply
  simp only
  rw [fill_nil]
  by_cases hA : range.length ≤ m ∨ t < 0
  · rw [if_pos hA]
    rcases hcollapse range with h | h
    · left; exact h
    · right; left; exact h
  · rw [if_neg hA]
    unfold simplify_range_insert.apply
    by_cases hd : is_degenerate range = true
    · right; left
      obtain ⟨a, rfl⟩ := (is_degenerate_iff range).mp hd
      exact ⟨a, by simp [hd, is_degenerate]⟩
    · simp only [hd, Bool.false_eq_true, if_false]
      by_cases hB : range.length ≤ 2 ∨ t < 0
      · rw [if_pos hB]
        left
        simp [hd]
      · rw [if_neg hB]
        by_cases hd2 : is_degenerate (douglas_peucker.apply impl range t) = true
        · right; left
          obtain ⟨a, ha⟩ := (is_degenerate_iff _).mp hd2
          exact ⟨a, by rw [ha]; simp [is_degenerate]⟩
        · right; right
          simp only [not_or, not_le] at hB
          refine ⟨by omega, by simp [hd2], by simp [hd2]⟩

/-- The Range Policy returns its own output unchanged. -/
theorem simplify_range_idem (m : Nat) (impl : Impl P D) (range : List P) (t : D) :
    simplify_range.apply m impl (simplify_range.apply m impl range [] t) [] t
      = simplify_range.apply m impl range [] t := by
  rcases simplify_range_shapes m impl range t with h | ⟨a, h⟩ | ⟨h2, h, hnd⟩
  · have h3 := h
    rw [h]
    exact h3
  · rw [h]
    exact simplify_range_fixed m impl [a] t (by simp [is_degenerate]) (by intro h0; simp at h0)
  · apply simplify_range_fixed m impl _ t hnd
    intro _
    rw [h]
    exact apply_idem impl.comparable_distance range (impl.result_from_distance t) h2

end IdempotencePolicyLemmas

section IdempotenceTheorems

variable {P : Type} [DecidableEq P] [Inhabited P] {D : Type} [LinearOrderedField D]

/-- C28, idempotence of the Range Policy: for every range, tolerance and minimum size,
applying the Range Policy (empty container) to its own output with the same tolerance gives
that output again. -/
theorem C28_idempotence (m : Nat) (impl : Impl P D) (range : List P) (t : D) :
    simplify_range.apply m impl (simplify_range.apply m impl range [] t) [] t
      = simplify_range.apply m impl range [] t :=
  simplify_range_idem m impl range t

end IdempotenceTheorems

/-! ## Linestrings never vanish -/

section VanishLemmas

variable {P : Type} [DecidableEq P] [Inhabited P] {D : Type} [LinearOrderedField D]

/-- The Range Policy (empty container) gives the empty range exactly for the empty range. -/
theorem simplify_range_eq_nil (m : Nat) (impl : Impl P D) (range : List P) (t : D) :
    simplify_range.apply m impl range [] t = [] ↔ range = [] := by
  have h := (simplify_range_endpoints m impl range t).1
  constructor
  · intro h0
    rw [h0] at h
    exact List.head?_eq_none_iff.mp h.symm
  · intro h0
    rw [h0] at h
    rw [h0]
    exact List.head?_eq_none_iff.mp (h.trans List.head?_nil)

/-- The multi-linestring policy maps the Range Policy over the non-empty input linestrings. -/
theorem multi_linestring_eq (impl : Impl P D) (multi out : List (List P)) (t : D) :
    simplify_multi.apply (fun it single_out d => simplify_range.apply 2 impl it single_out d)
        List.isEmpty ([] : List P) multi out t
      = (multi.filter (fun ls => !ls.isEmpty)).map
          (fun ls => simplify_range.apply 2 impl ls [] t) := by
  unfold simplify_multi.apply
  rw [multi_loop_eq, List.nil_append, List.filter_map]
  congr 1
  apply List.filter_congr
  intro ls _
  have h := simplify_range_eq_nil 2 impl ls t
  simp only [Function.comp]
  rw [Bool.eq_iff_iff]
  simp [List.isEmpty_iff, h]

end VanishLemmas

section VanishTheorems

variable {P : Type} [DecidableEq P] [Inhabited P] {D : Type} [LinearOrderedField D]

/-- C31, the Range Policy never makes a linestring vanish: for every range, tolerance and
minimum size, the output of the Range Policy (written into an empty container) is empty if
and only if the input is empty. Consequently, for every multi-linestring, tolerance and prior
output, the dispatched multi-linestring policy returns the Range Policy results of exactly
the non-empty input linestrings, in input order: none of its elements is empty and it has as
many elements as the input has non-empty linestrings. -/
theorem C31_range_never_vanishes (m : Nat) (impl : Impl P D) (area perimeter : List P → D)
    (range : List P) (multi out : List (List P)) (t : D) :
    (simplify_range.apply m impl range [] t = [] ↔ range = []) ∧
    (let result : List (List P) :=
      dispatch.simplify impl area perimeter .multi_linestring_tag multi out t
    result = (multi.filter (fun ls => !ls.isEmpty)).map
        (fun ls => simplify_range.apply 2 impl ls [] t) ∧
      (∀ ls ∈ result, ls ≠ []) ∧
      result.length = multi.countP (fun ls => !ls.isEmpty)) := by
  refine ⟨simplify_range_eq_nil m impl range t, ?_⟩
  intro result
  have h : result = (multi.filter (fun ls => !ls.isEmpty)).map
      (fun ls => simplify_range.apply 2 impl ls [] t) :=
    multi_linestring_eq impl multi out t
  refine ⟨h, ?_, ?_⟩
  · rw [h]
    intro ls hls
    obtain ⟨x, hx, rfl⟩ := List.mem_map.mp hls
    have hx0 : x ≠ [] := by
      have := (List.mem_filter.mp hx).2
      intro h0
      simp [h0] at this
    exact fun h0 => hx0 ((simplify_range_eq_nil 2 impl x t).mp h0)
  · rw [h, List.length_map, List.countP_eq_length_filter]

end VanishTheorems

/-! ## The parameter setup of the Hammer projection -/

section HammerLemmas

/-- The test `fabs(tmp) <= 0.` holds exactly for the two zeros. -/
theorem fabs_le_zero (v : double) :
    double.le (double.fabs v) (double.num 0) = v.is_zero := by
  cases v with
  | num q => simp [double.fabs, double.le, double.value, double.is_zero]
  | negzero => simp [double.fabs, double.le, double.value, double.is_zero]
  | inf s => simp [double.fabs, double.le, double.is_zero]
  | nan => simp [double.fabs, double.le, double.is_zero]

/-- The absolute value of a `double` that is neither a zero nor a NaN is above `0.`. -/
theorem fabs_pos (v : double) (hz : v.is_zero = false) :
    double.fabs v = double.nan ∨ double.lt (double.num 0) (double.fabs v) = true := by
  cases v with
  | num q =>
    right
    have hq : q ≠ 0 := by simpa [double.is_zero] using hz
    simp [double.fabs, double.lt, double.value, hq]
  | negzero => simp [double.is_zero] at hz
  | inf s => right; simp [double.fabs, double.lt]
  | nan => left; rfl

/-- The two outcomes of `setup_hammer`: error `-27` when `W` or `M` is given as a zero,
otherwise the parameters computed from `|W|` (default 1/2) and `|M|` (default 1). -/
theorem setup_hammer_spec (par : parameters double) (proj_parm : par_hammer double) :
    (((∃ v, par.params "W" = some v ∧ v.is_zero = true) ∨
        (∃ v, par.params "M" = some v ∧ v.is_zero = true)) ∧
      setup_hammer par proj_parm = Except.error (-27)) ∨
    (¬ ((∃ v, par.params "W" = some v ∧ v.is_zero = true) ∨
        (∃ v, par.params "M" = some v ∧ v.is_zero = true)) ∧
      ((match par.params "W" with | some v => double.fabs v | none => double.num (1 / 2))
          = double.nan ∨
        double.lt (double.num 0)
          (match par.params "W" with | some v => double.fabs v | none => double.num (1 / 2))
          = true) ∧
      setup_hammer par proj_parm
        = Except.ok ({ par with es := double.num 0 },
          { w := (match par.params "W" with
              | some v => double.fabs v | none => double.num (1 / 2))
            m := double.div
              (match par.params "M" with | some v => double.fabs v | none => double.num 1)
              (match par.params "W" with
                | some v => double.fabs v | none => double.num (1 / 2))
            rm := double.div (double.num 1)
              (match par.params "M" with
                | some v => double.fabs v | none => double.num 1) })) := by
  unfold setup_hammer
  cases hW : par.params "W" with
  | none =>
    cases hM : par.params "M" with
    | none =>
      right
      refine ⟨by simp, Or.inr (by simp [double.lt, double.value]), ?_⟩
      simp [bind, Except.bind]
    | some v =>
      cases hv : v.is_zero with
      | true =>
        left
        simp [bind, Except.bind, fabs_le_zero, hv]
      | false =>
        right
        refine ⟨by simp [hv], Or.inr (by simp [double.lt, double.value]), ?_⟩
        simp [bind, Except.bind, fabs_le_zero, hv]
  | some u =>
    cases hu : u.is_zero with
    | true =>
      left
      simp [bind, Except.bind, fabs_le_zero, hu]
    | false =>
      cases hM : par.params "M" with
      | none =>
        right
        refine ⟨by simp [hu], fabs_pos u hu, ?_⟩
        simp [bind, Except.bind, fabs_le_zero, hu]
      | some v =>
        cases hv : v.is_zero with
        | true =>
          left
          simp [bind, Except.bind, fabs_le_zero, hu, hv]
        | false =>
          right
          refine ⟨by simp [hu, hv], fabs_pos u hu, ?_⟩
          simp [bind, Except.bind, fabs_le_zero, hu, hv]

end HammerLemmas

section HammerTheorems

/-- C32 (counterexample): with `W` absent and `M = 49`, `setup_hammer` succeeds with
`w = 0.5`, `m = 98` and `rm` the double nearest to `1/49`, which is
`5882252574524729 / 2^58`. The product `m * w * rm` is not 1: computed in `double` it is
`1 - 2^(-53)` (printed 0.9999999999999999), and the exact product of the three stored values
is not 1 either. And with `W` supplied as a NaN (and `M` absent) the test `fabs(tmp) <= 0.`
is false, so `setup_hammer` succeeds with `w` a NaN, for which `w > 0` is false. -/
theorem C32_counterexample :
    (setup_hammer ⟨fun name => if name = "M" then some (double.num 49) else none, double.num 0⟩
        ⟨double.num 0, double.num 0, double.num 0⟩).toOption.map Prod.snd
      = some ⟨double.num (1 / 2), double.num 98,
          double.num (5882252574524729 / 288230376151711744)⟩ ∧
    double.mul (double.mul (double.num 98) (double.num (1 / 2)))
        (double.num (5882252574524729 / 288230376151711744))
      = double.num (9007199254740991 / 9007199254740992) ∧
    double.mul (double.mul (double.num 98) (double.num (1 / 2)))
        (double.num (5882252574524729 / 288230376151711744))
      ≠ double.num 1 ∧
    (98 : ℚ) * (1 / 2) * (5882252574524729 / 288230376151711744) ≠ 1 ∧
    (setup_hammer ⟨fun name => if name = "W" then some double.nan else none, double.num 0⟩
        ⟨double.num 0, double.num 0, double.num 0⟩).toOption.map Prod.snd
      = some ⟨double.nan, double.nan, double.num 1⟩ ∧
    double.lt (double.num 0) double.nan = false := by
  refine ⟨by decide!, by decide!, by decide!, by norm_num, by decide!, by decide!⟩

/-- C32 (amended), parameter setup of the Hammer projection in `double`: for every parameter
list and every prior value of the projection parameters, `setup_hammer` fails if and only if
`W` is supplied as a zero or `M` is supplied as a zero, and every failure has the error code
`-27`. In every other case it succeeds with `w = |W|` (1/2 when `W` is absent), `rm` the
double quotient `1 / |M|` and `m` the double quotient `|M| / w` (`|M|` taken as 1 when `M` is
absent); `w` is a NaN or `w > 0`; the eccentricity `es` is 0 and the parameter list is
unchanged. Nothing is said about the product `m * w * rm`. -/
theorem C32_setup_hammer (par : parameters double) (proj_parm : par_hammer double) :
    (setup_hammer par proj_parm = Except.error (-27) ↔
      ((∃ v, par.params "W" = some v ∧ v.is_zero = true) ∨
        (∃ v, par.params "M" = some v ∧ v.is_zero = true))) ∧
    ((∃ e, setup_hammer par proj_parm = Except.error e) ↔
      ((∃ v, par.params "W" = some v ∧ v.is_zero = true) ∨
        (∃ v, par.params "M" = some v ∧ v.is_zero = true))) ∧
    (((∃ v, par.params "W" = some v ∧ v.is_zero = true) ∨
        (∃ v, par.params "M" = some v ∧ v.is_zero = true)) ∨
      ∃ q r, setup_hammer par proj_parm = Except.ok (q, r) ∧
        r.w = (match par.params "W" with
          | some v => double.fabs v | none => double.num (1 / 2)) ∧
        r.rm = double.div (double.num 1)
          (match par.params "M" with | some v => double.fabs v | none => double.num 1) ∧
        r.m = double.div
          (match par.params "M" with | some v => double.fabs v | none => double.num 1) r.w ∧
        (r.w = double.nan ∨ double.lt (double.num 0) r.w = true) ∧
        q.es = double.num 0 ∧ q.params = par.params) := by
  rcases setup_hammer_spec par proj_parm with ⟨hc, h⟩ | ⟨hc, hw0, h⟩
  · exact ⟨⟨fun _ => hc, fun _ => h⟩, ⟨fun _ => hc, fun _ => ⟨_, h⟩⟩, Or.inl hc⟩
  · refine ⟨⟨fun h1 => ?_, fun h1 => absurd h1 hc⟩,
      ⟨fun h1 => ?_, fun h1 => absurd h1 hc⟩,
      Or.inr ⟨_, _, h, rfl, rfl, rfl, hw0, rfl, rfl⟩⟩
    · rw [h] at h1
      cases h1
    · obtain ⟨e, h1⟩ := h1
      rw [h] at h1
      cases h1

/-- Witness of C32 (amended): with `W = -2` and `M = 3`, `setup_hammer` succeeds with
`w = 2`, `rm` the double nearest to `1/3` (`6004799503160661 / 2^54`), `m = 1.5` and
`w > 0`. -/
theorem C32_setup_hammer_witness :
    ∃ q r,
      setup_hammer
        ⟨fun name => if name = "W" then some (double.num (-2))
          else if name = "M" then some (double.num 3) else none, double.num 7⟩
        ⟨double.num 0, double.num 0, double.num 0⟩ = Except.ok (q, r) ∧
      r.w = double.num 2 ∧
      r.rm = double.num (6004799503160661 / 18014398509481984) ∧
      r.m = double.num (3 / 2) ∧
      double.lt (double.num 0) r.w = true ∧
      q.es = double.num 0 := by
  rcases (C32_setup_hammer
    ⟨fun name => if name = "W" then some (double.num (-2))
      else if name = "M" then some (double.num 3) else none, double.num 7⟩
    ⟨double.num 0, double.num 0, double.num 0⟩).2.2 with hc | ⟨q, r, h, hw, hrm, hm, _, hes, _⟩
  · rcases hc with ⟨v, hv, hz⟩ | ⟨v, hv, hz⟩
    · have hv2 : v = double.num (-2) := by simpa using hv.symm
      rw [hv2] at hz
      exact absurd hz (by decide!)
    · have hv2 : v = double.num 3 := by simpa using hv.symm
      rw [hv2] at hz
      exact absurd hz (by decide!)
  · have hw2 : r.w = double.num 2 := hw.trans (by decide!)
    refine ⟨q, r, h, hw2, hrm.trans (by decide!), ?_, ?_, hes⟩
    · rw [hm, hw2]
      decide!
    · rw [hw2]
      decide!

end HammerTheorems

end BoostGeometry
